import Mathlib

/-! # LazyLog: sequencer / shard protocol

A shallow embedding of `src/lazylog_new_zookeeper` (`common.h`, `sequencer.cpp`,
`shard.cpp`, `client.cpp`) and of the log of `src/Lazylog` (`sequencer_log.cpp`,
`sequencer.cpp`, `tests.cpp`).

* `std::string` is a list of characters (`Str`).
* `uint64_t` values are natural numbers below `U64 = 2^64`; arithmetic that can
  wrap is written with an explicit `% U64`.
* `std::unordered_map` / `std::map` are association lists (`map_get`, `map_set`,
  `map_erase`), `std::set<uint64_t>` is an ascending list (`set_insert`).
* An uncaught C++ exception (`std::stoull`, `std::stoi`) or an integer division
  by zero ends the process: handlers return an `Outcome` whose `crash`
  constructor records that.
* Loops whose trip count is not bounded by a data structure take a fuel
  argument and report `timeout` when it runs out.
* Wall-clock values (`last_hb_recv`, sleeps) are not modelled.
-/

namespace LazyLog

/-! ## common.h -/

/-- A `std::string`: the list of its characters. -/
abbrev Str := List Char

/-- Number of values of a `uint64_t`. -/
def U64 : Nat := 2 ^ 64

/-- Number of values of a 32-bit `int` on each side of zero. -/
def I32 : Nat := 2 ^ 31

/-- The function `send_line`: the bytes put on the socket for `line`. -/
def send_line (line : Str) : Str := line ++ ['\n']

/-- The function `recv_line`: the characters before the first newline of the
incoming byte stream, or `none` when the stream ends before a newline. -/
def recv_line : Str → Option Str
  | [] => none
  | c :: rest =>
    if c = '\n' then some []
    else match recv_line rest with
      | none => none
      | some out => some (c :: out)

/-- The loop of `split_msg`: `parts` and `cur` are the local variables, the
argument list is the rest of the input. -/
def split_loop : Str → List Str → Str → List Str
  | [], parts, cur => parts ++ [cur]
  | c :: rest, parts, cur =>
    if c = '|' then split_loop rest (parts ++ [cur]) []
    else split_loop rest parts (cur ++ [c])

/-- The function `split_msg`: parse pipe-delimited fields. -/
def split_msg (s : Str) : List Str := split_loop s [] []

/-- The wire text of a message: its fields separated by `|`. -/
def join_msg : List Str → Str
  | [] => []
  | [f] => f
  | f :: g :: rest => f ++ '|' :: join_msg (g :: rest)

/-- The expression `parts.size() > i ? parts[i] : dflt`. -/
def field (parts : List Str) (i : Nat) (dflt : Str) : Str :=
  match parts.get? i with
  | some f => f
  | none => dflt

/-! ### Numbers on the wire -/

/-- The decimal digit `d` as a character. -/
def digitChar (d : Nat) : Char := Char.ofNat (48 + d)

/-- The value of a decimal digit character, `none` for any other character. -/
def digitVal (c : Char) : Option Nat :=
  if 48 ≤ c.toNat ∧ c.toNat ≤ 57 then some (c.toNat - 48) else none

/-- Decimal digits of `n`, most significant first, put in front of `acc`; the
first argument bounds the number of digits produced. -/
def to_digits : Nat → Nat → Str → Str
  | 0, _, acc => acc
  | fuel + 1, n, acc =>
    if n < 10 then digitChar n :: acc
    else to_digits fuel (n / 10) (digitChar (n % 10) :: acc)

/-- The function `std::to_string` on an unsigned value (also `ostream << n`):
its decimal digits, most significant first. -/
def to_string (n : Nat) : Str := to_digits (n + 1) n []

/-- C `isspace` in the "C" locale. -/
def isspace (c : Char) : Bool :=
  c = ' ' || c = '\t' || c = '\n' || c.toNat = 11 || c.toNat = 12 || c = '\r'

/-- Leading decimal digits of `s`, accumulated most significant first; returns
the value read so far and whether at least one digit was read. -/
def read_digits : Str → Nat → Bool → Nat × Bool
  | [], acc, seen => (acc, seen)
  | c :: rest, acc, seen =>
    match digitVal c with
    | some d => read_digits rest (acc * 10 + d) true
    | none => (acc, seen)

/-- Skip leading white space, then an optional sign: returns whether the sign
was `-` and the remaining text. -/
def skip_sign (s : Str) : Bool × Str :=
  match s.dropWhile isspace with
  | '-' :: rest => (true, rest)
  | '+' :: rest => (false, rest)
  | rest => (false, rest)

/-- The function `std::stoull` in base 10 (through `strtoull`): leading white
space and a sign are accepted, text after the digits is ignored, a negative
input is negated modulo `2^64`.  `none` is a thrown `std::invalid_argument`
(no digits) or `std::out_of_range` (magnitude above `2^64 - 1`). -/
def stoull (s : Str) : Option Nat :=
  let (neg, rest) := skip_sign s
  let (v, seen) := read_digits rest 0 false
  if !seen then none
  else if U64 ≤ v then none
  else if neg then some ((U64 - v) % U64) else some v

/-- The function `std::stoi` in base 10 (through `strtol`): `none` is a thrown
`std::invalid_argument` or `std::out_of_range` (value outside 32-bit `int`). -/
def stoi (s : Str) : Option Int :=
  let (neg, rest) := skip_sign s
  let (v, seen) := read_digits rest 0 false
  if !seen then none
  else if neg then (if I32 < v then none else some (-(v : Int)))
  else (if I32 ≤ v then none else some (v : Int))

/-! ### Containers -/

/-- Lookup `m.find(k)` in a map: the value stored under `k`, if any. -/
def map_get {κ β : Type} [DecidableEq κ] (m : List (κ × β)) (k : κ) : Option β :=
  match m with
  | [] => none
  | (k0, v0) :: rest => if k0 = k then some v0 else map_get rest k

/-- Assignment `m[k] = v` on a map. -/
def map_set {κ β : Type} [DecidableEq κ] (m : List (κ × β)) (k : κ) (v : β) : List (κ × β) :=
  match m with
  | [] => [(k, v)]
  | (k0, v0) :: rest => if k0 = k then (k, v) :: rest else (k0, v0) :: map_set rest k v

/-- Removal `m.erase(k)` of a key from a map. -/
def map_erase {κ β : Type} [DecidableEq κ] (m : List (κ × β)) (k : κ) : List (κ × β) :=
  m.filter (fun e => !decide (e.1 = k))

/-- The key set of a map, in storage order. -/
def map_keys {κ β : Type} (m : List (κ × β)) : List κ := m.map Prod.fst

/-- Insertion `s.insert(x)` into a `std::set<uint64_t>` (kept ascending, no
duplicates). -/
def set_insert (s : List Nat) (x : Nat) : List Nat :=
  if x ∈ s then s else s.orderedInsert (· ≤ ·) x

/-- Result of running one connection handler (or one loop iteration) on a
node: it finished in state `st` after sending `reply` (`none`: nothing was
sent), or the process was ended by an uncaught exception or a division by
zero, or the fuel given to an unbounded loop ran out. -/
inductive Outcome (σ : Type) where
  | done (st : σ) (reply : Option Str)
  | crash
  | timeout
  deriving DecidableEq

/-- The struct `Peer`: a network address. -/
structure Peer where
  host : Str
  port : Int
  deriving DecidableEq

/-- One request/response exchange as the callers in this repository perform it
(`tcp_connect`, `send_line`, `recv_line`, `close`): `rpc w p line` is the state
of the outside world afterwards and the line received, `none` when the
connection or the read failed. -/
structure Net (W : Type) where
  rpc : W → Peer → Str → W × Option Str

/-! ### Message tags -/

def tag_APPEND : Str := ['A', 'P', 'P', 'E', 'N', 'D']
def tag_HB : Str := ['H', 'B']
def tag_HBQ : Str := ['H', 'B', 'Q']
def tag_STABLE_UPDATE : Str := ['S', 'T', 'A', 'B', 'L', 'E', '_', 'U', 'P', 'D', 'A', 'T', 'E']
def tag_GC : Str := ['G', 'C']
def tag_PUT : Str := ['P', 'U', 'T']
def tag_UPDATESTABLE : Str := ['U', 'P', 'D', 'A', 'T', 'E', 'S', 'T', 'A', 'B', 'L', 'E']
def tag_READRANGE : Str := ['R', 'E', 'A', 'D', 'R', 'A', 'N', 'G', 'E']
def tag_HB_REPLY : Str := ['H', 'B', '_', 'R', 'E', 'P', 'L', 'Y']
def tag_BATCHVAL : Str := ['B', 'A', 'T', 'C', 'H', 'V', 'A', 'L']
def msg_ACK : Str := ['A', 'C', 'K']
def msg_RETRY : Str := ['R', 'E', 'T', 'R', 'Y']
def msg_HB_ACK : Str := ['H', 'B', '_', 'A', 'C', 'K']
def msg_STABLE_ACK : Str := ['S', 'T', 'A', 'B', 'L', 'E', '_', 'A', 'C', 'K']
def msg_GC_OK : Str := ['G', 'C', '_', 'O', 'K']
def msg_ERR_UNKNOWN : Str := ['E', 'R', 'R', '|', 'U', 'N', 'K', 'N', 'O', 'W', 'N']
def msg_PUT_OK : Str := ['P', 'U', 'T', '_', 'O', 'K']
def msg_OK : Str := ['O', 'K']
def msg_NOT_READY : Str := ['N', 'O', 'T', '_', 'R', 'E', 'A', 'D', 'Y']
def msg_ERR : Str := ['E', 'R', 'R']

/-! ## shard.cpp -/

/-- The globals of a shard process: `store`, `max_pos`, `stable_gp`. -/
structure ShardState where
  store : List (Nat × (Str × Str))
  max_pos : Nat
  stable_gp : Nat
  deriving DecidableEq

/-- The loop over `SEQS` in the READRANGE branch of `handle_conn`.  `replies`
holds, for each sequencer in list order, what `query_sequencer_hb` returns for
it (the empty string when the query failed); the result is `best_stable`, or
`none` when `stoi` / `stoull` throws on a reply. -/
def hbq_loop : List Str → Nat → Option Nat
  | [], best_stable => some best_stable
  | rep :: rest, best_stable =>
    if rep = [] then hbq_loop rest best_stable
    else
      let pparts := split_msg rep
      if 5 ≤ pparts.length ∧ field pparts 0 [] = tag_HB_REPLY then
        match stoi (field pparts 2 []) with
        | none => none
        | some is_lead =>
          match stoull (field pparts 4 []) with
          | none => none
          | some leader_stable =>
            if is_lead ≠ 0 then some (max best_stable leader_stable)
            else hbq_loop rest (max best_stable leader_stable)
      else hbq_loop rest best_stable

/-- The catch-up block of the READRANGE branch (`if (cur_stable < top) ...`):
the shard state with `stable_gp` raised to `best_stable`, or `none` when parsing
a reply throws. -/
def catch_up (hbq : List Str) (st : ShardState) (top : Nat) : Option ShardState :=
  if st.stable_gp < top then
    match hbq_loop hbq st.stable_gp with
    | none => none
    | some best_stable =>
      if best_stable > st.stable_gp then some { st with stable_gp := best_stable }
      else some st
  else some st

/-- The loop `for (uint64_t p = fromp; p <= top; ++p)` of the READRANGE branch:
`results` grows by the stored entry of each visited position.  The counter is
a `uint64_t`, so `++p` wraps; `none` means the fuel ran out. -/
def collect_loop (store : List (Nat × (Str × Str))) (top : Nat) :
    Nat → Nat → List (Nat × Str × Str) → Option (List (Nat × Str × Str))
  | 0, _, _ => none
  | fuel + 1, p, results =>
    if p ≤ top then
      match map_get store p with
      | some pr => collect_loop store top fuel ((p + 1) % U64) (results ++ [(p, pr.1, pr.2)])
      | none => collect_loop store top fuel ((p + 1) % U64) results
    else some results

/-- The text written into `ss` for one element of `results`. -/
def encode_triple (t : Nat × Str × Str) : Str :=
  '|' :: to_string t.1 ++ '|' :: t.2.1 ++ '|' :: t.2.2

/-- The BATCHVAL line built from `results` in the READRANGE branch. -/
def encode_batchval (results : List (Nat × Str × Str)) : Str :=
  tag_BATCHVAL ++ '|' :: to_string results.length ++ (results.map encode_triple).flatten

/-- The function `handle_conn` of the shard.  `fd_in` is the byte stream that
arrives on the connection, `hbq` the replies the sequencers in `SEQS` give to
an `HBQ` query, `fuel` bounds the READRANGE collection loop. -/
def handle_conn (fuel : Nat) (hbq : List Str) (st : ShardState) (fd_in : Str) :
    Outcome ShardState :=
  match recv_line fd_in with
  | none => .done st none
  | some line =>
    let parts := split_msg line
    if parts = [] then .done st none
    else
      let cmd := field parts 0 []
      if cmd = tag_PUT then
        match stoull (field parts 1 ['0']) with
        | none => .crash
        | some pos =>
          let rid := field parts 2 []
          let payload := field parts 3 []
          .done { st with store := map_set st.store pos (rid, payload),
                          max_pos := if pos > st.max_pos then pos else st.max_pos }
            (some msg_PUT_OK)
      else if cmd = tag_UPDATESTABLE then
        match stoull (field parts 1 ['0']) with
        | none => .crash
        | some p => .done { st with stable_gp := max st.stable_gp p } (some msg_OK)
      else if cmd = tag_READRANGE then
        match stoull (field parts 1 ['0']) with
        | none => .crash
        | some fromp =>
          match stoull (field parts 2 ['0']) with
          | none => .crash
          | some top =>
            match catch_up hbq st top with
            | none => .crash
            | some st1 =>
              if st1.stable_gp < top then .done st1 (some msg_NOT_READY)
              else
                match collect_loop st1.store top fuel fromp [] with
                | none => .timeout
                | some results => .done st1 (some (encode_batchval results))
      else .done st (some msg_ERR)

/-! ## sequencer.cpp -/

/-- The globals of a sequencer process.  `mu`, `durable_mu` and `hb_mu` only
serialise access and `last_hb_recv` is a wall-clock time; they are left out. -/
structure SeqState where
  pending_order : List Str
  pending_payload : List (Str × Str)
  durable_positions : List Nat
  last_ordered_gp : Nat
  stable_gp : Nat
  next_gp : Nat
  is_leader : Bool
  view_id : Nat
  sealed : Bool
  deriving DecidableEq

/-- The state of a sequencer process once `main_sequencer` has set
`is_leader = false` and `sealed = true`. -/
def SeqState.init : SeqState :=
  { pending_order := [], pending_payload := [], durable_positions := [],
    last_ordered_gp := 0, stable_gp := 0, next_gp := 1,
    is_leader := false, view_id := 1, sealed := true }

/-- The command line configuration of a sequencer: `PEERS` and `SHARDS`. -/
structure SeqConfig where
  PEERS : List Peer
  SHARDS : List Peer

/-- Lexicographic `operator<` of `std::string`. -/
def str_lt : Str → Str → Bool
  | [], [] => false
  | [], _ :: _ => true
  | _ :: _, [] => false
  | a :: x, b :: y => a.toNat < b.toNat || (a = b && str_lt x y)

/-- The vector `nodes` after `std::sort(nodes.begin(), nodes.end())`. -/
def sort_nodes (nodes : List Str) : List Str :=
  nodes.insertionSort (fun a b => str_lt b a = false)

/-- The expression `my_znode_path.substr(my_znode_path.find_last_of('/') + 1)`. -/
def my_name (my_znode_path : Str) : Str :=
  (my_znode_path.reverse.takeWhile (fun c => decide (c ≠ '/'))).reverse

/-- One round of `zk_election_loop`.  `zk_handle` says whether the ZooKeeper
handle is set; `children` is the result of `zoo_get_children` (`none` when it
did not return `ZOK`). -/
def zk_election_step (zk_handle : Bool) (my_znode_path : Str) (children : Option (List Str))
    (s : SeqState) : SeqState :=
  if !zk_handle || my_znode_path.isEmpty then s
  else
    match children with
    | none => s
    | some nodes =>
      let am_leader : Bool :=
        !nodes.isEmpty && decide ((sort_nodes nodes).head? = some (my_name my_znode_path))
      if am_leader && !s.is_leader then { s with is_leader := true, sealed := false }
      else if !am_leader && s.is_leader then { s with is_leader := false, sealed := true }
      else s

/-- The HB_REPLY line built in the HBQ branch of `handle_connection`. -/
def hb_reply (s : SeqState) : Str :=
  tag_HB_REPLY ++ '|' :: to_string s.view_id ++ '|' :: (if s.is_leader then ['1'] else ['0'])
    ++ '|' :: to_string s.last_ordered_gp ++ '|' :: to_string s.stable_gp

/-- The function `handle_connection` of the sequencer; `fd_in` is the byte
stream that arrives on the connection. -/
def handle_connection (s : SeqState) (fd_in : Str) : Outcome SeqState :=
  match recv_line fd_in with
  | none => .done s none
  | some line =>
    let parts := split_msg line
    if parts = [] then .done s none
    else
      let cmd := field parts 0 []
      if cmd = tag_APPEND then
        let record_id := field parts 1 []
        let payload := if parts.length > 3 then field parts 3 [] else field parts 2 []
        if !s.sealed then
          .done { s with pending_order := s.pending_order ++ [record_id],
                         pending_payload := map_set s.pending_payload record_id payload }
            (some msg_ACK)
        else .done s (some msg_RETRY)
      else if cmd = tag_HB then
        match stoull (field parts 1 ['0']) with
        | none => .crash
        | some their_view =>
          match stoull (field parts 3 ['0']) with
          | none => .crash
          | some their_last =>
            let s1 := if their_view ≥ s.view_id then { s with view_id := their_view } else s
            let s2 :=
              if their_last > s1.last_ordered_gp then { s1 with last_ordered_gp := their_last }
              else s1
            .done s2 (some msg_HB_ACK)
      else if cmd = tag_HBQ then .done s (some (hb_reply s))
      else if cmd = tag_STABLE_UPDATE then
        match stoull (field parts 1 ['0']) with
        | none => .crash
        | some v => .done { s with last_ordered_gp := v, stable_gp := v } (some msg_STABLE_ACK)
      else if cmd = tag_GC then
        match stoull (field parts 1 ['0']) with
        | none => .crash
        | some _ => .done s (some msg_GC_OK)
      else .done s (some msg_ERR_UNKNOWN)

/-- The function `send_put_to_shard`: true exactly when the shard answered
PUT_OK. -/
def send_put_to_shard {W : Type} (net : Net W) (w : W) (sh : Peer) (pos : Nat)
    (rid payload : Str) : W × Bool :=
  let r := net.rpc w sh (tag_PUT ++ '|' :: to_string pos ++ '|' :: rid ++ '|' :: payload)
  (r.1, decide (r.2 = some msg_PUT_OK))

/-- The function `notify_shards_updatestable`, on the list of shards still to
be notified. -/
def notify_shards_updatestable {W : Type} (net : Net W) (upto : Nat) : List Peer → W → W
  | [], w => w
  | sh :: rest, w =>
    notify_shards_updatestable net upto rest
      (net.rpc w sh (tag_UPDATESTABLE ++ '|' :: to_string upto)).1

/-- The loop over `PEERS` in `broadcast_stable_and_wait`. -/
def send_stable_updates {W : Type} (net : Net W) (upto : Nat) : List Peer → W → W
  | [], w => w
  | p :: rest, w =>
    send_stable_updates net upto rest
      (net.rpc w p (tag_STABLE_UPDATE ++ '|' :: to_string upto)).1

/-- The function `broadcast_stable_and_wait`. -/
def broadcast_stable_and_wait {W : Type} (net : Net W) (cfg : SeqConfig) (upto : Nat)
    (s : SeqState) (w : W) : SeqState × W :=
  let w1 := send_stable_updates net upto cfg.PEERS w
  ({ s with stable_gp := upto }, notify_shards_updatestable net upto cfg.SHARDS w1)

/-- The first `for` loop of an ordering iteration: each record id of the batch
gets `next_gp.fetch_add(1)`.  Returns `assigned` and the final `next_gp`. -/
def assign_gps : List Str → Nat → List (Nat × Str) × Nat
  | [], g => ([], g)
  | rid :: rest, g =>
    let r := assign_gps rest ((g + 1) % U64)
    ((g, rid) :: r.1, r.2)

/-- What one ordering iteration leaves behind: the sequencer state, the
outside world, and the PUTs it sent in order, each as (pos, shard_id, ok). -/
structure IterResult (W : Type) where
  st : SeqState
  world : W
  puts : List (Nat × Nat × Bool)
  deriving DecidableEq

/-- The body of the second `for` loop of an ordering iteration, for one element
`(pos, rid)` of `assigned`: payload lookup and erase, PUT to the shard
`pos % SHARDS.size()`, insertion into `durable_positions` on PUT_OK.  Returns the
new state, the new outside world and the PUT sent as (pos, shard_id, ok); `none`
is the division by zero of `pos % SHARDS.size()` with no shard configured. -/
def dispatch_one {W : Type} (net : Net W) (cfg : SeqConfig) (pos : Nat) (rid : Str)
    (s : SeqState) (w : W) : Option (SeqState × W × (Nat × Nat × Bool)) :=
  let payload : Str := (map_get s.pending_payload rid).getD []
  let s1 := { s with pending_payload := map_erase s.pending_payload rid }
  if cfg.SHARDS.length = 0 then none
  else
    let shard_id := pos % cfg.SHARDS.length
    match cfg.SHARDS.get? shard_id with
    | none => none
    | some sh =>
      let r := send_put_to_shard net w sh pos rid payload
      let s2 :=
        if r.2 then { s1 with durable_positions := set_insert s1.durable_positions pos }
        else s1
      some (s2, r.1, (pos, shard_id, r.2))

/-- The second `for` loop of an ordering iteration, over `assigned`; `puts`
records the PUTs sent so far. -/
def dispatch_loop {W : Type} (net : Net W) (cfg : SeqConfig) :
    List (Nat × Str) → SeqState → W → List (Nat × Nat × Bool) → Option (IterResult W)
  | [], s, w, puts => some ⟨s, w, puts⟩
  | (pos, rid) :: rest, s, w, puts =>
    match dispatch_one net cfg pos rid s w with
    | none => none
    | some (s2, w2, put) => dispatch_loop net cfg rest s2 w2 (puts ++ [put])

/-- The loop `while (durable_positions.count(cur + 1)) cur++;`.  Each round
finds another element of the set, so the size of the set bounds the number of
rounds (first argument). -/
def contig_loop (durable : List Nat) : Nat → Nat → Nat
  | 0, cur => cur
  | fuel + 1, cur =>
    if (cur + 1) % U64 ∈ durable then contig_loop durable fuel ((cur + 1) % U64) else cur

/-- The block of an ordering iteration that is run under `durable_mu`: the
contiguous advance of `last_ordered_gp`. -/
def contiguous_advance (s : SeqState) : SeqState :=
  let cur := contig_loop s.durable_positions s.durable_positions.length s.last_ordered_gp
  if cur > s.last_ordered_gp then
    { s with last_ordered_gp := cur,
             durable_positions := s.durable_positions.filter (fun d => !decide (d ≤ cur)) }
  else s

/-- The end of an ordering iteration, after the dispatch loop: contiguous
advance, then `broadcast_stable_and_wait(new_last)` when `new_last > stable_gp`. -/
def finish_iteration {W : Type} (net : Net W) (cfg : SeqConfig) (r : IterResult W) :
    IterResult W :=
  let s3 := contiguous_advance r.st
  let new_last := s3.last_ordered_gp
  if new_last > s3.stable_gp then
    let b := broadcast_stable_and_wait net cfg new_last s3 r.world
    ⟨b.1, b.2, r.puts⟩
  else ⟨s3, r.world, r.puts⟩

/-- One iteration of the `while` loop of `leader_ordering_loop`, entered with
`is_leader` true. -/
def ordering_iteration {W : Type} (net : Net W) (cfg : SeqConfig) (s : SeqState) (w : W) :
    Option (IterResult W) :=
  if s.pending_order = [] then some ⟨s, w, []⟩
  else
    let batch_rids := s.pending_order
    let s0 := { s with pending_order := [] }
    let a := assign_gps batch_rids s0.next_gp
    let s1 := { s0 with next_gp := a.2 }
    match dispatch_loop net cfg a.1 s1 w [] with
    | none => none
    | some r => some (finish_iteration net cfg r)

/-! ## Specification-side definitions -/

/-- The entries of `store` at the positions `fromp, fromp + 1, ..., top`, in that
order: what READRANGE is specified to return. -/
def range_entries (store : List (Nat × (Str × Str))) (fromp top : Nat) : List (Nat × Str × Str) :=
  (List.range' fromp (top + 1 - fromp)).filterMap
    (fun p => (map_get store p).map (fun pr => (p, pr.1, pr.2)))

/-- The leader invariant: `stable_gp ≤ last_ordered_gp < next_gp`, and every
element of `durable_positions` is a GP that was assigned (it is below `next_gp`). -/
def LeaderInv (s : SeqState) : Prop :=
  s.stable_gp ≤ s.last_ordered_gp ∧ s.last_ordered_gp < s.next_gp ∧
    ∀ d ∈ s.durable_positions, d < s.next_gp

instance (s : SeqState) : Decidable (LeaderInv s) := by
  unfold LeaderInv; infer_instance

/-- The byte stream `fd_in` carries an APPEND message. -/
def is_append (fd_in : Str) : Prop :=
  ∃ line, recv_line fd_in = some line ∧ field (split_msg line) 0 [] = tag_APPEND

/-- Runs of one sequencer process made of APPEND handlings and complete ordering
iterations (each taken as one step, entered with `is_leader` true, against any
outside world).  `iter_ok` restricts the states in which an iteration is taken. -/
inductive LeaderRun {W : Type} (net : Net W) (cfg : SeqConfig) (iter_ok : SeqState → Prop) :
    SeqState → SeqState → Prop where
  | refl (s : SeqState) : LeaderRun net cfg iter_ok s s
  | append {s t t1 : SeqState} {fd_in : Str} {reply : Option Str} :
      LeaderRun net cfg iter_ok s t → is_append fd_in →
      handle_connection t fd_in = .done t1 reply → LeaderRun net cfg iter_ok s t1
  | order {s t : SeqState} {w : W} {r : IterResult W} :
      LeaderRun net cfg iter_ok s t → t.is_leader = true → iter_ok t →
      ordering_iteration net cfg t w = some r → LeaderRun net cfg iter_ok s r.st

/-- The 64-bit counter `next_gp` does not wrap in an iteration started in `s`. -/
def no_wrap (s : SeqState) : Prop := s.next_gp + s.pending_order.length < U64

instance (s : SeqState) : Decidable (no_wrap s) := by
  unfold no_wrap; infer_instance

/-- The GP that an HB line (field 3) or a STABLE_UPDATE line (field 1) carries. -/
def carried_gp (line : Str) : Option Nat :=
  let parts := split_msg line
  if field parts 0 [] = tag_HB then stoull (field parts 3 ['0'])
  else if field parts 0 [] = tag_STABLE_UPDATE then stoull (field parts 1 ['0'])
  else none

/-- States of one sequencer process reachable from `SeqState.init` by handled
connections (any message), rounds of the election loop and complete ordering
iterations (entered with `is_leader` true, against any outside world).  With
`bounded = true` only those runs are kept in which every handled HB or
STABLE_UPDATE carries a GP below the replica's `next_gp` and `next_gp` does not
wrap. -/
inductive SeqReach {W : Type} (net : Net W) (cfg : SeqConfig) (bounded : Bool) :
    SeqState → Prop where
  | init : SeqReach net cfg bounded SeqState.init
  | msg {s s1 : SeqState} {fd_in : Str} {reply : Option Str} :
      SeqReach net cfg bounded s → handle_connection s fd_in = .done s1 reply →
      (bounded = true → ∀ line v, recv_line fd_in = some line → carried_gp line = some v →
        v < s.next_gp) →
      SeqReach net cfg bounded s1
  | elect {s : SeqState} (zk_handle : Bool) (my_znode_path : Str) (children : Option (List Str)) :
      SeqReach net cfg bounded s →
      SeqReach net cfg bounded (zk_election_step zk_handle my_znode_path children s)
  | order {s : SeqState} {w : W} {r : IterResult W} :
      SeqReach net cfg bounded s → s.is_leader = true → (bounded = true → no_wrap s) →
      ordering_iteration net cfg s w = some r → SeqReach net cfg bounded r.st

/-- A network in which no peer ever answers. -/
def null_net : Net Unit := ⟨fun _ _ _ => ((), none)⟩

/-- A configuration with three shards and no peer sequencer. -/
def ex_cfg : SeqConfig :=
  { PEERS := [], SHARDS := [⟨['s', '0'], 7000⟩, ⟨['s', '1'], 7001⟩, ⟨['s', '2'], 7002⟩] }

/-- A leader with GPs 1..6 assigned, 1..2 folded into `last_ordered_gp`, and
3, 4, 6 acknowledged (the PUT of 5 failed). -/
def ex_gap_state : SeqState :=
  { pending_order := [], pending_payload := [], durable_positions := [3, 4, 6],
    last_ordered_gp := 2, stable_gp := 2, next_gp := 7,
    is_leader := true, view_id := 1, sealed := false }

/-- A shard that stores GPs 1 and 3 and knows that GP 5 is stable. -/
def ex_shard : ShardState :=
  { store := [(1, (['r', '1'], ['a'])), (3, (['r', '3'], ['c']))], max_pos := 3,
    stable_gp := 5 }

/-- The byte stream of the request READRANGE|1|9. -/
def ex_readrange_far : Str := send_line (join_msg [tag_READRANGE, to_string 1, to_string 9])

/-- The byte stream of the heartbeat HB|1|2|5. -/
def ex_hb : Str := send_line (join_msg [tag_HB, ['1'], ['2'], ['5']])

/-- The election znode of the example replica. -/
def ex_znode : Str :=
  ['/', 'l', 'a', 'z', 'y', 'l', 'o', 'g', '/', 'e', 'l', 'e', 'c', 't', 'i', 'o', 'n', '/',
    'n', '_', '0', '0', '0', '0', '0', '0', '0', '0', '0', '1']

/-- The children of the election path when the example replica is alone. -/
def ex_children : List Str := [['n', '_', '0', '0', '0', '0', '0', '0', '0', '0', '0', '1']]

/-- A follower that has handled HB|1|2|5 and was then promoted by the election
loop: `last_ordered_gp = 5` while `next_gp` is still 1. -/
def ex_promoted : SeqState :=
  { SeqState.init with last_ordered_gp := 5, is_leader := true, sealed := false }

/-- A freshly elected leader: the initial state after the election loop found
this replica first in the sorted children. -/
def ex_leader : SeqState := { SeqState.init with is_leader := true, sealed := false }

/-- The byte stream of the message APPEND|r1|7|hi. -/
def ex_append : Str := send_line (join_msg [tag_APPEND, ['r', '1'], ['7'], ['h', 'i']])

/-- The state of `ex_leader` after it has handled `ex_append`. -/
def ex_leader_one : SeqState :=
  { ex_leader with pending_order := [['r', '1']],
                   pending_payload := [(['r', '1'], ['h', 'i'])] }

/-- The follower `SeqState.init` after it has handled `ex_hb`. -/
def ex_follower_hb : SeqState := { SeqState.init with last_ordered_gp := 5 }

/-- The local variable `am_leader` of `zk_election_loop`: `nodes` is not empty and its
first element after sorting is this replica's child name. -/
def am_leader (nodes : List Str) (my_znode_path : Str) : Bool :=
  !nodes.isEmpty && decide ((sort_nodes nodes).head? = some (my_name my_znode_path))

/-- A child name of the form `n_<decimal digits>` (at least one digit). -/
def is_seq_name : Str → Bool
  | 'n' :: '_' :: d => !d.isEmpty && d.all (fun c => decide (48 ≤ c.toNat ∧ c.toNat ≤ 57))
  | _ => false

/-- The number that a string of decimal digits denotes. -/
def dec_value (d : Str) : Nat := d.foldl (fun acc c => acc * 10 + (c.toNat - 48)) 0

/-- The numeric suffix of a child name `n_<decimal digits>`. -/
def seq_number (name : Str) : Nat := dec_value (name.drop 2)

/-- The election znode `/lazylog/election/n_9`. -/
def ex_znode_9 : Str :=
  ['/', 'l', 'a', 'z', 'y', 'l', 'o', 'g', '/', 'e', 'l', 'e', 'c', 't', 'i', 'o', 'n', '/',
    'n', '_', '9']

/-- The children `n_10` and `n_9`. -/
def ex_children_10_9 : List Str := [['n', '_', '1', '0'], ['n', '_', '9']]

/-- The election znode `/lazylog/election/n_0000000002`. -/
def ex_znode_2 : Str :=
  ['/', 'l', 'a', 'z', 'y', 'l', 'o', 'g', '/', 'e', 'l', 'e', 'c', 't', 'i', 'o', 'n', '/',
    'n', '_', '0', '0', '0', '0', '0', '0', '0', '0', '0', '2']

/-- The children `n_0000000002` and `n_0000000001`. -/
def ex_children_2_1 : List Str :=
  [['n', '_', '0', '0', '0', '0', '0', '0', '0', '0', '0', '2'],
   ['n', '_', '0', '0', '0', '0', '0', '0', '0', '0', '0', '1']]

/-- The globals of a sequencer process before `main_sequencer` assigns
`is_leader = false` and `sealed = true`: not leader, not sealed. -/
def ex_unsealed_follower : SeqState := { SeqState.init with sealed := false }

/-! ## client.cpp -/

/-- The loop of `parse_batchval`: `n` rounds remain and the argument list is
`parts` from index `idx` on.  A round stops the loop when fewer than three fields
are left (`idx + 2 >= parts.size()`); `none` is an exception thrown by `stoull`. -/
def parse_loop : Nat → List Str → Option (List (Nat × Str × Str))
  | 0, _ => some []
  | n + 1, a :: rid :: payload :: rest =>
    match stoull a with
    | none => none
    | some pos =>
      match parse_loop n rest with
      | none => none
      | some out => some ((pos, rid, payload) :: out)
  | _ + 1, _ => some []

/-- The function `parse_batchval` of the client; `none` is an exception thrown by
`stoi` or `stoull`. -/
def parse_batchval (s : Str) : Option (List (Nat × Str × Str)) :=
  let parts := split_msg s
  if parts.length < 2 then some []
  else if field parts 0 [] ≠ tag_BATCHVAL then some []
  else
    match stoi (field parts 1 []) with
    | none => none
    | some n => parse_loop n.toNat (parts.drop 2)

/-- The text `ostream << i` writes for an `int`. -/
def int_to_string (i : Int) : Str :=
  if i < 0 then '-' :: to_string i.natAbs else to_string i.toNat

/-- The line `read_range` prints for a shard that answered NOT_READY. -/
def not_ready_line (sh : Peer) : Str :=
  ['S', 'h', 'a', 'r', 'd', ' '] ++ sh.host ++ ':' :: int_to_string sh.port
    ++ [' ', 'N', 'O', 'T', '_', 'R', 'E', 'A', 'D', 'Y', ' ', 'f', 'o', 'r', ' ',
        'r', 'a', 'n', 'g', 'e']

/-- The line `read_range` prints for position `p`. -/
def position_line (results : List (Nat × (Str × Str))) (p : Nat) : Str :=
  match map_get results p with
  | some pr => to_string p ++ [' ', '|', ' '] ++ pr.1 ++ [' ', '|', ' '] ++ pr.2
  | none => to_string p ++ [' ', '|', ' ', 'M', 'I', 'S', 'S', 'I', 'N', 'G']

/-- The inner loop of `read_range` over the parsed `items` of one reply:
`results[pos] = {rid, payload}`. -/
def store_items (results : List (Nat × (Str × Str))) (items : List (Nat × Str × Str)) :
    List (Nat × (Str × Str)) :=
  items.foldl (fun m t => map_set m t.1 (t.2.1, t.2.2)) results

/-- The loop of `read_range` over `SHARDS`.  Each shard comes with what the
exchange with it yields: `none` when the connection or the read failed, else the
reply line.  `out` is the text printed so far, line by line; `none` is an
exception thrown while parsing a reply. -/
def gather_loop : List (Peer × Option Str) → List (Nat × (Str × Str)) → List Str →
    Option (List (Nat × (Str × Str)) × List Str)
  | [], results, out => some (results, out)
  | (_, none) :: rest, results, out => gather_loop rest results out
  | (sh, some rep) :: rest, results, out =>
    if rep = msg_NOT_READY then gather_loop rest results (out ++ [not_ready_line sh])
    else
      match parse_batchval rep with
      | none => none
      | some items => gather_loop rest (store_items results items) out

/-- The loop `for (uint64_t p = from_pos; p <= to_pos; ++p)` of `read_range`; the
counter is a `uint64_t`, so `++p` wraps; `none` means the fuel ran out. -/
def print_loop (results : List (Nat × (Str × Str))) (to_pos : Nat) :
    Nat → Nat → List Str → Option (List Str)
  | 0, _, _ => none
  | fuel + 1, p, out =>
    if p ≤ to_pos then print_loop results to_pos fuel ((p + 1) % U64) (out ++ [position_line results p])
    else some out

/-- The function `read_range` of the client.  The state of the outcome is the text
written to `std::cout`, line by line; nothing is sent back. -/
def read_range (fuel : Nat) (shards : List (Peer × Option Str)) (from_pos to_pos : Nat) :
    Outcome (List Str) :=
  match gather_loop shards [] [] with
  | none => .crash
  | some (results, out) =>
    match print_loop results to_pos fuel from_pos out with
    | none => .timeout
    | some lines => .done lines none

/-! ## Lazylog/src/sequencer_log.cpp -/

/-- The struct `SequencerLog::Entry`. -/
structure Entry where
  client_id : Int
  req_id : Int
  record : Str
  deriving DecidableEq

/-- The class `SequencerLog`: the vector `log` and the counter
`last_local_index` (an `int64_t`, which 2^63 appends would be needed to
overflow). -/
structure SequencerLog where
  log : List Entry
  last_local_index : Int
  deriving DecidableEq

/-- Conversion of an integer value to a 32-bit `int`. -/
def to_int32 (x : Int) : Int := (x + 2 ^ 31) % 2 ^ 32 - 2 ^ 31

/-- A default-constructed `SequencerLog`. -/
def SequencerLog.empty : SequencerLog := { log := [], last_local_index := -1 }

/-- The method `SequencerLog::append`: the new log and the returned `int`. -/
def SequencerLog.append (l : SequencerLog) (e : Entry) : SequencerLog × Int :=
  let l1 : SequencerLog := { log := l.log ++ [e], last_local_index := l.last_local_index + 1 }
  (l1, to_int32 l1.last_local_index)

/-- The method `SequencerLog::get`: `log[index]`, `none` when the index is outside
the vector (undefined behaviour in the source). -/
def SequencerLog.get (l : SequencerLog) (index : Int) : Option Entry :=
  if 0 ≤ index then l.log.get? index.toNat else none

/-- The method `SequencerLog::gc_up_to`. -/
def SequencerLog.gc_up_to (l : SequencerLog) (index : Int) : SequencerLog :=
  if 0 ≤ index ∧ index.toNat < l.log.length then { l with log := l.log.drop (index.toNat + 1) }
  else l

/-- The method `SequencerLog::size`: `log.size()` returned as an `int`. -/
def SequencerLog.size (l : SequencerLog) : Int := to_int32 l.log.length

/-- Successive calls of `append`, one per element of `es`: the final log and the
returned values in call order. -/
def append_all : SequencerLog → List Entry → SequencerLog × List Int
  | l, [] => (l, [])
  | l, e :: rest =>
    let r := l.append e
    let r2 := append_all r.1 rest
    (r2.1, r.2 :: r2.2)

/-! ## Lazylog/src/tests.cpp -/

/-- The entries appended by `main`: `{1, i, "record"}` for `i = 0, ..., 999`. -/
def tests_entries : List Entry :=
  (List.range 1000).map
    (fun (i : Nat) => { client_id := 1, req_id := (i : Int), record := ['r', 'e', 'c', 'o', 'r', 'd'] })

/-- The function `main` of `tests.cpp`: the two sizes it prints. -/
def tests_main : Int × Int :=
  let l := (append_all SequencerLog.empty tests_entries).1
  (l.size, (l.gc_up_to 499).size)

/-! ## Example client inputs -/

/-- One shard that answers NOT_READY. -/
def ex_not_ready : List (Peer × Option Str) := [(⟨['s', '0'], 7000⟩, some msg_NOT_READY)]

/-- Three shards: the first answers NOT_READY, the second is unreachable, the third
answers BATCHVAL|1|2|r2|b. -/
def ex_replies : List (Peer × Option Str) :=
  [(⟨['s', '0'], 7000⟩, some msg_NOT_READY), (⟨['s', '1'], 7001⟩, none),
   (⟨['s', '2'], 7002⟩, some (encode_batchval [(2, ['r', '2'], ['b'])]))]

/-! ## Durable prefix: specification-side definitions -/

/-- Runs of a leader that starts in `ex_leader`, made of APPEND handlings and complete
ordering iterations (each taken as one step, against any outside world, so with any PUT
outcomes, and with a `next_gp` that does not wrap): `LeaderTrace net cfg s hist` says that
the run can be in state `s` having sent the PUTs `hist`, each as (pos, shard_id, ok). -/
inductive LeaderTrace {W : Type} (net : Net W) (cfg : SeqConfig) :
    SeqState → List (Nat × Nat × Bool) → Prop where
  | init : LeaderTrace net cfg ex_leader []
  | append {t t1 : SeqState} {hist : List (Nat × Nat × Bool)} {fd_in : Str}
      {reply : Option Str} :
      LeaderTrace net cfg t hist → is_append fd_in →
      handle_connection t fd_in = .done t1 reply → LeaderTrace net cfg t1 hist
  | order {t : SeqState} {hist : List (Nat × Nat × Bool)} {w : W} {r : IterResult W} :
      LeaderTrace net cfg t hist → t.is_leader = true → no_wrap t →
      ordering_iteration net cfg t w = some r → LeaderTrace net cfg r.st (hist ++ r.puts)

/-- The durable-prefix invariant of a leader state against the PUTs sent so far: the
leader invariant; every PUT was sent for an assigned GP to the shard `pos % |SHARDS|`;
every GP in `(0, last_ordered_gp]` has a PUT that was answered PUT_OK; every element of
`durable_positions` lies strictly between `last_ordered_gp` and `next_gp` and has a PUT
that was answered PUT_OK. -/
def DurableInv (cfg : SeqConfig) (s : SeqState) (hist : List (Nat × Nat × Bool)) : Prop :=
  LeaderInv s ∧
    (∀ q ∈ hist, 0 < q.1 ∧ q.1 < s.next_gp ∧ q.2.1 = q.1 % cfg.SHARDS.length) ∧
    (∀ g, 0 < g → g ≤ s.last_ordered_gp → (g, g % cfg.SHARDS.length, true) ∈ hist) ∧
    (∀ d ∈ s.durable_positions,
      s.last_ordered_gp < d ∧ (d, d % cfg.SHARDS.length, true) ∈ hist)

/-- A network in which every peer answers PUT_OK. -/
def ok_net : Net Unit := ⟨fun w _ _ => (w, some msg_PUT_OK)⟩

/-- The state of `ex_leader_one` after one ordering iteration on `ok_net`: GP 1 was
assigned, acknowledged and folded into `last_ordered_gp`. -/
def ex_one_done : SeqState :=
  { ex_leader with next_gp := 2, last_ordered_gp := 1, stable_gp := 1 }
/-! ## READRANGE catch-up: specification-side definitions -/

/-- The test the READRANGE loop applies to an HBQ reply before parsing it: the reply is
not empty, has at least five fields and the tag HB_REPLY. -/
def hb_reply_shape (rep : Str) : Bool :=
  !decide (rep = []) &&
    decide (5 ≤ (split_msg rep).length ∧ field (split_msg rep) 0 [] = tag_HB_REPLY)

/-- The fields `(is_lead, leader_stable)` of a reply that passes `hb_reply_shape` and whose
fields 2 and 4 are numbers. -/
def hb_reply_fields (rep : Str) : Option (Int × Nat) :=
  if hb_reply_shape rep then
    match stoi (field (split_msg rep) 2 []), stoull (field (split_msg rep) 4 []) with
    | some is_lead, some leader_stable => some (is_lead, leader_stable)
    | _, _ => none
  else none

/-- A reply that passes `hb_reply_shape` but whose field 2 or field 4 is not a number. -/
def hb_reply_bad (rep : Str) : Bool := hb_reply_shape rep && (hb_reply_fields rep).isNone

/-- The replies consulted: those in list order up to and including the first one that
reports a leader (`is_lead` non-zero). -/
def consulted : List Str → List Str
  | [] => []
  | rep :: rest =>
    match hb_reply_fields rep with
    | some (is_lead, _) => if is_lead ≠ 0 then [rep] else rep :: consulted rest
    | none => rep :: consulted rest

/-- The stable fields of the replies consulted. -/
def stables_seen (replies : List Str) : List Nat :=
  (consulted replies).filterMap (fun rep => (hb_reply_fields rep).map Prod.snd)

/-- A shard with `stable_gp = 2`. -/
def ex_shard_low : ShardState := { store := [], max_pos := 0, stable_gp := 2 }

/-- HBQ replies of four sequencers: no answer, a line that is not an HB_REPLY, a follower
with stable 4, the leader with stable 7; a fifth reply with stable 9 comes after the
leader. -/
def ex_hbq_replies : List Str :=
  [[], msg_ERR, join_msg [tag_HB_REPLY, ['1'], ['0'], ['4'], ['4']],
   join_msg [tag_HB_REPLY, ['1'], ['1'], ['7'], ['7']],
   join_msg [tag_HB_REPLY, ['1'], ['0'], ['9'], ['9']]]

/-- An HBQ reply whose `is_leader` field is not a number: HB_REPLY|1|x|0|7. -/
def ex_hbq_bad : List Str := [join_msg [tag_HB_REPLY, ['1'], ['x'], ['0'], ['7']]]
/-! ## BATCHVAL: specification-side definitions -/

/-- The fields that follow `BATCHVAL|n` in the encoding of `results`: position, record
id and payload of each triple, in order. -/
def triple_fields : List (Nat × Str × Str) → List Str
  | [] => []
  | t :: rest => to_string t.1 :: t.2.1 :: t.2.2 :: triple_fields rest

/-- Two triples, the second with an empty payload. -/
def ex_triples : List (Nat × Str × Str) := [(1, ['r', '1'], ['a']), (2, ['r', '2'], [])]
/-! ## Range loops: example inputs -/

/-- A shard whose `stable_gp` is `2^64 - 1` (for instance after UPDATESTABLE with that
value), so that every READRANGE passes the stable gate. -/
def ex_shard_max : ShardState :=
  { store := [(1, (['r', '1'], ['a']))], max_pos := 1, stable_gp := U64 - 1 }

/-- The byte stream of the request READRANGE|1|18446744073709551615. -/
def ex_readrange_max : Str :=
  send_line (join_msg [tag_READRANGE, to_string 1, to_string (U64 - 1)])
/-! ## SequencerLog: specification-side definitions -/

/-- The logs reachable from a default-constructed `SequencerLog` by calls of `append`
and `gc_up_to`. -/
inductive LogReach : SequencerLog → Prop where
  | empty : LogReach SequencerLog.empty
  | append {l : SequencerLog} (e : Entry) : LogReach l → LogReach (l.append e).1
  | gc {l : SequencerLog} (index : Int) : LogReach l → LogReach (l.gc_up_to index)

/-- The entries `{1, 0, "a"}` and `{1, 1, "b"}`. -/
def ex_entry_a : Entry := { client_id := 1, req_id := 0, record := ['a'] }
def ex_entry_b : Entry := { client_id := 1, req_id := 1, record := ['b'] }

/-- The log after `append(a)` and `gc_up_to(0)`: empty, with `last_local_index = 0`. -/
def ex_log_gc : SequencerLog := (SequencerLog.empty.append ex_entry_a).1.gc_up_to 0

/-! ## Lazylog/src/sequencer.cpp -/

/-- The members of `Sequencer` (and of its `SequencerState`) that the log operations
use: `state.log`, `state.last_ordered_gp`, `state.stable_gp`, `next_global_pos` and
`local_to_gp`.  The counters are `int64_t`; 2^63 assignments would be needed to
overflow them. -/
structure Sequencer where
  log : SequencerLog
  last_ordered_gp : Int
  stable_gp : Int
  next_global_pos : Int
  local_to_gp : List (Int × Int)
  deriving DecidableEq

/-- A default-constructed `Sequencer`. -/
def Sequencer.init : Sequencer :=
  { log := SequencerLog.empty, last_ordered_gp := -1, stable_gp := -1, next_global_pos := 0,
    local_to_gp := [] }

/-- The method `Sequencer::append_local_entry`: the new state and the returned
`local_idx`. -/
def Sequencer.append_local_entry (s : Sequencer) (client_id req_id : Int) (record : Str) :
    Sequencer × Int :=
  let r := s.log.append { client_id := client_id, req_id := req_id, record := record }
  ({ s with log := r.1 }, r.2)

/-- The first statement of `Sequencer::replicate_to_followers`: the entry read with
`state.log.get(local_index)`. -/
def Sequencer.replicate_read (s : Sequencer) (local_index : Int) : Option Entry :=
  s.log.get local_index

/-- The method `Sequencer::assign_global_pos`: the new state and the returned value. -/
def Sequencer.assign_global_pos (s : Sequencer) (local_index : Int) : Sequencer × Int :=
  let gp := s.next_global_pos
  ({ s with next_global_pos := gp + 1, local_to_gp := map_set s.local_to_gp local_index gp,
            last_ordered_gp := gp, stable_gp := gp }, to_int32 gp)

/-- The method `Sequencer::gc_up_to`. -/
def Sequencer.gc_up_to (s : Sequencer) (gp : Int) : Sequencer :=
  let to_erase := (s.local_to_gp.filter (fun kv => decide (kv.2 ≤ gp))).map Prod.fst
  let max_local_to_gc := to_erase.foldl max (-1)
  let s1 := { s with local_to_gp := to_erase.foldl map_erase s.local_to_gp }
  if max_local_to_gc ≥ 0 then { s1 with log := s1.log.gc_up_to max_local_to_gc, stable_gp := gp }
  else s1

/-! ## Leader invariant: what a replica has heard -/

/-- The GP that the message arriving on `fd_in` carries when it is an HB (field 3) or a
STABLE_UPDATE (field 1) with a numeric field; 0 for any other input. -/
def heard_gp (fd_in : Str) : Nat :=
  match recv_line fd_in with
  | some line => (carried_gp line).getD 0
  | none => 0

/-- States of one sequencer process reachable from `SeqState.init` by handled
connections (any message), rounds of the election loop and complete ordering iterations
(entered with `is_leader` true, against any outside world), with two facts about the run
that led there: `heard`, the largest GP that a handled HB or STABLE_UPDATE carried (0 when
there was none), and `nowrap`, whether the 64-bit `next_gp` did not wrap in any
iteration. -/
inductive SeqHistory {W : Type} (net : Net W) (cfg : SeqConfig) :
    SeqState → Nat → Bool → Prop where
  | init : SeqHistory net cfg SeqState.init 0 true
  | msg {s s1 : SeqState} {heard : Nat} {nowrap : Bool} {fd_in : Str} {reply : Option Str} :
      SeqHistory net cfg s heard nowrap → handle_connection s fd_in = .done s1 reply →
      SeqHistory net cfg s1 (max heard (heard_gp fd_in)) nowrap
  | elect {s : SeqState} {heard : Nat} {nowrap : Bool} (zk_handle : Bool)
      (my_znode_path : Str) (children : Option (List Str)) :
      SeqHistory net cfg s heard nowrap →
      SeqHistory net cfg (zk_election_step zk_handle my_znode_path children s) heard nowrap
  | order {s : SeqState} {heard : Nat} {nowrap : Bool} {w : W} {r : IterResult W} :
      SeqHistory net cfg s heard nowrap → s.is_leader = true →
      ordering_iteration net cfg s w = some r →
      SeqHistory net cfg r.st heard (nowrap && decide (no_wrap s))

/-- The byte stream of the heartbeat HB|1|2|1. -/
def ex_hb_low : Str := send_line (join_msg [tag_HB, ['1'], ['2'], ['1']])

/-- The byte stream of the message STABLE_UPDATE|1. -/
def ex_stable_update : Str := send_line (join_msg [tag_STABLE_UPDATE, ['1']])

/-! ## Wire codec lemmas -/

theorem recv_line_append (l rest : Str) (h : '\n' ∉ l) :
    recv_line (l ++ '\n' :: rest) = some l := by
  induction l with
  | nil => simp [recv_line]
  | cons c t ih =>
    have hc : c ≠ '\n' := fun e => h (by simp [e])
    have ht : '\n' ∉ t := fun e => h (List.mem_cons_of_mem _ e)
    simp [recv_line, hc, ih ht]

theorem recv_send_line (l : Str) (h : '\n' ∉ l) : recv_line (send_line l) = some l :=
  recv_line_append l [] h

theorem split_loop_field (f rest : Str) (parts : List Str) (cur : Str) (h : '|' ∉ f) :
    split_loop (f ++ rest) parts cur = split_loop rest parts (cur ++ f) := by
  induction f generalizing cur with
  | nil => simp
  | cons c t ih =>
    have hc : c ≠ '|' := fun e => h (by simp [e])
    have ht : '|' ∉ t := fun e => h (List.mem_cons_of_mem _ e)
    simp [split_loop, hc, ih _ ht]

theorem split_loop_join (f : Str) (fs : List Str) (parts : List Str) (cur : Str)
    (h : ∀ g ∈ f :: fs, '|' ∉ g) :
    split_loop (join_msg (f :: fs)) parts cur = parts ++ (cur ++ f) :: fs := by
  induction fs generalizing f parts cur with
  | nil =>
    have := split_loop_field f [] parts cur (h f (by simp))
    simpa [join_msg, split_loop] using this
  | cons g rest ih =>
    have hf : '|' ∉ f := h f (by simp)
    have hrest : ∀ x ∈ g :: rest, '|' ∉ x := fun x hx => h x (List.mem_cons_of_mem _ hx)
    rw [join_msg, split_loop_field f _ parts cur hf]
    simp [split_loop, ih g (parts ++ [cur ++ f]) [] hrest]

theorem split_join (f : Str) (fs : List Str) (h : ∀ g ∈ f :: fs, '|' ∉ g) :
    split_msg (join_msg (f :: fs)) = f :: fs := by
  simpa [split_msg] using split_loop_join f fs [] [] h

/-! ## Decimal numbers -/

theorem digitVal_digitChar (d : Nat) (h : d < 10) : digitVal (digitChar d) = some d := by
  interval_cases d <;> decide

theorem digitChar_ne_pipe (d : Nat) (h : d < 10) : digitChar d ≠ '|' := by
  interval_cases d <;> decide

theorem digitChar_ne_newline (d : Nat) (h : d < 10) : digitChar d ≠ '\n' := by
  interval_cases d <;> decide

theorem digitChar_not_space (d : Nat) (h : d < 10) : isspace (digitChar d) = false := by
  interval_cases d <;> decide

theorem digitChar_ne_minus (d : Nat) (h : d < 10) : digitChar d ≠ '-' := by
  interval_cases d <;> decide

theorem digitChar_ne_plus (d : Nat) (h : d < 10) : digitChar d ≠ '+' := by
  interval_cases d <;> decide

/-- A character that is a decimal digit. -/
theorem to_digits_chars (fuel n : Nat) (acc : Str) :
    ∀ c ∈ to_digits fuel n acc, c ∈ acc ∨ ∃ d, d < 10 ∧ c = digitChar d := by
  induction fuel generalizing n acc with
  | zero => intro c hc; exact Or.inl hc
  | succ f ih =>
    intro c hc
    unfold to_digits at hc
    split at hc
    · rcases List.mem_cons.1 hc with h | h
      · exact Or.inr ⟨n, by assumption, h⟩
      · exact Or.inl h
    · rcases ih _ _ c hc with h | h
      · rcases List.mem_cons.1 h with h1 | h1
        · exact Or.inr ⟨n % 10, Nat.mod_lt _ (by norm_num), h1⟩
        · exact Or.inl h1
      · exact Or.inr h

theorem to_string_chars (n : Nat) : ∀ c ∈ to_string n, ∃ d, d < 10 ∧ c = digitChar d := by
  intro c hc
  rcases to_digits_chars (n + 1) n [] c hc with h | h
  · simp at h
  · exact h

theorem to_string_no_pipe (n : Nat) : '|' ∉ to_string n := by
  intro h
  obtain ⟨d, hd, e⟩ := to_string_chars n _ h
  exact digitChar_ne_pipe d hd e.symm

theorem to_string_no_newline (n : Nat) : '\n' ∉ to_string n := by
  intro h
  obtain ⟨d, hd, e⟩ := to_string_chars n _ h
  exact digitChar_ne_newline d hd e.symm

theorem to_digits_head (fuel n : Nat) (acc : Str) :
    ∃ d tail, d < 10 ∧ to_digits (fuel + 1) n acc = digitChar d :: tail := by
  induction fuel generalizing n acc with
  | zero =>
    unfold to_digits
    split
    · exact ⟨n, acc, by assumption, rfl⟩
    · exact ⟨n % 10, acc, Nat.mod_lt _ (by norm_num), by simp [to_digits]⟩
  | succ f ih =>
    unfold to_digits
    split
    · exact ⟨n, acc, by assumption, rfl⟩
    · exact ih _ _

theorem read_to_digits (fuel n : Nat) (acc : Str) (a : Nat) (seen : Bool) (h : n < fuel) :
    read_digits (to_digits fuel n acc) a seen
      = read_digits acc (a * 10 ^ (Nat.log 10 n + 1) + n) true := by
  induction fuel generalizing n acc a seen with
  | zero => omega
  | succ f ih =>
    unfold to_digits
    split
    · rename_i hn
      have hlog : Nat.log 10 n = 0 := Nat.log_of_lt hn
      simp [read_digits, digitVal_digitChar n hn, hlog]
    · rename_i hn
      have hn10 : 10 ≤ n := by omega
      have hf : n / 10 < f := by omega
      rw [ih (n / 10) _ a seen hf]
      have hd := digitVal_digitChar (n % 10) (Nat.mod_lt _ (by norm_num))
      have hlog : Nat.log 10 n = Nat.log 10 (n / 10) + 1 := by
        rw [Nat.log_of_one_lt_of_le (by norm_num) hn10]
      simp only [read_digits, hd]
      congr 1
      have hdiv := Nat.div_add_mod n 10
      have hp : 10 ^ (Nat.log 10 (n / 10) + 1 + 1) = 10 ^ (Nat.log 10 (n / 10) + 1) * 10 :=
        pow_succ _ _
      have hring : (a * 10 ^ (Nat.log 10 (n / 10) + 1) + n / 10) * 10 + n % 10
          = a * (10 ^ (Nat.log 10 (n / 10) + 1) * 10) + (10 * (n / 10) + n % 10) := by ring
      rw [hlog, hp, hring, hdiv]

theorem stoull_to_string (n : Nat) (h : n < U64) : stoull (to_string n) = some n := by
  obtain ⟨d, tail, hd, e⟩ := to_digits_head n n []
  have hskip : skip_sign (to_string n) = (false, to_string n) := by
    unfold skip_sign to_string
    rw [e]
    have h1 := digitChar_not_space d hd
    have h2 := digitChar_ne_minus d hd
    have h3 := digitChar_ne_plus d hd
    simp only [List.dropWhile, h1]
    split
    · rename_i heq; simp at heq; exact absurd heq.1 h2
    · rename_i heq; simp at heq; exact absurd heq.1 h3
    · rfl
  have hread : read_digits (to_string n) 0 false = (n, true) := by
    unfold to_string
    rw [read_to_digits (n + 1) n [] 0 false (by omega)]
    simp [read_digits]
  unfold stoull
  simp only [hskip, hread]
  simp [Nat.not_le.2 h]

/-! ## Container lemmas -/

theorem map_get_set_self {κ β : Type} [DecidableEq κ] (m : List (κ × β)) (k : κ) (v : β) :
    map_get (map_set m k v) k = some v := by
  induction m with
  | nil => simp [map_set, map_get]
  | cons e rest ih =>
    obtain ⟨k0, v0⟩ := e
    unfold map_set
    split
    · simp [map_get]
    · rename_i hne
      simp [map_get, hne, ih]

theorem map_get_set_ne {κ β : Type} [DecidableEq κ] (m : List (κ × β)) (k k1 : κ) (v : β)
    (h : k1 ≠ k) : map_get (map_set m k v) k1 = map_get m k1 := by
  induction m with
  | nil => simp [map_set, map_get, Ne.symm h]
  | cons e rest ih =>
    obtain ⟨k0, v0⟩ := e
    unfold map_set
    split
    · rename_i heq
      subst heq
      simp [map_get, Ne.symm h]
    · by_cases hk : k0 = k1
      · simp [map_get, hk]
      · simp [map_get, hk, ih]

theorem map_erase_cons {κ β : Type} [DecidableEq κ] (k0 : κ) (v0 : β) (rest : List (κ × β))
    (k : κ) : map_erase ((k0, v0) :: rest) k
      = if k0 = k then map_erase rest k else (k0, v0) :: map_erase rest k := by
  by_cases h : k0 = k <;> simp [map_erase, List.filter_cons, h]

theorem map_get_erase_self {κ β : Type} [DecidableEq κ] (m : List (κ × β)) (k : κ) :
    map_get (map_erase m k) k = none := by
  induction m with
  | nil => simp [map_erase, map_get]
  | cons e rest ih =>
    obtain ⟨k0, v0⟩ := e
    rw [map_erase_cons]
    by_cases hk : k0 = k
    · rw [if_pos hk]; exact ih
    · rw [if_neg hk]
      simp [map_get, hk, ih]

theorem map_get_erase_ne {κ β : Type} [DecidableEq κ] (m : List (κ × β)) (k k1 : κ)
    (h : k1 ≠ k) : map_get (map_erase m k) k1 = map_get m k1 := by
  induction m with
  | nil => simp [map_erase, map_get]
  | cons e rest ih =>
    obtain ⟨k0, v0⟩ := e
    rw [map_erase_cons]
    by_cases hk : k0 = k
    · subst hk
      rw [if_pos rfl]
      simp [map_get, Ne.symm h, ih]
    · rw [if_neg hk]
      by_cases hk1 : k0 = k1
      · simp [map_get, hk1]
      · simp [map_get, hk1, ih]

theorem mem_keys_iff_get {κ β : Type} [DecidableEq κ] (m : List (κ × β)) (k : κ) :
    k ∈ map_keys m ↔ map_get m k ≠ none := by
  induction m with
  | nil => simp [map_keys, map_get]
  | cons e rest ih =>
    obtain ⟨k0, v0⟩ := e
    have ih1 : k ∈ List.map Prod.fst rest ↔ map_get rest k ≠ none := ih
    by_cases hk : k0 = k
    · simp [map_keys, map_get, hk]
    · simp only [map_keys, List.map_cons, List.mem_cons, map_get, hk, if_false]
      constructor
      · rintro (e | e)
        · exact absurd e.symm hk
        · exact ih1.1 e
      · intro e; exact Or.inr (ih1.2 e)

theorem mem_set_insert (s : List Nat) (x y : Nat) : y ∈ set_insert s x ↔ y = x ∨ y ∈ s := by
  unfold set_insert
  split
  · rename_i h
    constructor
    · exact Or.inr
    · rintro (e | e)
      · exact e ▸ h
      · exact e
  · simp [List.mem_orderedInsert]

/-! ## Sequencer: APPEND admission -/

theorem split_append (record_id client_id payload : Str)
    (hr : '|' ∉ record_id) (hc : '|' ∉ client_id) (hp : '|' ∉ payload) :
    split_msg (join_msg [tag_APPEND, record_id, client_id, payload])
      = [tag_APPEND, record_id, client_id, payload] := by
  apply split_join
  intro g hg
  simp only [List.mem_cons, List.mem_singleton, List.not_mem_nil, or_false] at hg
  rcases hg with rfl | rfl | rfl | rfl
  · decide
  · exact hr
  · exact hc
  · exact hp

theorem handle_connection_append (s : SeqState) (fd_in record_id client_id payload : Str)
    (hrecv : recv_line fd_in = some (join_msg [tag_APPEND, record_id, client_id, payload]))
    (hr : '|' ∉ record_id) (hc : '|' ∉ client_id) (hp : '|' ∉ payload) :
    handle_connection s fd_in
      = if s.sealed = true then .done s (some msg_RETRY)
        else .done { s with pending_order := s.pending_order ++ [record_id],
                            pending_payload := map_set s.pending_payload record_id payload }
               (some msg_ACK) := by
  unfold handle_connection
  rw [hrecv]
  simp only [split_append record_id client_id payload hr hc hp]
  cases hs : s.sealed <;> simp [field, hs]

/-- C9. APPEND admission: when the line received is APPEND|record_id|client_id|payload
(three pipe-free fields), the reply is RETRY exactly when `sealed` is true, and then the
replica state (so `pending_order` and `pending_payload`) is unchanged; otherwise the
reply is ACK, `record_id` is appended at the end of `pending_order`,
`pending_payload[record_id] = payload`, and every other key of `pending_payload` keeps its
value. -/
theorem C9_append_admission (s : SeqState) (fd_in record_id client_id payload : Str)
    (hrecv : recv_line fd_in = some (join_msg [tag_APPEND, record_id, client_id, payload]))
    (hr : '|' ∉ record_id) (hc : '|' ∉ client_id) (hp : '|' ∉ payload) :
    ∃ s1 reply, handle_connection s fd_in = .done s1 (some reply) ∧
      (reply = msg_RETRY ↔ s.sealed = true) ∧
      (s.sealed = true → s1 = s) ∧
      (s.sealed = false →
        reply = msg_ACK ∧
        s1.pending_order = s.pending_order ++ [record_id] ∧
        map_get s1.pending_payload record_id = some payload ∧
        (∀ k, k ≠ record_id → map_get s1.pending_payload k = map_get s.pending_payload k) ∧
        s1 = { s with pending_order := s1.pending_order,
                      pending_payload := s1.pending_payload }) := by
  have h := handle_connection_append s fd_in record_id client_id payload hrecv hr hc hp
  cases hs : s.sealed
  · rw [hs] at h
    simp only [Bool.false_eq_true, if_false] at h
    refine ⟨_, _, h, ?_, ?_, ?_⟩
    · simp only [Bool.false_eq_true, iff_false]; decide
    · intro hf; exact absurd hf (by simp)
    · intro _
      refine ⟨rfl, rfl, map_get_set_self _ _ _, ?_, rfl⟩
      intro k hk
      exact map_get_set_ne _ _ _ _ hk
  · rw [hs] at h
    simp only [if_true] at h
    refine ⟨_, _, h, ?_, ?_, ?_⟩
    · simp
    · intro _; rfl
    · intro hf; exact absurd hf (by simp)

theorem C9_append_admission_witness :
    recv_line (send_line (join_msg [tag_APPEND, ['r', '1'], ['7'], ['h', 'i']]))
        = some (join_msg [tag_APPEND, ['r', '1'], ['7'], ['h', 'i']]) ∧
      '|' ∉ ['r', '1'] ∧ '|' ∉ ['7'] ∧ '|' ∉ ['h', 'i'] ∧
      ∃ s1 reply,
        handle_connection { SeqState.init with sealed := false }
            (send_line (join_msg [tag_APPEND, ['r', '1'], ['7'], ['h', 'i']]))
          = .done s1 (some reply) ∧
        (reply = msg_RETRY ↔ { SeqState.init with sealed := false }.sealed = true) ∧
        ({ SeqState.init with sealed := false }.sealed = true →
          s1 = { SeqState.init with sealed := false }) ∧
        ({ SeqState.init with sealed := false }.sealed = false →
          reply = msg_ACK ∧
          s1.pending_order = { SeqState.init with sealed := false }.pending_order ++ [['r', '1']] ∧
          map_get s1.pending_payload ['r', '1'] = some ['h', 'i'] ∧
          (∀ k, k ≠ ['r', '1'] → map_get s1.pending_payload k
            = map_get { SeqState.init with sealed := false }.pending_payload k) ∧
          s1 = { { SeqState.init with sealed := false } with
                  pending_order := s1.pending_order,
                  pending_payload := s1.pending_payload }) :=
  ⟨by decide, by decide, by decide, by decide,
    C9_append_admission { SeqState.init with sealed := false } _ ['r', '1'] ['7'] ['h', 'i']
      (by decide) (by decide) (by decide) (by decide)⟩

/-! ## Sequencer: STABLE_UPDATE -/

/-- C4 (evaluation at the failing input). A replica with `last_ordered_gp = 10` and
`stable_gp = 10` that handles STABLE_UPDATE|3 replies STABLE_ACK and ends with both
values equal to 3: they went down. -/
theorem C4_stable_update_regresses :
    handle_connection
        { SeqState.init with last_ordered_gp := 10, stable_gp := 10 }
        (send_line (join_msg [tag_STABLE_UPDATE, ['3']]))
      = .done { SeqState.init with last_ordered_gp := 3, stable_gp := 3 }
          (some msg_STABLE_ACK) := by
  decide

/-! ## Leader ordering iteration: GP assignment and dispatch -/

theorem assign_gps_eq (rids : List Str) (g : Nat) (h : g + rids.length < U64) :
    assign_gps rids g = (List.zip (List.range' g rids.length) rids, g + rids.length) := by
  induction rids generalizing g with
  | nil => simp [assign_gps]
  | cons rid rest ih =>
    have hlen : (rid :: rest).length = rest.length + 1 := rfl
    have hg : (g + 1) % U64 = g + 1 := Nat.mod_eq_of_lt (by omega)
    have ih1 := ih (g + 1) (by omega)
    simp only [assign_gps, hg, ih1, hlen, List.range'_succ, List.zip_cons_cons]
    congr 1
    omega

theorem assign_gps_fst_map (rids : List Str) (g : Nat) (h : g + rids.length < U64) :
    (assign_gps rids g).1.map Prod.fst = List.range' g rids.length := by
  rw [assign_gps_eq rids g h]
  simp only
  rw [← List.unzip_fst, List.unzip_zip]
  simp

theorem assign_gps_snd_map (rids : List Str) (g : Nat) :
    (assign_gps rids g).1.map Prod.snd = rids := by
  induction rids generalizing g with
  | nil => simp [assign_gps]
  | cons rid rest ih => simp [assign_gps, ih]

/-- What the loop body leaves untouched, and what it does to the rest. -/
theorem dispatch_one_spec {W : Type} (net : Net W) (cfg : SeqConfig) (pos : Nat) (rid : Str)
    (s s2 : SeqState) (w w2 : W) (put : Nat × Nat × Bool)
    (h : dispatch_one net cfg pos rid s w = some (s2, w2, put)) :
    put.1 = pos ∧ put.2.1 = pos % cfg.SHARDS.length ∧
      s2.pending_order = s.pending_order ∧
      s2.pending_payload = map_erase s.pending_payload rid ∧
      s2.durable_positions
        = (if put.2.2 = true then set_insert s.durable_positions pos else s.durable_positions) ∧
      s2.last_ordered_gp = s.last_ordered_gp ∧ s2.stable_gp = s.stable_gp ∧
      s2.next_gp = s.next_gp ∧ s2.is_leader = s.is_leader ∧ s2.view_id = s.view_id ∧
      s2.sealed = s.sealed := by
  unfold dispatch_one at h
  simp only at h
  split at h
  · exact absurd h (by simp)
  · split at h
    · exact absurd h (by simp)
    · simp only [Option.some.injEq, Prod.mk.injEq] at h
      obtain ⟨h1, _, h3⟩ := h
      subst h1 h3
      simp only
      split <;> simp_all

theorem dispatch_one_some {W : Type} (net : Net W) (cfg : SeqConfig) (pos : Nat) (rid : Str)
    (s : SeqState) (w : W) (h : cfg.SHARDS ≠ []) :
    ∃ x, dispatch_one net cfg pos rid s w = some x := by
  have hlen : 0 < cfg.SHARDS.length := List.length_pos.2 h
  have hlt : pos % cfg.SHARDS.length < cfg.SHARDS.length := Nat.mod_lt _ hlen
  unfold dispatch_one
  simp only [Nat.pos_iff_ne_zero.1 hlen, if_false, List.get?_eq_get hlt]
  exact ⟨_, rfl⟩

theorem dispatch_loop_some {W : Type} (net : Net W) (cfg : SeqConfig)
    (assigned : List (Nat × Str)) (s : SeqState) (w : W) (puts : List (Nat × Nat × Bool))
    (h : cfg.SHARDS ≠ []) : ∃ r, dispatch_loop net cfg assigned s w puts = some r := by
  induction assigned generalizing s w puts with
  | nil => exact ⟨_, rfl⟩
  | cons a rest ih =>
    obtain ⟨pos, rid⟩ := a
    obtain ⟨⟨s2, w2, put⟩, hx⟩ := dispatch_one_some net cfg pos rid s w h
    simp only [dispatch_loop, hx]
    exact ih s2 w2 _

/-- The dispatch loop: frame, PUT trace, `pending_payload` and `durable_positions`. -/
theorem dispatch_loop_spec {W : Type} (net : Net W) (cfg : SeqConfig)
    (assigned : List (Nat × Str)) (s : SeqState) (w : W) (puts : List (Nat × Nat × Bool))
    (r : IterResult W) (h : dispatch_loop net cfg assigned s w puts = some r) :
    ∃ sent : List (Nat × Nat × Bool),
      r.puts = puts ++ sent ∧
      sent.map (fun q => q.1) = assigned.map Prod.fst ∧
      (∀ q ∈ sent, q.2.1 = q.1 % cfg.SHARDS.length) ∧
      r.st.pending_order = s.pending_order ∧
      r.st.pending_payload = (assigned.map Prod.snd).foldl map_erase s.pending_payload ∧
      (∀ d, d ∈ r.st.durable_positions ↔
        d ∈ s.durable_positions ∨ ∃ k, (d, k, true) ∈ sent) ∧
      r.st.last_ordered_gp = s.last_ordered_gp ∧ r.st.stable_gp = s.stable_gp ∧
      r.st.next_gp = s.next_gp ∧ r.st.is_leader = s.is_leader ∧ r.st.view_id = s.view_id ∧
      r.st.sealed = s.sealed := by
  induction assigned generalizing s w puts with
  | nil =>
    simp only [dispatch_loop, Option.some.injEq] at h
    subst h
    exact ⟨[], by simp⟩
  | cons a rest ih =>
    obtain ⟨pos, rid⟩ := a
    simp only [dispatch_loop] at h
    split at h
    · exact absurd h (by simp)
    · rename_i s2 w2 put hone
      obtain ⟨sent, h1, h2, h3, h4, h5, h6, h7, h8, h9, h10, h11, h12⟩ := ih s2 w2 _ h
      obtain ⟨g1, g2, g3, g4, g5, g6, g7, g8, g9, g10, g11⟩ :=
        dispatch_one_spec net cfg pos rid s s2 w w2 put hone
      refine ⟨put :: sent, by simp [h1], by simp [h2, g1], ?_, by rw [h4, g3], by simp [h5, g4],
        ?_, by rw [h7, g6], by rw [h8, g7], by rw [h9, g8], by rw [h10, g9], by rw [h11, g10],
        by rw [h12, g11]⟩
      · intro q hq
        rcases List.mem_cons.1 hq with e | e
        · subst e; rw [g2, g1]
        · exact h3 q e
      · intro d
        rw [h6 d, g5]
        obtain ⟨p1, p2, p3⟩ := put
        simp only at g1 g2
        subst g1
        cases p3
        · simp only [Bool.false_eq_true, if_false, List.mem_cons, Prod.mk.injEq]
          constructor
          · rintro (e | ⟨k, e⟩)
            · exact Or.inl e
            · exact Or.inr ⟨k, Or.inr e⟩
          · rintro (e | ⟨k, e | e⟩)
            · exact Or.inl e
            · exact absurd e.2.2 (by simp)
            · exact Or.inr ⟨k, e⟩
        · simp only [if_true, mem_set_insert, List.mem_cons, Prod.mk.injEq]
          constructor
          · rintro ((e | e) | ⟨k, e⟩)
            · exact Or.inr ⟨p2, Or.inl (by simp [e])⟩
            · exact Or.inl e
            · exact Or.inr ⟨k, Or.inr e⟩
          · rintro (e | ⟨k, e | e⟩)
            · exact Or.inl (Or.inr e)
            · exact Or.inl (Or.inl e.1)
            · exact Or.inr ⟨k, e⟩

/-! ## Leader ordering iteration: contiguous advance -/

theorem countP_lt_of_mem (D : List Nat) (p q : Nat → Bool) (x : Nat) (hx : x ∈ D)
    (hp : p x = true) (hq : q x = false) (himp : ∀ y, q y = true → p y = true) :
    D.countP q < D.countP p := by
  induction D with
  | nil => simp at hx
  | cons a rest ih =>
    rcases List.mem_cons.1 hx with e | e
    · subst e
      have hle : rest.countP q ≤ rest.countP p := List.countP_mono_left (fun y _ => himp y)
      simp only [List.countP_cons, hp, hq, if_true]
      simp only [Bool.false_eq_true, if_false]
      omega
    · have := ih e
      simp only [List.countP_cons]
      by_cases hqa : q a = true
      · simp only [hqa, himp a hqa, if_true]; omega
      · by_cases hpa : p a = true
        · simp only [hqa, hpa, if_false, if_true, Bool.false_eq_true]; omega
        · simp only [hqa, hpa, if_false, Bool.false_eq_true]; omega

theorem contig_loop_mem (D : List Nat) (fuel cur : Nat) :
    contig_loop D fuel cur = cur ∨ contig_loop D fuel cur ∈ D := by
  induction fuel generalizing cur with
  | zero => exact Or.inl rfl
  | succ f ih =>
    unfold contig_loop
    split
    · rename_i hm
      rcases ih ((cur + 1) % U64) with e | e
      · rw [e]; exact Or.inr hm
      · exact Or.inr e
    · exact Or.inl rfl

/-- The scan of `durable_positions`, when it does not wrap around `2^64`. -/
theorem contig_loop_spec (D : List Nat) (hD : ∀ d ∈ D, d < U64) (fuel cur : Nat)
    (hcur : cur < U64) (hwrap : 0 ∉ D ∨ ∃ g, cur < g ∧ g < U64 ∧ g ∉ D)
    (hfuel : D.countP (fun d => decide (cur < d)) ≤ fuel) :
    cur ≤ contig_loop D fuel cur ∧
      (∀ g, cur < g → g ≤ contig_loop D fuel cur → g ∈ D) ∧
      contig_loop D fuel cur + 1 ∉ D := by
  induction fuel generalizing cur with
  | zero =>
    have h0 : D.countP (fun d => decide (cur < d)) = 0 := Nat.le_zero.1 hfuel
    rw [List.countP_eq_zero] at h0
    refine ⟨le_refl _, ?_, ?_⟩
    · intro g h1 h2
      simp only [contig_loop] at h2
      omega
    · intro hm
      have := h0 _ hm
      simp [contig_loop] at this
  | succ f ih =>
    unfold contig_loop
    by_cases hm : (cur + 1) % U64 ∈ D
    · rw [if_pos hm]
      by_cases hlt : cur + 1 < U64
      · have hmod : (cur + 1) % U64 = cur + 1 := Nat.mod_eq_of_lt hlt
        rw [hmod] at hm ⊢
        have hwrap1 : 0 ∉ D ∨ ∃ g, cur + 1 < g ∧ g < U64 ∧ g ∉ D := by
          rcases hwrap with h | ⟨g, h1, h2, h3⟩
          · exact Or.inl h
          · have hne : g ≠ cur + 1 := fun e => h3 (e ▸ hm)
            exact Or.inr ⟨g, by omega, h2, h3⟩
        have hcnt : D.countP (fun d => decide (cur + 1 < d)) < D.countP (fun d => decide (cur < d)) :=
          countP_lt_of_mem D _ _ (cur + 1) hm (by simp) (by simp)
            (fun y hy => by simp only [decide_eq_true_eq] at hy ⊢; omega)
        obtain ⟨h1, h2, h3⟩ := ih (cur + 1) hlt hwrap1 (by omega)
        refine ⟨by omega, ?_, h3⟩
        intro g hg1 hg2
        by_cases hg : g = cur + 1
        · exact hg ▸ hm
        · exact h2 g (by omega) hg2
      · have hmod : (cur + 1) % U64 = 0 := by
          have : cur + 1 = U64 := by omega
          rw [this]; exact Nat.mod_self _
        rw [hmod] at hm
        rcases hwrap with h | ⟨g, h1, h2, _⟩
        · exact absurd hm h
        · omega
    · rw [if_neg hm]
      refine ⟨le_refl _, fun g h1 h2 => by omega, ?_⟩
      by_cases hlt : cur + 1 < U64
      · rwa [Nat.mod_eq_of_lt hlt] at hm
      · intro h
        have := hD _ h
        omega

theorem contiguous_advance_frame (s : SeqState) :
    (contiguous_advance s).pending_order = s.pending_order ∧
      (contiguous_advance s).pending_payload = s.pending_payload ∧
      (contiguous_advance s).stable_gp = s.stable_gp ∧
      (contiguous_advance s).next_gp = s.next_gp ∧
      (contiguous_advance s).is_leader = s.is_leader ∧
      (contiguous_advance s).view_id = s.view_id ∧
      (contiguous_advance s).sealed = s.sealed := by
  unfold contiguous_advance
  simp only
  split <;> simp

theorem contiguous_advance_last (s : SeqState) :
    (contiguous_advance s).last_ordered_gp
      = max s.last_ordered_gp
          (contig_loop s.durable_positions s.durable_positions.length s.last_ordered_gp) := by
  unfold contiguous_advance
  simp only
  split
  · rename_i h; simp only; omega
  · rename_i h; omega

theorem contiguous_advance_mem (s : SeqState) (d : Nat)
    (h : d ∈ (contiguous_advance s).durable_positions) : d ∈ s.durable_positions := by
  unfold contiguous_advance at h
  simp only at h
  split at h
  · exact (List.mem_filter.1 h).1
  · exact h

/-- C7. Contiguous advance, for 64-bit values and a scan that does not wrap around
`2^64` (GP 0 is not in `durable_positions`, or some GP above `last_ordered_gp` is
missing from it): the new `last_ordered_gp` is the largest `c ≥ L` such that every
GP in `(L, c]` is in `D`; when `c > L` the new `durable_positions` is `D` without
its entries `≤ c`; when `c = L` the state is unchanged; no other field changes. -/
theorem C7_contiguous_advance (s : SeqState) (hL : s.last_ordered_gp < U64)
    (hD : ∀ d ∈ s.durable_positions, d < U64)
    (hwrap : 0 ∉ s.durable_positions ∨
      ∃ g, s.last_ordered_gp < g ∧ g < U64 ∧ g ∉ s.durable_positions) :
    s.last_ordered_gp ≤ (contiguous_advance s).last_ordered_gp ∧
      (∀ g, s.last_ordered_gp < g → g ≤ (contiguous_advance s).last_ordered_gp →
        g ∈ s.durable_positions) ∧
      (∀ c, s.last_ordered_gp ≤ c →
        (∀ g, s.last_ordered_gp < g → g ≤ c → g ∈ s.durable_positions) →
        c ≤ (contiguous_advance s).last_ordered_gp) ∧
      (s.last_ordered_gp < (contiguous_advance s).last_ordered_gp →
        (contiguous_advance s).durable_positions
          = s.durable_positions.filter
              (fun d => decide ((contiguous_advance s).last_ordered_gp < d))) ∧
      ((contiguous_advance s).last_ordered_gp = s.last_ordered_gp → contiguous_advance s = s) ∧
      (contiguous_advance s).pending_order = s.pending_order ∧
      (contiguous_advance s).pending_payload = s.pending_payload ∧
      (contiguous_advance s).stable_gp = s.stable_gp ∧
      (contiguous_advance s).next_gp = s.next_gp ∧
      (contiguous_advance s).is_leader = s.is_leader ∧
      (contiguous_advance s).view_id = s.view_id ∧
      (contiguous_advance s).sealed = s.sealed := by
  obtain ⟨h1, h2, h3⟩ := contig_loop_spec s.durable_positions hD s.durable_positions.length
    s.last_ordered_gp hL hwrap (List.countP_le_length _)
  have hlast := contiguous_advance_last s
  rw [max_eq_right h1] at hlast
  refine ⟨by omega, ?_, ?_, ?_, ?_, contiguous_advance_frame s⟩
  · intro g hg1 hg2
    exact h2 g hg1 (by omega)
  · intro c hc1 hc2
    by_contra hlt
    apply h3
    exact hc2 _ (by omega) (by omega)
  · intro hlt
    have hgt : contig_loop s.durable_positions s.durable_positions.length s.last_ordered_gp
        > s.last_ordered_gp := by omega
    rw [hlast]
    unfold contiguous_advance
    simp only [hgt, if_true]
    apply List.filter_congr
    intro d _
    by_cases hd : d ≤ contig_loop s.durable_positions s.durable_positions.length s.last_ordered_gp
    · simp [hd, Nat.not_lt.2 hd]
    · simp [hd, Nat.lt_of_not_le hd]
  · intro heq
    have hle : ¬ contig_loop s.durable_positions s.durable_positions.length s.last_ordered_gp
        > s.last_ordered_gp := by omega
    unfold contiguous_advance
    simp only [hle, if_false]

theorem C7_contiguous_advance_witness :
    ex_gap_state.last_ordered_gp < U64 ∧ (∀ d ∈ ex_gap_state.durable_positions, d < U64) ∧
      (0 ∉ ex_gap_state.durable_positions ∨
        ∃ g, ex_gap_state.last_ordered_gp < g ∧ g < U64 ∧ g ∉ ex_gap_state.durable_positions) ∧
      contiguous_advance ex_gap_state
        = { ex_gap_state with last_ordered_gp := 4, durable_positions := [6] } ∧
      (∀ c, ex_gap_state.last_ordered_gp ≤ c →
        (∀ g, ex_gap_state.last_ordered_gp < g → g ≤ c → g ∈ ex_gap_state.durable_positions) →
        c ≤ (contiguous_advance ex_gap_state).last_ordered_gp) :=
  ⟨by decide, by decide, Or.inl (by decide), by decide,
    (C7_contiguous_advance ex_gap_state (by decide) (by decide) (Or.inl (by decide))).2.2.1⟩

/-! ## Leader ordering iteration as a whole -/

theorem finish_iteration_spec {W : Type} (net : Net W) (cfg : SeqConfig) (r : IterResult W) :
    (finish_iteration net cfg r).puts = r.puts ∧
      (finish_iteration net cfg r).st
        = { contiguous_advance r.st with
            stable_gp := max (contiguous_advance r.st).stable_gp
              (contiguous_advance r.st).last_ordered_gp } := by
  unfold finish_iteration
  simp only
  split
  · rename_i h
    simp only [broadcast_stable_and_wait, true_and]
    rw [max_eq_right (le_of_lt h)]
  · rename_i h
    simp only [true_and]
    rw [max_eq_left (by omega)]

theorem ordering_iteration_empty {W : Type} (net : Net W) (cfg : SeqConfig) (s : SeqState)
    (w : W) (h : s.pending_order = []) : ordering_iteration net cfg s w = some ⟨s, w, []⟩ := by
  simp [ordering_iteration, h]

theorem ordering_iteration_nonempty {W : Type} (net : Net W) (cfg : SeqConfig) (s : SeqState)
    (w : W) (h : s.pending_order ≠ []) :
    ordering_iteration net cfg s w
      = (dispatch_loop net cfg (assign_gps s.pending_order s.next_gp).1
          { s with pending_order := [], next_gp := (assign_gps s.pending_order s.next_gp).2 }
          w []).map (finish_iteration net cfg) := by
  simp only [ordering_iteration, h, if_false]
  split <;> simp_all

theorem ordering_iteration_some {W : Type} (net : Net W) (cfg : SeqConfig) (s : SeqState)
    (w : W) (h : cfg.SHARDS ≠ []) : ∃ r, ordering_iteration net cfg s w = some r := by
  by_cases hp : s.pending_order = []
  · exact ⟨_, ordering_iteration_empty net cfg s w hp⟩
  · rw [ordering_iteration_nonempty net cfg s w hp]
    obtain ⟨r, hr⟩ := dispatch_loop_some net cfg (assign_gps s.pending_order s.next_gp).1
      { s with pending_order := [], next_gp := (assign_gps s.pending_order s.next_gp).2 } w [] h
    exact ⟨_, by rw [hr]; rfl⟩

/-- C2. GP assignment in one ordering iteration, for a 64-bit counter that does not
wrap (`next_gp + n < 2^64`): with `next_gp = g` and `pending_order = [r_0, ..., r_(n-1)]` the
assignment loop yields exactly `(g, r_0), ..., (g+n-1, r_(n-1))` in that order and leaves
`next_gp = g + n`; an iteration that completes sends its PUTs for `g, ..., g+n-1` in that
order and ends with `next_gp = g + n`; it completes whenever a shard is configured; and
every GP assigned by an iteration that starts from `next_gp = g + n` is larger than every
GP assigned by this one. -/
theorem C2_gp_assignment {W : Type} (net : Net W) (cfg : SeqConfig) (s : SeqState) (w : W)
    (h : s.next_gp + s.pending_order.length < U64) :
    assign_gps s.pending_order s.next_gp
        = (List.zip (List.range' s.next_gp s.pending_order.length) s.pending_order,
            s.next_gp + s.pending_order.length) ∧
      (∀ r, ordering_iteration net cfg s w = some r →
        r.st.next_gp = s.next_gp + s.pending_order.length ∧
        r.puts.map (fun q => q.1) = List.range' s.next_gp s.pending_order.length) ∧
      (cfg.SHARDS ≠ [] → ∃ r, ordering_iteration net cfg s w = some r) ∧
      (∀ (t : SeqState) (pos pos0 : Nat) (rid rid0 : Str),
        t.next_gp = s.next_gp + s.pending_order.length →
        t.next_gp + t.pending_order.length < U64 →
        (pos, rid) ∈ (assign_gps t.pending_order t.next_gp).1 →
        (pos0, rid0) ∈ (assign_gps s.pending_order s.next_gp).1 → pos0 < pos) := by
  have hassign := assign_gps_eq s.pending_order s.next_gp h
  refine ⟨hassign, ?_, ordering_iteration_some net cfg s w, ?_⟩
  · intro r hr
    by_cases hp : s.pending_order = []
    · rw [ordering_iteration_empty net cfg s w hp] at hr
      simp only [Option.some.injEq] at hr
      subst hr
      simp [hp]
    · rw [ordering_iteration_nonempty net cfg s w hp] at hr
      simp only [Option.map_eq_some'] at hr
      obtain ⟨r0, hr0, hfin⟩ := hr
      obtain ⟨sent, h1, h2, _, _, _, _, _, _, h9, _, _, _⟩ :=
        dispatch_loop_spec net cfg _ _ w [] r0 hr0
      obtain ⟨f1, f2⟩ := finish_iteration_spec net cfg r0
      subst hfin
      rw [f1, f2, h1]
      simp only [List.nil_append, h2]
      refine ⟨?_, assign_gps_fst_map s.pending_order s.next_gp h⟩
      rw [(contiguous_advance_frame r0.st).2.2.2.1, h9, hassign]
  · intro t pos pos0 rid rid0 ht htw hpos hpos0
    rw [assign_gps_eq t.pending_order t.next_gp htw] at hpos
    rw [hassign] at hpos0
    have m1 := (List.of_mem_zip hpos).1
    have m0 := (List.of_mem_zip hpos0).1
    rw [List.mem_range'_1] at m1 m0
    omega

theorem C2_gp_assignment_witness :
    ({ SeqState.init with pending_order := [['a'], ['b'], ['c']], next_gp := 5 } : SeqState).next_gp
        + ({ SeqState.init with pending_order := [['a'], ['b'], ['c']], next_gp := 5 }
            : SeqState).pending_order.length < U64 ∧
      assign_gps [['a'], ['b'], ['c']] 5 = ([(5, ['a']), (6, ['b']), (7, ['c'])], 8) :=
  ⟨by decide,
    (C2_gp_assignment (⟨fun _ _ _ => ((), none)⟩ : Net Unit) ⟨[], []⟩
      { SeqState.init with pending_order := [['a'], ['b'], ['c']], next_gp := 5 } ()
      (by decide)).1⟩

/-! ## Shard: READRANGE -/

theorem hbq_loop_ge (hbq : List Str) (b best : Nat) (h : hbq_loop hbq b = some best) :
    b ≤ best := by
  induction hbq generalizing b with
  | nil =>
    simp only [hbq_loop, Option.some.injEq] at h
    omega
  | cons rep rest ih =>
    unfold hbq_loop at h
    split at h
    · exact ih b h
    · simp only at h
      split at h
      · split at h
        · exact absurd h (by simp)
        · split at h
          · exact absurd h (by simp)
          · split at h
            · simp only [Option.some.injEq] at h
              omega
            · have := ih _ h
              omega
      · exact ih b h

theorem catch_up_ready (hbq : List Str) (st : ShardState) (top : Nat)
    (h : top ≤ st.stable_gp) : catch_up hbq st top = some st := by
  simp [catch_up, Nat.not_lt.2 h]

theorem range_entries_gt (store : List (Nat × (Str × Str))) (a b : Nat) (h : b < a) :
    range_entries store a b = [] := by
  have : b + 1 - a = 0 := by omega
  simp [range_entries, this]

theorem range_entries_le (store : List (Nat × (Str × Str))) (a b : Nat) (h : a ≤ b) :
    range_entries store a b
      = (match map_get store a with
          | some pr => [(a, pr.1, pr.2)]
          | none => []) ++ range_entries store (a + 1) b := by
  have e1 : b + 1 - a = (b + 1 - (a + 1)) + 1 := by omega
  unfold range_entries
  rw [e1, List.range'_succ, List.filterMap_cons]
  cases map_get store a <;> simp

theorem mem_range_entries (store : List (Nat × (Str × Str))) (a b p : Nat) (rid payload : Str) :
    (p, rid, payload) ∈ range_entries store a b
      ↔ a ≤ p ∧ p ≤ b ∧ map_get store p = some (rid, payload) := by
  unfold range_entries
  simp only [List.mem_filterMap, List.mem_range'_1, Option.map_eq_some', Prod.mk.injEq]
  constructor
  · rintro ⟨q, ⟨h1, h2⟩, pr, h3, h4, h5, h6⟩
    subst h4
    refine ⟨h1, by omega, ?_⟩
    rw [h3, ← h5, ← h6]
  · rintro ⟨h1, h2, h3⟩
    exact ⟨p, ⟨h1, by omega⟩, (rid, payload), h3, rfl, rfl, rfl⟩

theorem collect_loop_top_max (store : List (Nat × (Str × Str))) (fuel p : Nat)
    (acc : List (Nat × Str × Str)) (hp : p < U64) :
    collect_loop store (U64 - 1) fuel p acc = none := by
  induction fuel generalizing p acc with
  | zero => rfl
  | succ f ih =>
    have hle : p ≤ U64 - 1 := by omega
    have hlt : (p + 1) % U64 < U64 := Nat.mod_lt _ (by decide)
    unfold collect_loop
    rw [if_pos hle]
    cases map_get store p <;> exact ih _ _ hlt

theorem collect_loop_enough (store : List (Nat × (Str × Str))) (top : Nat) (htop : top + 1 < U64)
    (fuel p : Nat) (acc : List (Nat × Str × Str)) (hfuel : top + 1 - p < fuel) :
    collect_loop store top fuel p acc = some (acc ++ range_entries store p top) := by
  induction fuel generalizing p acc with
  | zero => omega
  | succ f ih =>
    unfold collect_loop
    by_cases hle : p ≤ top
    · have hmod : (p + 1) % U64 = p + 1 := Nat.mod_eq_of_lt (by omega)
      rw [if_pos hle, hmod, range_entries_le store p top hle]
      cases map_get store p with
      | none => simpa using ih (p + 1) acc (by omega)
      | some pr => simpa using ih (p + 1) (acc ++ [(p, pr.1, pr.2)]) (by omega)
    · rw [if_neg hle, range_entries_gt store p top (by omega)]
      simp

theorem collect_loop_some (store : List (Nat × (Str × Str))) (top : Nat) (htop : top < U64)
    (fuel p : Nat) (acc res : List (Nat × Str × Str)) (hp : p < U64)
    (h : collect_loop store top fuel p acc = some res) :
    res = acc ++ range_entries store p top := by
  by_cases hmax : top + 1 < U64
  · induction fuel generalizing p acc with
    | zero => simp [collect_loop] at h
    | succ f ih =>
      unfold collect_loop at h
      by_cases hle : p ≤ top
      · have hmod : (p + 1) % U64 = p + 1 := Nat.mod_eq_of_lt (by omega)
        rw [if_pos hle, hmod] at h
        rw [range_entries_le store p top hle]
        cases hg : map_get store p with
        | none =>
          rw [hg] at h
          simpa using ih (p + 1) acc (by omega) h
        | some pr =>
          rw [hg] at h
          simpa using ih (p + 1) (acc ++ [(p, pr.1, pr.2)]) (by omega) h
      · rw [if_neg hle] at h
        simp only [Option.some.injEq] at h
        rw [range_entries_gt store p top (by omega), ← h]
        simp
  · have : top = U64 - 1 := by omega
    rw [this, collect_loop_top_max store fuel p acc hp] at h
    exact absurd h (by simp)

theorem split_readrange (fromp top : Nat) :
    split_msg (join_msg [tag_READRANGE, to_string fromp, to_string top])
      = [tag_READRANGE, to_string fromp, to_string top] := by
  apply split_join
  intro g hg
  simp only [List.mem_cons, List.mem_singleton, List.not_mem_nil, or_false] at hg
  rcases hg with rfl | rfl | rfl
  · decide
  · exact to_string_no_pipe _
  · exact to_string_no_pipe _

/-- The READRANGE branch of `handle_conn` in closed form. -/
theorem handle_conn_readrange (fuel : Nat) (hbq : List Str) (st : ShardState) (fd_in : Str)
    (fromp top : Nat) (hfrom : fromp < U64) (htop : top < U64)
    (hrecv : recv_line fd_in = some (join_msg [tag_READRANGE, to_string fromp, to_string top])) :
    handle_conn fuel hbq st fd_in
      = match catch_up hbq st top with
        | none => .crash
        | some st1 =>
          if st1.stable_gp < top then .done st1 (some msg_NOT_READY)
          else
            match collect_loop st1.store top fuel fromp [] with
            | none => .timeout
            | some results => .done st1 (some (encode_batchval results)) := by
  have h1 : tag_READRANGE ≠ tag_PUT := by decide
  have h2 : tag_READRANGE ≠ tag_UPDATESTABLE := by decide
  unfold handle_conn
  rw [hrecv]
  simp only [split_readrange, field, List.get?, stoull_to_string fromp hfrom,
    stoull_to_string top htop, h1, h2, if_false, if_true]
  simp

theorem encode_batchval_ne_not_ready (results : List (Nat × Str × Str)) :
    encode_batchval results ≠ msg_NOT_READY := by
  simp [encode_batchval, tag_BATCHVAL, msg_NOT_READY]

/-- C5. READRANGE stable gate, for a request READRANGE|from|to with 64-bit numbers and any
HBQ replies: whenever the shard replies, the reply is either NOT_READY with
`stable_gp < to` at reply time, or a BATCHVAL line with `stable_gp ≥ to` at reply time and
no listed pos above that `stable_gp` (a BATCHVAL line is never the NOT_READY line); when
the catch-up ends with `stable_gp < to` the shard does reply NOT_READY; and when it ends
with `stable_gp ≥ to`, `to < 2^64 - 1`, the shard does reply with a BATCHVAL line. -/
theorem C5_readrange_stable_gate (fuel : Nat) (hbq : List Str) (st : ShardState) (fd_in : Str)
    (fromp top : Nat) (hfrom : fromp < U64) (htop : top < U64)
    (hrecv : recv_line fd_in = some (join_msg [tag_READRANGE, to_string fromp, to_string top])) :
    (∀ st1 reply, handle_conn fuel hbq st fd_in = .done st1 reply →
      (reply = some msg_NOT_READY ∧ st1.stable_gp < top) ∨
      (∃ results, reply = some (encode_batchval results) ∧ top ≤ st1.stable_gp ∧
        ∀ t ∈ results, t.1 ≤ st1.stable_gp)) ∧
      (∀ results, encode_batchval results ≠ msg_NOT_READY) ∧
      (∀ st1, catch_up hbq st top = some st1 → st1.stable_gp < top →
        handle_conn fuel hbq st fd_in = .done st1 (some msg_NOT_READY)) ∧
      (∀ st1, catch_up hbq st top = some st1 → top ≤ st1.stable_gp → top + 1 < U64 →
        top + 1 - fromp < fuel →
        ∃ results, handle_conn fuel hbq st fd_in = .done st1 (some (encode_batchval results))) := by
  have hform := handle_conn_readrange fuel hbq st fd_in fromp top hfrom htop hrecv
  refine ⟨?_, encode_batchval_ne_not_ready, ?_, ?_⟩
  · intro st1 reply h
    rw [hform] at h
    split at h
    · exact absurd h (by simp)
    · rename_i st2 hc
      split at h
      · rename_i hlt
        simp only [Outcome.done.injEq] at h
        obtain ⟨e1, e2⟩ := h
        subst e1
        exact Or.inl ⟨e2.symm, hlt⟩
      · rename_i hge
        split at h
        · exact absurd h (by simp)
        · rename_i results hcol
          simp only [Outcome.done.injEq] at h
          obtain ⟨e1, e2⟩ := h
          subst e1
          refine Or.inr ⟨results, e2.symm, by omega, ?_⟩
          intro t ht
          have hres := collect_loop_some st2.store top htop fuel fromp [] results hfrom hcol
          rw [hres, List.nil_append] at ht
          obtain ⟨p, rid, payload⟩ := t
          have := (mem_range_entries st2.store fromp top p rid payload).1 ht
          simp only
          omega
  · intro st1 hc hlt
    rw [hform, hc]
    simp [hlt]
  · intro st1 hc hge hmax hfuel
    rw [hform, hc]
    simp only [Nat.not_lt.2 hge, if_false]
    rw [collect_loop_enough st1.store top hmax fuel fromp [] hfuel]
    exact ⟨_, rfl⟩

theorem C5_readrange_stable_gate_witness :
    (9 : Nat) < U64 ∧ (1 : Nat) < U64 ∧
      recv_line ex_readrange_far = some (join_msg [tag_READRANGE, to_string 1, to_string 9]) ∧
      catch_up [] ex_shard 9 = some ex_shard ∧ ex_shard.stable_gp < 9 ∧
      handle_conn 0 [] ex_shard ex_readrange_far = .done ex_shard (some msg_NOT_READY) :=
  ⟨by decide, by decide, by decide, by decide, by decide,
    (C5_readrange_stable_gate 0 [] ex_shard ex_readrange_far 1 9 (by decide) (by decide)
      (by decide)).2.2.1 ex_shard (by decide) (by decide)⟩

/-- A handled connection never touches `next_gp` or `durable_positions`; it changes
`last_ordered_gp` / `stable_gp` only through the GP carried by an HB or a
STABLE_UPDATE line. -/
theorem handle_connection_effect (s s1 : SeqState) (fd_in : Str) (reply : Option Str)
    (h : handle_connection s fd_in = .done s1 reply) :
    s1.next_gp = s.next_gp ∧ s1.durable_positions = s.durable_positions ∧
      ((s1.last_ordered_gp = s.last_ordered_gp ∧ s1.stable_gp = s.stable_gp) ∨
        ∃ line v, recv_line fd_in = some line ∧ carried_gp line = some v ∧
          ((s1.last_ordered_gp = max s.last_ordered_gp v ∧ s1.stable_gp = s.stable_gp) ∨
            (s1.last_ordered_gp = v ∧ s1.stable_gp = v))) := by
  unfold handle_connection at h
  cases hrecv : recv_line fd_in with
  | none =>
    simp only [hrecv, Outcome.done.injEq] at h
    obtain ⟨rfl, _⟩ := h
    simp
  | some line =>
    simp only [hrecv] at h
    by_cases hnil : split_msg line = []
    · simp only [hnil, if_true, Outcome.done.injEq] at h
      obtain ⟨rfl, _⟩ := h
      simp
    · simp only [hnil, if_false] at h
      by_cases hA : field (split_msg line) 0 [] = tag_APPEND
      · simp only [hA, if_true] at h
        split at h <;>
          (simp only [Outcome.done.injEq] at h; obtain ⟨rfl, _⟩ := h; simp)
      · simp only [hA, if_false] at h
        by_cases hH : field (split_msg line) 0 [] = tag_HB
        · simp only [hH, if_true] at h
          cases hv : stoull (field (split_msg line) 1 ['0']) with
          | none => simp [hv] at h
          | some their_view =>
            cases hl : stoull (field (split_msg line) 3 ['0']) with
            | none => simp [hv, hl] at h
            | some their_last =>
              simp only [hv, hl, Outcome.done.injEq] at h
              obtain ⟨rfl, _⟩ := h
              have hc : carried_gp line = some their_last := by
                simp [carried_gp, hH, hl]
              refine ⟨?_, ?_, Or.inr ⟨line, their_last, rfl, hc, Or.inl ?_⟩⟩
              · by_cases hvw : their_view ≥ s.view_id <;>
                  by_cases hlt : their_last > s.last_ordered_gp <;> simp [hvw, hlt]
              · by_cases hvw : their_view ≥ s.view_id <;>
                  by_cases hlt : their_last > s.last_ordered_gp <;> simp [hvw, hlt]
              · by_cases hvw : their_view ≥ s.view_id <;>
                  by_cases hlt : their_last > s.last_ordered_gp <;> simp [hvw, hlt] <;> omega
        · simp only [hH, if_false] at h
          by_cases hQ : field (split_msg line) 0 [] = tag_HBQ
          · simp only [hQ, if_true, Outcome.done.injEq] at h
            obtain ⟨rfl, _⟩ := h
            simp
          · simp only [hQ, if_false] at h
            by_cases hS : field (split_msg line) 0 [] = tag_STABLE_UPDATE
            · simp only [hS, if_true] at h
              cases hv : stoull (field (split_msg line) 1 ['0']) with
              | none => simp [hv] at h
              | some v =>
                simp only [hv, Outcome.done.injEq] at h
                obtain ⟨rfl, _⟩ := h
                have hne : tag_STABLE_UPDATE ≠ tag_HB := by decide
                have hc : carried_gp line = some v := by
                  simp [carried_gp, hS, hne, hv]
                exact ⟨rfl, rfl, Or.inr ⟨line, v, rfl, hc, Or.inr ⟨rfl, rfl⟩⟩⟩
            · simp only [hS, if_false] at h
              by_cases hG : field (split_msg line) 0 [] = tag_GC
              · simp only [hG, if_true] at h
                cases hv : stoull (field (split_msg line) 1 ['0']) with
                | none => simp [hv] at h
                | some v =>
                  simp only [hv, Outcome.done.injEq] at h
                  obtain ⟨rfl, _⟩ := h
                  simp
              · simp only [hG, if_false, Outcome.done.injEq] at h
                obtain ⟨rfl, _⟩ := h
                simp

/-- An APPEND either leaves the state alone (sealed) or enqueues one record. -/
theorem handle_connection_is_append (s s1 : SeqState) (fd_in : Str) (reply : Option Str)
    (ha : is_append fd_in) (h : handle_connection s fd_in = .done s1 reply) :
    s1 = s ∨ ∃ rid payload,
      s1 = { s with pending_order := s.pending_order ++ [rid],
                    pending_payload := map_set s.pending_payload rid payload } := by
  obtain ⟨line, hrecv, htag⟩ := ha
  unfold handle_connection at h
  simp only [hrecv] at h
  by_cases hnil : split_msg line = []
  · simp only [hnil, if_true, Outcome.done.injEq] at h
    exact Or.inl h.1.symm
  · simp only [hnil, if_false, htag, if_true] at h
    split at h
    · simp only [Outcome.done.injEq] at h
      exact Or.inr ⟨_, _, h.1.symm⟩
    · simp only [Outcome.done.injEq] at h
      exact Or.inl h.1.symm

theorem carried_gp_append (fd_in line : Str) (ha : is_append fd_in)
    (hrecv : recv_line fd_in = some line) : carried_gp line = none := by
  obtain ⟨line1, hrecv1, htag⟩ := ha
  rw [hrecv] at hrecv1
  simp only [Option.some.injEq] at hrecv1
  subst hrecv1
  have h1 : tag_APPEND ≠ tag_HB := by decide
  have h2 : tag_APPEND ≠ tag_STABLE_UPDATE := by decide
  simp [carried_gp, htag, h1, h2]

theorem handle_connection_append_frame (s s1 : SeqState) (fd_in : Str) (reply : Option Str)
    (ha : is_append fd_in) (h : handle_connection s fd_in = .done s1 reply) :
    s1.next_gp = s.next_gp ∧ s1.durable_positions = s.durable_positions ∧
      s1.last_ordered_gp = s.last_ordered_gp ∧ s1.stable_gp = s.stable_gp := by
  obtain ⟨h1, h2, h3⟩ := handle_connection_effect s s1 fd_in reply h
  refine ⟨h1, h2, ?_⟩
  rcases h3 with h3 | ⟨line, v, hrecv, hc, _⟩
  · exact h3
  · rw [carried_gp_append fd_in line ha hrecv] at hc
    exact absurd hc (by simp)

/-! ## One ordering iteration with a non-empty batch -/

theorem ordering_iteration_nonempty_spec {W : Type} (net : Net W) (cfg : SeqConfig)
    (s : SeqState) (w : W) (r : IterResult W) (hne : s.pending_order ≠ [])
    (h : ordering_iteration net cfg s w = some r) :
    ∃ D1 : List Nat,
      (∀ d, d ∈ D1 ↔ d ∈ s.durable_positions ∨ ∃ k, (d, k, true) ∈ r.puts) ∧
      r.puts.map (fun q => q.1) = (assign_gps s.pending_order s.next_gp).1.map Prod.fst ∧
      (∀ q ∈ r.puts, q.2.1 = q.1 % cfg.SHARDS.length) ∧
      r.st.last_ordered_gp = max s.last_ordered_gp (contig_loop D1 D1.length s.last_ordered_gp) ∧
      (∀ d ∈ r.st.durable_positions, d ∈ D1) ∧
      r.st.stable_gp = max s.stable_gp r.st.last_ordered_gp ∧
      r.st.next_gp = (assign_gps s.pending_order s.next_gp).2 ∧
      r.st.pending_order = [] ∧
      r.st.pending_payload = s.pending_order.foldl map_erase s.pending_payload ∧
      r.st.is_leader = s.is_leader ∧ r.st.view_id = s.view_id ∧ r.st.sealed = s.sealed := by
  rw [ordering_iteration_nonempty net cfg s w hne] at h
  simp only [Option.map_eq_some'] at h
  obtain ⟨r0, hr0, hfin⟩ := h
  obtain ⟨sent, h1, h2, h3, h4, h5, h6, h7, h8, h9, h10, h11, h12⟩ :=
    dispatch_loop_spec net cfg _ _ w [] r0 hr0
  obtain ⟨f1, f2⟩ := finish_iteration_spec net cfg r0
  obtain ⟨c1, c2, c3, c4, c5, c6, c7⟩ := contiguous_advance_frame r0.st
  have hlast := contiguous_advance_last r0.st
  simp only [List.nil_append] at h1
  subst hfin
  refine ⟨r0.st.durable_positions, ?_, ?_, ?_, ?_, ?_, ?_, ?_, ?_, ?_, ?_, ?_, ?_⟩
  · intro d; rw [f1, h1]; exact h6 d
  · rw [f1, h1, h2]
  · intro q hq; rw [f1, h1] at hq; exact h3 q hq
  · rw [f2]; simp only; rw [hlast, h7]
  · intro d hd; rw [f2] at hd; exact contiguous_advance_mem r0.st d hd
  · rw [f2]; simp only; rw [c3, h8]
  · rw [f2]; simp only; rw [c4, h9]
  · rw [f2]; simp only; rw [c1, h4]
  · rw [f2]; simp only; rw [c2, h5, assign_gps_snd_map]
  · rw [f2]; simp only; rw [c5, h10]
  · rw [f2]; simp only; rw [c6, h11]
  · rw [f2]; simp only; rw [c7, h12]

/-! ## Pending queue -/

theorem mem_keys_map_set (m : List (Str × Str)) (r v k : Str) :
    k ∈ map_keys (map_set m r v) ↔ k = r ∨ k ∈ map_keys m := by
  rw [mem_keys_iff_get, mem_keys_iff_get]
  by_cases hk : k = r
  · subst hk; simp [map_get_set_self]
  · simp [map_get_set_ne m r k v hk, hk]

theorem mem_keys_map_erase (m : List (Str × Str)) (r k : Str) :
    k ∈ map_keys (map_erase m r) ↔ k ≠ r ∧ k ∈ map_keys m := by
  rw [mem_keys_iff_get, mem_keys_iff_get]
  by_cases hk : k = r
  · subst hk; simp [map_get_erase_self]
  · simp [map_get_erase_ne m r k hk, hk]

theorem mem_keys_foldl_erase (rids : List Str) (m : List (Str × Str)) (k : Str) :
    k ∈ map_keys (rids.foldl map_erase m) ↔ k ∉ rids ∧ k ∈ map_keys m := by
  induction rids generalizing m with
  | nil => simp
  | cons r rest ih =>
    simp only [List.foldl_cons, ih, mem_keys_map_erase, List.mem_cons, not_or]
    tauto

/-- C10. Pending-queue invariant: in every state reachable from a state with empty
`pending_order` and `pending_payload` by APPEND handlings and complete ordering
iterations (each one step), the record ids in `pending_order` are exactly the keys of
`pending_payload`. -/
theorem C10_pending_queue_invariant {W : Type} (net : Net W) (cfg : SeqConfig)
    (s0 s : SeqState) (ho : s0.pending_order = []) (hp : s0.pending_payload = [])
    (hrun : LeaderRun net cfg (fun _ => True) s0 s) :
    ∀ k, k ∈ s.pending_order ↔ k ∈ map_keys s.pending_payload := by
  induction hrun with
  | refl => intro k; simp [ho, hp, map_keys]
  | append _ ha hstep ih =>
    rcases handle_connection_is_append _ _ _ _ ha hstep with e | ⟨rid, payload, e⟩
    · rw [e]; exact ih
    · intro k
      rw [e]
      simp only [List.mem_append, List.mem_singleton, mem_keys_map_set]
      rw [ih k]
      tauto
  | @order t w r _ _ _ hiter ih =>
    by_cases hne : t.pending_order = []
    · rw [ordering_iteration_empty net cfg t w hne] at hiter
      simp only [Option.some.injEq] at hiter
      subst hiter
      exact ih
    · obtain ⟨D1, _, _, _, _, _, _, _, h8, h9, _⟩ :=
        ordering_iteration_nonempty_spec net cfg t w r hne hiter
      intro k
      rw [h8, h9, mem_keys_foldl_erase, ← ih k]
      simp

theorem C10_pending_queue_invariant_witness :
    ex_leader.pending_order = [] ∧ ex_leader.pending_payload = [] ∧
      LeaderRun null_net ex_cfg (fun _ => True) ex_leader ex_leader_one ∧
      ∀ k, k ∈ ex_leader_one.pending_order ↔ k ∈ map_keys ex_leader_one.pending_payload :=
  have hrun : LeaderRun null_net ex_cfg (fun _ => True) ex_leader ex_leader_one :=
    LeaderRun.append (LeaderRun.refl ex_leader)
      ⟨join_msg [tag_APPEND, ['r', '1'], ['7'], ['h', 'i']], by decide, by decide⟩
      (by decide : handle_connection ex_leader ex_append = .done ex_leader_one (some msg_ACK))
  ⟨rfl, rfl, hrun, C10_pending_queue_invariant null_net ex_cfg ex_leader ex_leader_one rfl rfl hrun⟩

/-! ## Leader invariant -/

theorem zk_election_step_frame (zk_handle : Bool) (my_znode_path : Str)
    (children : Option (List Str)) (s : SeqState) :
    (zk_election_step zk_handle my_znode_path children s).pending_order = s.pending_order ∧
      (zk_election_step zk_handle my_znode_path children s).pending_payload = s.pending_payload ∧
      (zk_election_step zk_handle my_znode_path children s).durable_positions
        = s.durable_positions ∧
      (zk_election_step zk_handle my_znode_path children s).last_ordered_gp = s.last_ordered_gp ∧
      (zk_election_step zk_handle my_znode_path children s).stable_gp = s.stable_gp ∧
      (zk_election_step zk_handle my_znode_path children s).next_gp = s.next_gp ∧
      (zk_election_step zk_handle my_znode_path children s).view_id = s.view_id := by
  unfold zk_election_step
  split
  · simp
  · split
    · simp
    · simp only
      split
      · simp
      · split <;> simp

/-- An ordering iteration whose counter does not wrap keeps the leader invariant. -/
theorem ordering_iteration_inv {W : Type} (net : Net W) (cfg : SeqConfig) (s : SeqState)
    (w : W) (r : IterResult W) (hinv : LeaderInv s) (hw : no_wrap s)
    (h : ordering_iteration net cfg s w = some r) : LeaderInv r.st := by
  by_cases hne : s.pending_order = []
  · rw [ordering_iteration_empty net cfg s w hne] at h
    simp only [Option.some.injEq] at h
    subst h
    exact hinv
  · obtain ⟨D1, h1, h2, _, h4, h5, h6, h7, _⟩ :=
      ordering_iteration_nonempty_spec net cfg s w r hne h
    obtain ⟨i1, i2, i3⟩ := hinv
    unfold no_wrap at hw
    rw [assign_gps_fst_map s.pending_order s.next_gp hw] at h2
    rw [assign_gps_eq s.pending_order s.next_gp hw] at h7
    simp only at h7
    have hD1 : ∀ d ∈ D1, d < s.next_gp + s.pending_order.length := by
      intro d hd
      rcases (h1 d).1 hd with e | ⟨k, e⟩
      · have := i3 d e; omega
      · have hm : d ∈ r.puts.map (fun q => q.1) := List.mem_map.2 ⟨_, e, rfl⟩
        rw [h2, List.mem_range'_1] at hm
        omega
    have hloop : contig_loop D1 D1.length s.last_ordered_gp
        < s.next_gp + s.pending_order.length := by
      rcases contig_loop_mem D1 D1.length s.last_ordered_gp with e | e
      · rw [e]; omega
      · exact hD1 _ e
    refine ⟨?_, ?_, ?_⟩
    · rw [h6]; omega
    · rw [h4, h7]; omega
    · intro d hd
      rw [h7]
      exact hD1 d (h5 d hd)

theorem SeqReach_inv {W : Type} (net : Net W) (cfg : SeqConfig) (s : SeqState)
    (h : SeqReach net cfg true s) : LeaderInv s := by
  induction h with
  | init => decide
  | @msg s s1 fd_in reply _ hstep hb ih =>
    obtain ⟨i1, i2, i3⟩ := ih
    obtain ⟨e1, e2, e3⟩ := handle_connection_effect s s1 fd_in reply hstep
    refine ⟨?_, ?_, ?_⟩
    · rcases e3 with ⟨a, b⟩ | ⟨line, v, _, _, ⟨a, b⟩ | ⟨a, b⟩⟩ <;> omega
    · rcases e3 with ⟨a, b⟩ | ⟨line, v, hr, hc, ⟨a, b⟩ | ⟨a, b⟩⟩
      · omega
      · have := hb rfl line v hr hc; omega
      · have := hb rfl line v hr hc; omega
    · intro d hd
      rw [e2] at hd
      have := i3 d hd
      omega
  | @elect s zk_handle my_znode_path children _ ih =>
    obtain ⟨i1, i2, i3⟩ := ih
    obtain ⟨_, _, f3, f4, f5, f6, _⟩ := zk_election_step_frame zk_handle my_znode_path children s
    refine ⟨by rw [f4, f5]; exact i1, by rw [f4, f6]; exact i2, ?_⟩
    intro d hd
    rw [f3] at hd
    rw [f6]
    exact i3 d hd
  | @order s w r _ _ hw hiter ih => exact ordering_iteration_inv net cfg s w r ih (hw rfl) hiter

theorem ordering_iteration_heard {W : Type} (net : Net W) (cfg : SeqConfig) (s : SeqState)
    (w : W) (r : IterResult W) (h : ordering_iteration net cfg s w = some r) :
    (s.stable_gp ≤ s.last_ordered_gp → r.st.stable_gp ≤ r.st.last_ordered_gp) ∧
      (no_wrap s → (∀ d ∈ s.durable_positions, d < s.next_gp) →
        (∀ d ∈ r.st.durable_positions, d < r.st.next_gp) ∧ s.next_gp ≤ r.st.next_gp ∧
          (r.st.last_ordered_gp = s.last_ordered_gp ∨ r.st.last_ordered_gp < r.st.next_gp)) := by
  by_cases hne : s.pending_order = []
  · rw [ordering_iteration_empty net cfg s w hne] at h
    simp only [Option.some.injEq] at h
    subst h
    exact ⟨fun a => a, fun _ hd => ⟨hd, le_refl _, Or.inl rfl⟩⟩
  · obtain ⟨D1, h1, h2, _, h4, h5, h6, h7, _⟩ :=
      ordering_iteration_nonempty_spec net cfg s w r hne h
    refine ⟨?_, ?_⟩
    · intro hs
      rw [h6, h4]
      omega
    · intro hw i3
      unfold no_wrap at hw
      rw [assign_gps_fst_map s.pending_order s.next_gp hw] at h2
      rw [assign_gps_eq s.pending_order s.next_gp hw] at h7
      simp only at h7
      have hD1 : ∀ d ∈ D1, d < s.next_gp + s.pending_order.length := by
        intro d hd
        rcases (h1 d).1 hd with e | ⟨k, e⟩
        · have := i3 d e; omega
        · have hm : d ∈ r.puts.map (fun q => q.1) := List.mem_map.2 ⟨_, e, rfl⟩
          rw [h2, List.mem_range'_1] at hm
          omega
      refine ⟨?_, by rw [h7]; omega, ?_⟩
      · intro d hd
        rw [h7]
        exact hD1 d (h5 d hd)
      · rw [h4, h7]
        rcases contig_loop_mem D1 D1.length s.last_ordered_gp with e | e
        · left; rw [e]; exact max_self _
        · have := hD1 _ e
          rcases le_total s.last_ordered_gp (contig_loop D1 D1.length s.last_ordered_gp)
            with hle | hle
          · right; rw [max_eq_right hle]; exact this
          · left; exact max_eq_left hle

theorem SeqHistory_inv {W : Type} (net : Net W) (cfg : SeqConfig) (s : SeqState)
    (heard : Nat) (nowrap : Bool) (h : SeqHistory net cfg s heard nowrap) :
    s.stable_gp ≤ s.last_ordered_gp ∧
      (nowrap = true → 0 < s.next_gp ∧ (∀ d ∈ s.durable_positions, d < s.next_gp) ∧
        (s.last_ordered_gp < s.next_gp ∨ s.last_ordered_gp ≤ heard)) := by
  induction h with
  | init => exact ⟨by decide, fun _ => by decide⟩
  | @msg s s1 heard nowrap fd_in reply _ hstep ih =>
    obtain ⟨i1, i2⟩ := ih
    obtain ⟨e1, e2, e3⟩ := handle_connection_effect s s1 fd_in reply hstep
    refine ⟨?_, ?_⟩
    · rcases e3 with ⟨a, b⟩ | ⟨line, v, _, _, ⟨a, b⟩ | ⟨a, b⟩⟩ <;> omega
    · intro hn
      obtain ⟨k0, k1, k2⟩ := i2 hn
      refine ⟨by rw [e1]; exact k0, ?_, ?_⟩
      · intro d hd
        rw [e2] at hd
        rw [e1]
        exact k1 d hd
      · rw [e1]
        rcases e3 with ⟨a, b⟩ | ⟨line, v, hr, hc, ⟨a, b⟩ | ⟨a, b⟩⟩
        · rw [a]
          rcases k2 with k | k
          · exact Or.inl k
          · exact Or.inr (le_trans k (le_max_left _ _))
        · have hv : heard_gp fd_in = v := by simp [heard_gp, hr, hc]
          rw [a, hv]
          rcases k2 with k | k
          · rcases le_total s.last_ordered_gp v with hle | hle
            · right; rw [max_eq_right hle]; exact le_max_right _ _
            · left; rw [max_eq_left hle]; exact k
          · right; exact max_le_max k (le_refl v)
        · have hv : heard_gp fd_in = v := by simp [heard_gp, hr, hc]
          rw [a, hv]
          exact Or.inr (le_max_right _ _)
  | @elect s heard nowrap zk_handle my_znode_path children _ ih =>
    obtain ⟨i1, i2⟩ := ih
    obtain ⟨_, _, f3, f4, f5, f6, _⟩ := zk_election_step_frame zk_handle my_znode_path children s
    refine ⟨by rw [f4, f5]; exact i1, ?_⟩
    intro hn
    obtain ⟨k0, k1, k2⟩ := i2 hn
    refine ⟨by rw [f6]; exact k0, ?_, by rw [f4, f6]; exact k2⟩
    intro d hd
    rw [f3] at hd
    rw [f6]
    exact k1 d hd
  | @order s heard nowrap w r _ _ hiter ih =>
    obtain ⟨i1, i2⟩ := ih
    obtain ⟨o1, o2⟩ := ordering_iteration_heard net cfg s w r hiter
    refine ⟨o1 i1, ?_⟩
    intro hn
    simp only [Bool.and_eq_true, decide_eq_true_eq] at hn
    obtain ⟨k0, k1, k2⟩ := i2 hn.1
    obtain ⟨p1, p2, p3⟩ := o2 hn.2 k1
    refine ⟨by omega, p1, ?_⟩
    rcases p3 with e | e
    · rw [e]
      rcases k2 with k | k
      · left; omega
      · exact Or.inr k
    · exact Or.inl e

theorem SeqReach_history {W : Type} (net : Net W) (cfg : SeqConfig) (s : SeqState)
    (h : SeqReach net cfg false s) : ∃ heard nowrap, SeqHistory net cfg s heard nowrap := by
  induction h with
  | init => exact ⟨0, true, SeqHistory.init⟩
  | @msg s s1 fd_in reply _ hstep _ ih =>
    obtain ⟨heard, nowrap, hh⟩ := ih
    exact ⟨_, _, SeqHistory.msg hh hstep⟩
  | @elect s zk_handle my_znode_path children _ ih =>
    obtain ⟨heard, nowrap, hh⟩ := ih
    exact ⟨_, _, SeqHistory.elect zk_handle my_znode_path children hh⟩
  | @order s w r _ hl _ hiter ih =>
    obtain ⟨heard, nowrap, hh⟩ := ih
    exact ⟨_, _, SeqHistory.order hh hl hiter⟩

theorem SeqHistory_reach {W : Type} (net : Net W) (cfg : SeqConfig) (s : SeqState)
    (heard : Nat) (nowrap : Bool) (h : SeqHistory net cfg s heard nowrap) :
    SeqReach net cfg false s := by
  induction h with
  | init => exact SeqReach.init
  | @msg s s1 heard nowrap fd_in reply _ hstep ih =>
    exact SeqReach.msg ih hstep (fun hb => absurd hb (by decide))
  | @elect s heard nowrap zk_handle my_znode_path children _ ih =>
    exact SeqReach.elect zk_handle my_znode_path children ih
  | @order s heard nowrap w r _ hl hiter ih =>
    exact SeqReach.order ih hl (fun hb => absurd hb (by decide)) hiter

/-- C3 (as amended). In every sequencer state reachable from the initial state by handled
messages, election rounds and ordering iterations, `stable_gp ≤ last_ordered_gp`.  While
`next_gp` has not wrapped, `last_ordered_gp` is below `next_gp` or at most the largest GP
that an HB or STABLE_UPDATE handled by the replica carried; so `last_ordered_gp < next_gp`
whenever that largest carried GP is below `next_gp` (in particular when none was
handled).  The next ordering iteration assigns only GPs above `last_ordered_gp` when
`last_ordered_gp < next_gp`, and otherwise its first GP is not above `last_ordered_gp`. -/
theorem C3_leader_invariant_heard {W : Type} (net : Net W) (cfg : SeqConfig) (s : SeqState)
    (heard : Nat) (nowrap : Bool) (h : SeqHistory net cfg s heard nowrap) :
    s.stable_gp ≤ s.last_ordered_gp ∧
      (nowrap = true → s.last_ordered_gp < s.next_gp ∨ s.last_ordered_gp ≤ heard) ∧
      (nowrap = true → heard < s.next_gp → s.last_ordered_gp < s.next_gp) ∧
      (nowrap = true → heard = 0 → s.last_ordered_gp < s.next_gp) ∧
      (s.last_ordered_gp < s.next_gp → no_wrap s →
        ∀ pos rid, (pos, rid) ∈ (assign_gps s.pending_order s.next_gp).1 →
          s.last_ordered_gp < pos) ∧
      (s.next_gp ≤ s.last_ordered_gp → s.pending_order ≠ [] →
        ∃ pos rid, (assign_gps s.pending_order s.next_gp).1.head? = some (pos, rid) ∧
          pos ≤ s.last_ordered_gp) := by
  obtain ⟨i1, i2⟩ := SeqHistory_inv net cfg s heard nowrap h
  refine ⟨i1, fun hn => (i2 hn).2.2, ?_, ?_, ?_, ?_⟩
  · intro hn hh
    rcases (i2 hn).2.2 with k | k
    · exact k
    · omega
  · intro hn hh
    obtain ⟨k0, _, k2⟩ := i2 hn
    rcases k2 with k | k
    · exact k
    · omega
  · intro hlt hw pos rid hmem
    rw [assign_gps_eq s.pending_order s.next_gp hw] at hmem
    have := (List.of_mem_zip hmem).1
    rw [List.mem_range'_1] at this
    omega
  · intro hge hne
    cases hp : s.pending_order with
    | nil => exact absurd hp hne
    | cons rid rest => exact ⟨s.next_gp, rid, rfl, hge⟩

theorem C3_leader_invariant_heard_witness :
    SeqHistory ok_net ex_cfg ex_one_done 1 true ∧
      ex_one_done.stable_gp ≤ ex_one_done.last_ordered_gp ∧
      ex_one_done.last_ordered_gp < ex_one_done.next_gp ∧
      SeqHistory ok_net ex_cfg ex_promoted 5 true ∧
      ex_promoted.stable_gp ≤ ex_promoted.last_ordered_gp ∧
      (ex_promoted.last_ordered_gp < ex_promoted.next_gp ∨ ex_promoted.last_ordered_gp ≤ 5) :=
  have a1 : SeqHistory ok_net ex_cfg ex_leader 0 true :=
    (by decide : zk_election_step true ex_znode (some ex_children) SeqState.init = ex_leader) ▸
      SeqHistory.elect true ex_znode (some ex_children) SeqHistory.init
  have a2 : SeqHistory ok_net ex_cfg ex_leader_one 0 true :=
    (by decide : max 0 (heard_gp ex_append) = 0) ▸
      SeqHistory.msg a1
        (by decide : handle_connection ex_leader ex_append = .done ex_leader_one (some msg_ACK))
  have a3 : SeqHistory ok_net ex_cfg ex_one_done 0 true :=
    (by decide : (true && decide (no_wrap ex_leader_one)) = true) ▸
      SeqHistory.order a2 rfl
        (by decide : ordering_iteration ok_net ex_cfg ex_leader_one ()
          = some ⟨ex_one_done, (), [(1, 1, true)]⟩)
  have a4 : SeqHistory ok_net ex_cfg ex_one_done 1 true :=
    (by decide : max 0 (heard_gp ex_hb_low) = 1) ▸
      SeqHistory.msg a3
        (by decide : handle_connection ex_one_done ex_hb_low = .done ex_one_done (some msg_HB_ACK))
  have a5 : SeqHistory ok_net ex_cfg ex_one_done 1 true :=
    (by decide : max 1 (heard_gp ex_stable_update) = 1) ▸
      SeqHistory.msg a4
        (by decide : handle_connection ex_one_done ex_stable_update
          = .done ex_one_done (some msg_STABLE_ACK))
  have b1 : SeqHistory ok_net ex_cfg ex_follower_hb 5 true :=
    (by decide : max 0 (heard_gp ex_hb) = 5) ▸
      SeqHistory.msg SeqHistory.init
        (by decide : handle_connection SeqState.init ex_hb = .done ex_follower_hb (some msg_HB_ACK))
  have b2 : SeqHistory ok_net ex_cfg ex_promoted 5 true :=
    (by decide : zk_election_step true ex_znode (some ex_children) ex_follower_hb = ex_promoted) ▸
      SeqHistory.elect true ex_znode (some ex_children) b1
  ⟨a5, (C3_leader_invariant_heard ok_net ex_cfg ex_one_done 1 true a5).1,
    (C3_leader_invariant_heard ok_net ex_cfg ex_one_done 1 true a5).2.2.1 rfl (by decide),
    b2, (C3_leader_invariant_heard ok_net ex_cfg ex_promoted 5 true b2).1,
    (C3_leader_invariant_heard ok_net ex_cfg ex_promoted 5 true b2).2.1 rfl⟩

/-- C3 (counterexample). The follower `SeqState.init` handles HB|1|2|5 and is then
promoted by the election loop: the resulting leader state is reachable, has
`last_ordered_gp = 5` and `next_gp = 1`, so `last_ordered_gp < next_gp` fails, and the
first GP it assigns is 1, which is not above its `last_ordered_gp`. -/
theorem C3_promoted_follower_counterexample :
    SeqReach null_net ex_cfg false ex_promoted ∧ ex_promoted.is_leader = true ∧
      ¬ (ex_promoted.stable_gp ≤ ex_promoted.last_ordered_gp ∧
          ex_promoted.last_ordered_gp < ex_promoted.next_gp) ∧
      (assign_gps [['x']] ex_promoted.next_gp).1 = [(1, ['x'])] ∧
      ¬ (ex_promoted.last_ordered_gp < 1) :=
  have h1 : SeqReach null_net ex_cfg false ex_follower_hb :=
    SeqReach.msg SeqReach.init
      (by decide : handle_connection SeqState.init ex_hb = .done ex_follower_hb (some msg_HB_ACK))
      (fun hb => absurd hb (by decide))
  have h2 : SeqReach null_net ex_cfg false ex_promoted :=
    (by decide : zk_election_step true ex_znode (some ex_children) ex_follower_hb = ex_promoted) ▸
      SeqReach.elect true ex_znode (some ex_children) h1
  ⟨h2, by decide, by decide, by decide, by decide⟩

/-! ## A failed PUT blocks the contiguous advance -/

theorem split_loop_parts (l : Str) (parts : List Str) (cur : Str) :
    split_loop l parts cur = parts ++ split_loop l [] cur := by
  induction l generalizing parts cur with
  | nil => simp [split_loop]
  | cons c t ih =>
    unfold split_loop
    split
    · rw [ih (parts ++ [cur]) [], ih ([] ++ [cur]) []]
      simp
    · exact ih parts _

theorem handle_conn_put_of_parts (fuel : Nat) (hbq : List Str) (st : ShardState)
    (fd_in line : Str) (pos : Nat) (tail : List Str) (hpos : pos < U64)
    (hrecv : recv_line fd_in = some line)
    (hparts : split_msg line = tag_PUT :: to_string pos :: tail) :
    handle_conn fuel hbq st fd_in
      = .done { st with store := map_set st.store pos (field tail 0 [], field tail 1 []),
                        max_pos := if pos > st.max_pos then pos else st.max_pos }
          (some msg_PUT_OK) := by
  unfold handle_conn
  rw [hrecv]
  simp only [hparts, field, List.get?, stoull_to_string pos hpos, if_true]
  simp

theorem join_no_newline (fs : List Str) (h : ∀ f ∈ fs, '\n' ∉ f) : '\n' ∉ join_msg fs := by
  induction fs with
  | nil => simp [join_msg]
  | cons f rest ih =>
    cases rest with
    | nil => simpa [join_msg] using h f (by simp)
    | cons g rest2 =>
      intro hm
      simp only [join_msg, List.mem_append, List.mem_cons] at hm
      rcases hm with e | e | e
      · exact h f (by simp) e
      · exact absurd e (by decide)
      · exact ih (fun x hx => h x (List.mem_cons_of_mem _ hx)) e

theorem map_set_idem {κ β : Type} [DecidableEq κ] (m : List (κ × β)) (k : κ) (v : β) :
    map_set (map_set m k v) k v = map_set m k v := by
  induction m with
  | nil => simp [map_set]
  | cons e rest ih =>
    obtain ⟨k0, v0⟩ := e
    by_cases hk : k0 = k
    · simp [map_set, hk]
    · simp [map_set, hk, ih]

theorem mem_keys_set {κ β : Type} [DecidableEq κ] (m : List (κ × β)) (k k1 : κ) (v : β) :
    k1 ∈ map_keys (map_set m k v) ↔ k1 = k ∨ k1 ∈ map_keys m := by
  rw [mem_keys_iff_get, mem_keys_iff_get]
  by_cases hk : k1 = k
  · subst hk; simp [map_get_set_self]
  · simp [map_get_set_ne m k k1 v hk, hk]

theorem split_put (pos : Nat) (rid payload : Str) (hr : '|' ∉ rid) (hp : '|' ∉ payload) :
    split_msg (join_msg [tag_PUT, to_string pos, rid, payload])
      = [tag_PUT, to_string pos, rid, payload] := by
  apply split_join
  intro g hg
  simp only [List.mem_cons, List.mem_singleton, List.not_mem_nil, or_false] at hg
  rcases hg with rfl | rfl | rfl | rfl
  · decide
  · exact to_string_no_pipe _
  · exact hr
  · exact hp

/-- C15. Shard PUT, for a received line PUT|pos|rid|payload with a 64-bit `pos` and
pipe-free `rid`, `payload`: the handler replies PUT_OK and ends in the state with
`store[pos] = (rid, payload)` and `max_pos = max(max_pos, pos)`; every other store entry
and `stable_gp` are unchanged; handling the same PUT in the new state gives the same
state again; and when before the PUT every stored GP was at most `max_pos` and `max_pos`
was stored (or still 0), then afterwards `max_pos` is the largest stored GP. -/
theorem C15_shard_put (fuel : Nat) (hbq : List Str) (st : ShardState) (fd_in : Str)
    (pos : Nat) (rid payload : Str) (hpos : pos < U64) (hr : '|' ∉ rid) (hp : '|' ∉ payload)
    (hrecv : recv_line fd_in = some (join_msg [tag_PUT, to_string pos, rid, payload])) :
    ∃ st1, handle_conn fuel hbq st fd_in = .done st1 (some msg_PUT_OK) ∧
      st1 = { st with store := map_set st.store pos (rid, payload),
                      max_pos := max st.max_pos pos } ∧
      map_get st1.store pos = some (rid, payload) ∧
      (∀ q, q ≠ pos → map_get st1.store q = map_get st.store q) ∧
      st1.stable_gp = st.stable_gp ∧
      handle_conn fuel hbq st1 fd_in = .done st1 (some msg_PUT_OK) ∧
      ((∀ k ∈ map_keys st.store, k ≤ st.max_pos) →
        (st.max_pos ∈ map_keys st.store ∨ st.max_pos = 0) →
        (∀ k ∈ map_keys st1.store, k ≤ st1.max_pos) ∧ st1.max_pos ∈ map_keys st1.store) := by
  have hparts := split_put pos rid payload hr hp
  have hmax : ∀ m : Nat, (if pos > m then pos else m) = max m pos := by
    intro m; split <;> omega
  have h1 := handle_conn_put_of_parts fuel hbq st fd_in _ pos [rid, payload] hpos hrecv hparts
  simp only [field, List.get?, hmax] at h1
  have h2 := handle_conn_put_of_parts fuel hbq
    { st with store := map_set st.store pos (rid, payload), max_pos := max st.max_pos pos }
    fd_in _ pos [rid, payload] hpos hrecv hparts
  simp only [field, List.get?, hmax, map_set_idem] at h2
  have hmm : max (max st.max_pos pos) pos = max st.max_pos pos := by omega
  rw [hmm] at h2
  refine ⟨_, h1, rfl, map_get_set_self _ _ _, fun q hq => map_get_set_ne _ _ _ _ hq, rfl, h2, ?_⟩
  intro hle hin
  constructor
  · intro k hk
    rcases (mem_keys_set st.store pos k (rid, payload)).1 hk with e | e
    · subst e; exact le_max_right _ _
    · exact le_trans (hle k e) (le_max_left _ _)
  · show max st.max_pos pos ∈ map_keys (map_set st.store pos (rid, payload))
    rw [mem_keys_set]
    by_cases hlt : st.max_pos < pos
    · left; exact max_eq_right (le_of_lt hlt)
    · rcases hin with e | e
      · right; rw [max_eq_left (by omega)]; exact e
      · left; omega

theorem C15_shard_put_witness :
    (2 : Nat) < U64 ∧ '|' ∉ ['r', '2'] ∧ '|' ∉ ['b'] ∧
      recv_line (send_line (join_msg [tag_PUT, to_string 2, ['r', '2'], ['b']]))
        = some (join_msg [tag_PUT, to_string 2, ['r', '2'], ['b']]) ∧
      ∃ st1, handle_conn 0 [] ex_shard (send_line (join_msg [tag_PUT, to_string 2, ['r', '2'], ['b']]))
          = .done st1 (some msg_PUT_OK) ∧
        st1 = { ex_shard with store := map_set ex_shard.store 2 (['r', '2'], ['b']),
                              max_pos := max ex_shard.max_pos 2 } ∧
        map_get st1.store 2 = some (['r', '2'], ['b']) ∧
        (∀ q, q ≠ 2 → map_get st1.store q = map_get ex_shard.store q) ∧
        st1.stable_gp = ex_shard.stable_gp ∧
        handle_conn 0 [] st1 (send_line (join_msg [tag_PUT, to_string 2, ['r', '2'], ['b']]))
          = .done st1 (some msg_PUT_OK) ∧
        ((∀ k ∈ map_keys ex_shard.store, k ≤ ex_shard.max_pos) →
          (ex_shard.max_pos ∈ map_keys ex_shard.store ∨ ex_shard.max_pos = 0) →
          (∀ k ∈ map_keys st1.store, k ≤ st1.max_pos) ∧ st1.max_pos ∈ map_keys st1.store) :=
  ⟨by decide, by decide, by decide, by decide,
    C15_shard_put 0 [] ex_shard _ 2 ['r', '2'] ['b'] (by decide) (by decide) (by decide)
      (by decide)⟩

/-- C16. Shard UPDATESTABLE, for a received line UPDATESTABLE|s with a 64-bit `s`: the
handler replies OK and ends in the same state with `stable_gp = max(stable_gp, s)`; the
store and `max_pos` are unchanged and `stable_gp` does not decrease. -/
theorem C16_shard_updatestable (fuel : Nat) (hbq : List Str) (st : ShardState) (fd_in : Str)
    (v : Nat) (hv : v < U64)
    (hrecv : recv_line fd_in = some (join_msg [tag_UPDATESTABLE, to_string v])) :
    ∃ st1, handle_conn fuel hbq st fd_in = .done st1 (some msg_OK) ∧
      st1.stable_gp = max st.stable_gp v ∧ st1.store = st.store ∧ st1.max_pos = st.max_pos ∧
      st.stable_gp ≤ st1.stable_gp := by
  have hparts : split_msg (join_msg [tag_UPDATESTABLE, to_string v])
      = [tag_UPDATESTABLE, to_string v] := by
    apply split_join
    intro g hg
    simp only [List.mem_cons, List.mem_singleton, List.not_mem_nil, or_false] at hg
    rcases hg with rfl | rfl
    · decide
    · exact to_string_no_pipe _
  have h1 : tag_UPDATESTABLE ≠ tag_PUT := by decide
  refine ⟨{ st with stable_gp := max st.stable_gp v }, ?_, rfl, rfl, rfl, le_max_left _ _⟩
  unfold handle_conn
  rw [hrecv]
  simp only [hparts, field, List.get?, stoull_to_string v hv, h1, if_false, if_true]
  simp

theorem C16_shard_updatestable_witness :
    (9 : Nat) < U64 ∧
      recv_line (send_line (join_msg [tag_UPDATESTABLE, to_string 9]))
        = some (join_msg [tag_UPDATESTABLE, to_string 9]) ∧
      ∃ st1, handle_conn 0 [] ex_shard (send_line (join_msg [tag_UPDATESTABLE, to_string 9]))
          = .done st1 (some msg_OK) ∧
        st1.stable_gp = max ex_shard.stable_gp 9 ∧ st1.store = ex_shard.store ∧
        st1.max_pos = ex_shard.max_pos ∧ ex_shard.stable_gp ≤ st1.stable_gp :=
  ⟨by decide, by decide,
    C16_shard_updatestable 0 [] ex_shard _ 9 (by decide) (by decide)⟩

/-! ## Sequencer: HB -/

/-- C17. HB handler, for a received line HB|view|rep_id|their_last with 64-bit numbers
and a pipe-free `rep_id`: the reply is HB_ACK and the new state is the old one with
`view_id = max(view_id, view)` and `last_ordered_gp = max(last_ordered_gp, their_last)`;
`stable_gp`, `next_gp`, `is_leader`, `sealed`, `pending_order`, `pending_payload` and
`durable_positions` are unchanged. -/
theorem C17_hb_handler (s : SeqState) (fd_in : Str) (view their_last : Nat) (rep_id : Str)
    (hv : view < U64) (hl : their_last < U64) (hrep : '|' ∉ rep_id)
    (hrecv : recv_line fd_in
      = some (join_msg [tag_HB, to_string view, rep_id, to_string their_last])) :
    ∃ s1, handle_connection s fd_in = .done s1 (some msg_HB_ACK) ∧
      s1.view_id = max s.view_id view ∧
      s1.last_ordered_gp = max s.last_ordered_gp their_last ∧
      s1.stable_gp = s.stable_gp ∧ s1.next_gp = s.next_gp ∧ s1.is_leader = s.is_leader ∧
      s1.sealed = s.sealed ∧ s1.pending_order = s.pending_order ∧
      s1.pending_payload = s.pending_payload ∧
      s1.durable_positions = s.durable_positions := by
  have hparts : split_msg (join_msg [tag_HB, to_string view, rep_id, to_string their_last])
      = [tag_HB, to_string view, rep_id, to_string their_last] := by
    apply split_join
    intro g hg
    simp only [List.mem_cons, List.mem_singleton, List.not_mem_nil, or_false] at hg
    rcases hg with rfl | rfl | rfl | rfl
    · decide
    · exact to_string_no_pipe _
    · exact hrep
    · exact to_string_no_pipe _
  have h1 : tag_HB ≠ tag_APPEND := by decide
  have hform : handle_connection s fd_in
      = .done { s with view_id := max s.view_id view,
                       last_ordered_gp := max s.last_ordered_gp their_last }
          (some msg_HB_ACK) := by
    unfold handle_connection
    rw [hrecv]
    simp only [hparts, field, List.get?, stoull_to_string view hv,
      stoull_to_string their_last hl, h1, if_false, if_true]
    by_cases hvw : view ≥ s.view_id <;> by_cases hlt : their_last > s.last_ordered_gp
    · simp [hvw, hlt, max_eq_right hvw, max_eq_right (le_of_lt hlt)]
    · simp [hvw, hlt, max_eq_right hvw, max_eq_left (Nat.le_of_not_lt hlt)]
    · simp [hvw, hlt, max_eq_left (Nat.le_of_not_le hvw), max_eq_right (le_of_lt hlt)]
    · simp [hvw, hlt, max_eq_left (Nat.le_of_not_le hvw), max_eq_left (Nat.le_of_not_lt hlt)]
  exact ⟨_, hform, rfl, rfl, rfl, rfl, rfl, rfl, rfl, rfl, rfl⟩

theorem C17_hb_handler_witness :
    (1 : Nat) < U64 ∧ (5 : Nat) < U64 ∧ '|' ∉ ['2'] ∧
      recv_line (send_line (join_msg [tag_HB, to_string 1, ['2'], to_string 5]))
        = some (join_msg [tag_HB, to_string 1, ['2'], to_string 5]) ∧
      handle_connection SeqState.init (send_line (join_msg [tag_HB, to_string 1, ['2'], to_string 5]))
        = .done ex_follower_hb (some msg_HB_ACK) ∧
      ∃ s1, handle_connection SeqState.init
            (send_line (join_msg [tag_HB, to_string 1, ['2'], to_string 5]))
          = .done s1 (some msg_HB_ACK) ∧
        s1.view_id = max SeqState.init.view_id 1 ∧
        s1.last_ordered_gp = max SeqState.init.last_ordered_gp 5 ∧
        s1.stable_gp = SeqState.init.stable_gp ∧ s1.next_gp = SeqState.init.next_gp ∧
        s1.is_leader = SeqState.init.is_leader ∧ s1.sealed = SeqState.init.sealed ∧
        s1.pending_order = SeqState.init.pending_order ∧
        s1.pending_payload = SeqState.init.pending_payload ∧
        s1.durable_positions = SeqState.init.durable_positions :=
  ⟨by decide, by decide, by decide, by decide, by decide,
    C17_hb_handler SeqState.init _ 1 5 ['2'] (by decide) (by decide) (by decide) (by decide)⟩

/-! ## Wire codec round trip -/

theorem split_loop_ne_nil (l : Str) (parts : List Str) (cur : Str) :
    split_loop l parts cur ≠ [] := by
  induction l generalizing parts cur with
  | nil => simp [split_loop]
  | cons c t ih =>
    unfold split_loop
    split
    · exact ih _ _
    · exact ih _ _

theorem join_msg_cons (f : Str) (l : List Str) (h : l ≠ []) :
    join_msg (f :: l) = f ++ '|' :: join_msg l := by
  cases l with
  | nil => exact absurd rfl h
  | cons g rest => rfl

theorem join_split_loop (l cur : Str) : join_msg (split_loop l [] cur) = cur ++ l := by
  induction l generalizing cur with
  | nil => simp [split_loop, join_msg]
  | cons c t ih =>
    unfold split_loop
    split
    · rename_i hc
      rw [split_loop_parts, List.nil_append, List.singleton_append,
        join_msg_cons cur _ (split_loop_ne_nil t [] []), ih []]
      simp [hc]
    · rw [ih (cur ++ [c])]
      simp

theorem split_loop_length (l cur : Str) :
    (split_loop l [] cur).length = l.count '|' + 1 := by
  induction l generalizing cur with
  | nil => simp [split_loop]
  | cons c t ih =>
    unfold split_loop
    split
    · rename_i hc
      rw [split_loop_parts, List.length_append, ih [], hc]
      simp
      omega
    · rename_i hc
      rw [ih (cur ++ [c]), List.count_cons_of_ne (fun e => hc e.symm)]

/-- C18. Wire codec round trip: `split_msg` applied to a non-empty list of pipe-free
fields joined with `|` returns that list; and for every string `s`, joining
`split_msg s` with `|` gives back `s`, and `split_msg s` has one more element than `s` has
`|` characters. -/
theorem C18_wire_codec_round_trip :
    (∀ fs : List Str, fs ≠ [] → (∀ f ∈ fs, '|' ∉ f) → split_msg (join_msg fs) = fs) ∧
      (∀ s : Str, join_msg (split_msg s) = s ∧ (split_msg s).length = s.count '|' + 1) := by
  constructor
  · intro fs hne hfs
    cases fs with
    | nil => exact absurd rfl hne
    | cons f rest => exact split_join f rest hfs
  · intro s
    exact ⟨by simpa [split_msg] using join_split_loop s [], split_loop_length s []⟩

theorem C18_wire_codec_round_trip_witness :
    split_msg (join_msg [tag_PUT, ['7'], [], ['x', 'y']]) = [tag_PUT, ['7'], [], ['x', 'y']] ∧
      join_msg (split_msg ['a', '|', '|', 'b', '|']) = ['a', '|', '|', 'b', '|'] ∧
      (split_msg ['a', '|', '|', 'b', '|']).length = List.count '|' ['a', '|', '|', 'b', '|'] + 1 :=
  ⟨C18_wire_codec_round_trip.1 [tag_PUT, ['7'], [], ['x', 'y']] (by decide) (by decide),
    C18_wire_codec_round_trip.2 ['a', '|', '|', 'b', '|']⟩

/-! ## Shard routing -/

/-- C14 (evaluation at failing inputs). A line with a known tag whose numeric field is
not a number makes `stoull` throw in the handler: the sequencer (HB|x, STABLE_UPDATE|x,
GC|x) and the shard (PUT|x|r|p, UPDATESTABLE|x, READRANGE|x|1) end without a reply, while
a line with an unknown tag is answered ERR|UNKNOWN / ERR with the state unchanged. -/
theorem C14_non_numeric_field_crashes :
    handle_connection ex_leader (send_line (join_msg [tag_HB, ['x']])) = .crash ∧
      handle_connection ex_leader (send_line (join_msg [tag_STABLE_UPDATE, ['x']])) = .crash ∧
      handle_connection ex_leader (send_line (join_msg [tag_GC, ['x']])) = .crash ∧
      handle_conn 0 [] ex_shard (send_line (join_msg [tag_PUT, ['x'], ['r'], ['p']])) = .crash ∧
      handle_conn 0 [] ex_shard (send_line (join_msg [tag_UPDATESTABLE, ['x']])) = .crash ∧
      handle_conn 0 [] ex_shard (send_line (join_msg [tag_READRANGE, ['x'], ['1']])) = .crash ∧
      handle_connection ex_leader (send_line ['N', 'O', 'P', 'E'])
        = .done ex_leader (some msg_ERR_UNKNOWN) ∧
      handle_conn 0 [] ex_shard (send_line ['N', 'O', 'P', 'E'])
        = .done ex_shard (some msg_ERR) := by
  decide

/-! ## Election: the order on child names -/

theorem char_eq_of_toNat (a b : Char) (h : a.toNat = b.toNat) : a = b := by
  have h1 : Char.ofNat a.toNat = a := Char.ofNat_toNat a
  have h2 : Char.ofNat b.toNat = b := Char.ofNat_toNat b
  rw [← h1, ← h2, h]

theorem str_lt_cons (a b : Char) (x y : Str) :
    str_lt (a :: x) (b :: y) = (decide (a.toNat < b.toNat) || (decide (a = b) && str_lt x y)) := by
  simp [str_lt]

theorem str_lt_irrefl (x : Str) : str_lt x x = false := by
  induction x with
  | nil => rfl
  | cons a t ih => simp [str_lt_cons, ih]

theorem str_lt_asymm (x y : Str) (h : str_lt x y = true) : str_lt y x = false := by
  induction x generalizing y with
  | nil => cases y <;> simp_all [str_lt]
  | cons a t ih =>
    cases y with
    | nil => simp [str_lt] at h
    | cons b u =>
      rw [str_lt_cons] at h ⊢
      simp only [Bool.or_eq_true, Bool.and_eq_true, decide_eq_true_eq] at h
      rcases h with h | ⟨h1, h2⟩
      · have hne : b ≠ a := fun e => by rw [e] at h; omega
        simp [hne, Nat.not_lt.2 (le_of_lt h)]
      · subst h1
        simp [ih u h2]

theorem str_lt_connected (x y : Str) (h1 : str_lt x y = false) (h2 : str_lt y x = false) :
    x = y := by
  induction x generalizing y with
  | nil => cases y <;> simp_all [str_lt]
  | cons a t ih =>
    cases y with
    | nil => simp [str_lt] at h2
    | cons b u =>
      rw [str_lt_cons] at h1 h2
      simp only [Bool.or_eq_false_iff, Bool.and_eq_false_iff, decide_eq_false_iff_not] at h1 h2
      have hab : a = b := char_eq_of_toNat a b (by omega)
      subst hab
      have e1 : str_lt t u = false := by
        rcases h1.2 with e | e
        · exact absurd rfl e
        · exact e
      have e2 : str_lt u t = false := by
        rcases h2.2 with e | e
        · exact absurd rfl e
        · exact e
      rw [ih u e1 e2]

theorem str_lt_cotrans (x y z : Str) (h : str_lt x z = true) :
    str_lt x y = true ∨ str_lt y z = true := by
  induction x generalizing y z with
  | nil =>
    cases z with
    | nil => simp [str_lt] at h
    | cons c w =>
      cases y with
      | nil => right; rfl
      | cons b u => left; rfl
  | cons a t ih =>
    cases z with
    | nil => simp [str_lt] at h
    | cons c w =>
      cases y with
      | nil => right; rfl
      | cons b u =>
        rw [str_lt_cons] at h
        simp only [str_lt_cons, Bool.or_eq_true, Bool.and_eq_true, decide_eq_true_eq] at h ⊢
        by_cases hab : a.toNat < b.toNat
        · exact Or.inl (Or.inl hab)
        · by_cases hba : b.toNat < a.toNat
          · right; left
            rcases h with h | ⟨h1, _⟩
            · omega
            · rw [← h1]; exact hba
          · have e : a = b := char_eq_of_toNat a b (by omega)
            subst e
            rcases h with h | ⟨h1, h2⟩
            · exact Or.inr (Or.inl h)
            · rcases ih u w h2 with e1 | e1
              · exact Or.inl (Or.inr ⟨rfl, e1⟩)
              · exact Or.inr (Or.inr ⟨h1, e1⟩)

/-- The first element of the sorted children is the one no other child is below. -/
theorem sort_nodes_head (nodes : List Str) (m : Str) (hm : m ∈ nodes) :
    (sort_nodes nodes).head? = some m ↔ ∀ x ∈ nodes, str_lt x m = false := by
  haveI : IsTotal Str (fun a b => str_lt b a = false) :=
    ⟨fun a b => by
      cases h : str_lt b a
      · exact Or.inl rfl
      · exact Or.inr (str_lt_asymm b a h)⟩
  haveI : IsTrans Str (fun a b => str_lt b a = false) :=
    ⟨fun a b c hab hbc => by
      cases h : str_lt c a
      · rfl
      · rcases str_lt_cotrans c b a h with e | e
        · rw [e] at hbc; exact absurd hbc (by simp)
        · rw [e] at hab; exact absurd hab (by simp)⟩
  have hsorted : List.Sorted (fun a b => str_lt b a = false) (sort_nodes nodes) :=
    List.sorted_insertionSort _ nodes
  have hperm : (sort_nodes nodes).Perm nodes := List.perm_insertionSort _ nodes
  cases hs : sort_nodes nodes with
  | nil =>
    rw [hs] at hperm
    have := hperm.symm.eq_nil
    rw [this] at hm
    simp at hm
  | cons h t =>
    rw [hs] at hsorted hperm
    have hrel := List.rel_of_sorted_cons hsorted
    simp only [List.head?_cons, Option.some.injEq]
    constructor
    · intro e x hx
      subst e
      rcases List.mem_cons.1 (hperm.symm.subset hx) with e1 | e1
      · rw [e1]; exact str_lt_irrefl _
      · exact hrel x e1
    · intro hall
      have hh : h ∈ nodes := hperm.subset (List.mem_cons_self _ _)
      rcases List.mem_cons.1 (hperm.symm.subset hm) with e1 | e1
      · exact e1.symm
      · exact str_lt_connected h m (hall h hh) (hrel m e1)

/-! ## Election: one round of the loop -/

theorem zk_election_step_eq (my_znode_path : Str) (nodes : List Str) (s : SeqState)
    (hpath : my_znode_path ≠ []) :
    zk_election_step true my_znode_path (some nodes) s
      = if am_leader nodes my_znode_path = true ∧ s.is_leader = false then
          { s with is_leader := true, sealed := false }
        else if am_leader nodes my_znode_path = false ∧ s.is_leader = true then
          { s with is_leader := false, sealed := true }
        else s := by
  have he : my_znode_path.isEmpty = false := by
    cases my_znode_path with
    | nil => exact absurd rfl hpath
    | cons c t => rfl
  unfold zk_election_step am_leader
  simp only [he, Bool.not_true, Bool.or_false, Bool.false_eq_true, if_false]
  cases h1 : (!nodes.isEmpty && decide ((sort_nodes nodes).head? = some (my_name my_znode_path)))
    <;> cases h2 : s.is_leader <;> simp

/-- C12 (as amended). One polling round with a successful children listing: afterwards
`is_leader` is true exactly when the replica's child is first in the sorted listing,
whatever the flags were; `sealed` becomes false when the replica becomes leader in this
round and true when it steps down in this round; when `is_leader` already agrees with the
listing the whole state (so `sealed` too) is unchanged; hence `sealed = not is_leader`
holds after the round whenever it held before; no other field changes. -/
theorem C12_election_step (my_znode_path : Str) (nodes : List Str) (s : SeqState)
    (hpath : my_znode_path ≠ []) :
    (zk_election_step true my_znode_path (some nodes) s).is_leader
        = am_leader nodes my_znode_path ∧
      (am_leader nodes my_znode_path = true → s.is_leader = false →
        (zk_election_step true my_znode_path (some nodes) s).sealed = false) ∧
      (am_leader nodes my_znode_path = false → s.is_leader = true →
        (zk_election_step true my_znode_path (some nodes) s).sealed = true) ∧
      (am_leader nodes my_znode_path = s.is_leader →
        zk_election_step true my_znode_path (some nodes) s = s) ∧
      (s.sealed = !s.is_leader →
        (zk_election_step true my_znode_path (some nodes) s).sealed
          = !(zk_election_step true my_znode_path (some nodes) s).is_leader) ∧
      (zk_election_step true my_znode_path (some nodes) s).pending_order = s.pending_order ∧
      (zk_election_step true my_znode_path (some nodes) s).pending_payload = s.pending_payload ∧
      (zk_election_step true my_znode_path (some nodes) s).durable_positions
        = s.durable_positions ∧
      (zk_election_step true my_znode_path (some nodes) s).last_ordered_gp = s.last_ordered_gp ∧
      (zk_election_step true my_znode_path (some nodes) s).stable_gp = s.stable_gp ∧
      (zk_election_step true my_znode_path (some nodes) s).next_gp = s.next_gp ∧
      (zk_election_step true my_znode_path (some nodes) s).view_id = s.view_id := by
  refine ⟨?_, ?_, ?_, ?_, ?_, zk_election_step_frame true my_znode_path (some nodes) s⟩ <;>
    rw [zk_election_step_eq my_znode_path nodes s hpath] <;>
    cases h1 : am_leader nodes my_znode_path <;> cases h2 : s.is_leader <;> simp_all

theorem C12_election_step_witness :
    ex_znode ≠ [] ∧ am_leader ex_children ex_znode = true ∧
      zk_election_step true ex_znode (some ex_children) SeqState.init = ex_leader ∧
      (zk_election_step true ex_znode (some ex_children) SeqState.init).is_leader
        = am_leader ex_children ex_znode :=
  ⟨by decide, by decide, by decide,
    (C12_election_step ex_znode ex_children SeqState.init (by decide)).1⟩

/-- C12 (counterexample). A replica that is neither leader nor sealed (the values of the
globals before `main_sequencer` assigns them) polls a listing in which its child
`n_0000000002` is not the first: the round changes nothing, so `sealed` stays false. -/
theorem C12_unsealed_follower_counterexample :
    ex_znode_2 ≠ [] ∧ am_leader ex_children_2_1 ex_znode_2 = false ∧
      ex_unsealed_follower.is_leader = false ∧
      (zk_election_step true ex_znode_2 (some ex_children_2_1) ex_unsealed_follower).is_leader
        = false ∧
      (zk_election_step true ex_znode_2 (some ex_children_2_1) ex_unsealed_follower).sealed
        = false := by
  decide

/-! ## Election: numeric suffixes -/

theorem dec_foldl_acc (d : Str) (a : Nat) :
    d.foldl (fun acc c => acc * 10 + (c.toNat - 48)) a
      = a * 10 ^ d.length + d.foldl (fun acc c => acc * 10 + (c.toNat - 48)) 0 := by
  induction d generalizing a with
  | nil => simp
  | cons c t ih =>
    simp only [List.foldl_cons, List.length_cons]
    rw [ih (a * 10 + (c.toNat - 48)), ih (0 * 10 + (c.toNat - 48))]
    ring

theorem dec_value_cons (c : Char) (t : Str) :
    dec_value (c :: t) = (c.toNat - 48) * 10 ^ t.length + dec_value t := by
  unfold dec_value
  simp only [List.foldl_cons]
  rw [dec_foldl_acc]
  simp

theorem dec_value_lt (d : Str)
    (hd : d.all (fun c => decide (48 ≤ c.toNat ∧ c.toNat ≤ 57)) = true) :
    dec_value d < 10 ^ d.length := by
  induction d with
  | nil => simp [dec_value]
  | cons c t ih =>
    simp only [List.all_cons, Bool.and_eq_true, decide_eq_true_eq] at hd
    have h1 := ih hd.2
    rw [dec_value_cons, List.length_cons, pow_succ]
    have h2 : c.toNat - 48 ≤ 9 := by omega
    nlinarith [Nat.mul_le_mul_right (10 ^ t.length) h2]

/-- On digit strings of equal length the lexicographic order is the numeric order. -/
theorem str_lt_digits (dx dy : Str) (hlen : dx.length = dy.length)
    (hx : dx.all (fun c => decide (48 ≤ c.toNat ∧ c.toNat ≤ 57)) = true)
    (hy : dy.all (fun c => decide (48 ≤ c.toNat ∧ c.toNat ≤ 57)) = true) :
    str_lt dx dy = true ↔ dec_value dx < dec_value dy := by
  induction dx generalizing dy with
  | nil =>
    cases dy with
    | nil => simp [str_lt, dec_value]
    | cons b u => simp at hlen
  | cons a t ih =>
    cases dy with
    | nil => simp at hlen
    | cons b u =>
      simp only [List.length_cons, Nat.add_right_cancel_iff] at hlen
      simp only [List.all_cons, Bool.and_eq_true, decide_eq_true_eq] at hx hy
      have ht := dec_value_lt t hx.2
      have hu := dec_value_lt u hy.2
      rw [hlen] at ht
      rw [str_lt_cons, dec_value_cons, dec_value_cons, hlen]
      simp only [Bool.or_eq_true, Bool.and_eq_true, decide_eq_true_eq]
      have ih1 := ih u hlen hx.2 hy.2
      by_cases hab : a.toNat < b.toNat
      · have hd : a.toNat - 48 + 1 ≤ b.toNat - 48 := by omega
        have := Nat.mul_le_mul_right (10 ^ u.length) hd
        constructor
        · intro _; nlinarith
        · intro _; exact Or.inl hab
      · by_cases hba : b.toNat < a.toNat
        · have hd : b.toNat - 48 + 1 ≤ a.toNat - 48 := by omega
          have := Nat.mul_le_mul_right (10 ^ u.length) hd
          have hne : a ≠ b := fun e => by rw [e] at hba; omega
          constructor
          · rintro (h | ⟨h, _⟩)
            · exact absurd h hab
            · exact absurd h hne
          · intro h; nlinarith
        · have e : a = b := char_eq_of_toNat a b (by omega)
          subst e
          constructor
          · rintro (h | ⟨_, h⟩)
            · exact absurd h hab
            · have := ih1.1 h; omega
          · intro h
            exact Or.inr ⟨rfl, ih1.2 (by omega)⟩

theorem is_seq_name_form (x : Str) (h : is_seq_name x = true) :
    ∃ d, x = 'n' :: '_' :: d ∧
      d.all (fun c => decide (48 ≤ c.toNat ∧ c.toNat ≤ 57)) = true := by
  unfold is_seq_name at h
  split at h
  · rename_i d
    simp only [Bool.and_eq_true] at h
    exact ⟨d, rfl, h.2⟩
  · exact absurd h (by simp)

theorem str_lt_seq_names (x y : Str) (hx : is_seq_name x = true) (hy : is_seq_name y = true)
    (hlen : x.length = y.length) : str_lt x y = true ↔ seq_number x < seq_number y := by
  obtain ⟨dx, ex, hdx⟩ := is_seq_name_form x hx
  obtain ⟨dy, ey, hdy⟩ := is_seq_name_form y hy
  subst ex ey
  simp only [List.length_cons, Nat.add_right_cancel_iff] at hlen
  have h := str_lt_digits dx dy hlen hdx hdy
  simp only [seq_number, List.drop_succ_cons, List.drop_zero]
  rw [← h]
  simp [str_lt_cons]

/-- C13 (as amended). Leader choice by numeric suffix, for child names `n_<decimal digits>`
that all have the same length (ZooKeeper's sequence suffixes are zero-padded to a fixed
width): when the listing contains the replica's own name, the election round makes the
replica leader exactly when its suffix is numerically the smallest of the listing. -/
theorem C13_leader_by_suffix_fixed_width (my_znode_path : Str) (nodes : List Str)
    (s : SeqState) (hpath : my_znode_path ≠ [])
    (hmem : my_name my_znode_path ∈ nodes)
    (hform : ∀ x ∈ nodes, is_seq_name x = true)
    (hwidth : ∀ x ∈ nodes, x.length = (my_name my_znode_path).length) :
    (zk_election_step true my_znode_path (some nodes) s).is_leader = true
      ↔ ∀ x ∈ nodes, seq_number (my_name my_znode_path) ≤ seq_number x := by
  have hne : nodes.isEmpty = false := by
    cases nodes with
    | nil => simp at hmem
    | cons a t => rfl
  have hstep : (zk_election_step true my_znode_path (some nodes) s).is_leader
      = am_leader nodes my_znode_path := by
    rw [zk_election_step_eq my_znode_path nodes s hpath]
    cases h1 : am_leader nodes my_znode_path <;> cases h2 : s.is_leader <;> simp_all
  rw [hstep]
  unfold am_leader
  simp only [hne, Bool.not_false, Bool.true_and, decide_eq_true_eq]
  rw [sort_nodes_head nodes _ hmem]
  constructor
  · intro h x hx
    have h1 := h x hx
    have h2 := str_lt_seq_names x (my_name my_znode_path) (hform x hx) (hform _ hmem)
      (hwidth x hx)
    by_contra hlt
    rw [h2.2 (by omega)] at h1
    exact absurd h1 (by simp)
  · intro h x hx
    have h1 := h x hx
    have h2 := str_lt_seq_names x (my_name my_znode_path) (hform x hx) (hform _ hmem)
      (hwidth x hx)
    cases hlt : str_lt x (my_name my_znode_path)
    · rfl
    · have := h2.1 hlt
      omega

theorem C13_leader_by_suffix_fixed_width_witness :
    ex_znode_2 ≠ [] ∧ my_name ex_znode_2 ∈ ex_children_2_1 ∧
      (∀ x ∈ ex_children_2_1, is_seq_name x = true) ∧
      (∀ x ∈ ex_children_2_1, x.length = (my_name ex_znode_2).length) ∧
      seq_number (my_name ex_znode_2) = 2 ∧
      ((zk_election_step true ex_znode_2 (some ex_children_2_1) ex_leader).is_leader = true
        ↔ ∀ x ∈ ex_children_2_1, seq_number (my_name ex_znode_2) ≤ seq_number x) :=
  ⟨by decide, by decide, by decide, by decide, by decide,
    C13_leader_by_suffix_fixed_width ex_znode_2 ex_children_2_1 ex_leader (by decide)
      (by decide) (by decide) (by decide)⟩

/-- C13 (counterexample). The listing is `n_10`, `n_9` and the replica's child is `n_9`:
both names have the form `n_<decimal digits>`, 9 is numerically the smallest suffix, yet
the sorted listing starts with `n_10` and the round leaves the replica a follower. -/
theorem C13_variable_width_counterexample :
    ex_znode_9 ≠ [] ∧ my_name ex_znode_9 ∈ ex_children_10_9 ∧
      (∀ x ∈ ex_children_10_9, is_seq_name x = true) ∧
      (∀ x ∈ ex_children_10_9, seq_number (my_name ex_znode_9) ≤ seq_number x) ∧
      sort_nodes ex_children_10_9 = [['n', '_', '1', '0'], ['n', '_', '9']] ∧
      (zk_election_step true ex_znode_9 (some ex_children_10_9) SeqState.init).is_leader
        = false := by
  decide

/-! ## SequencerLog: append and gc_up_to -/

theorem to_int32_of_small (x : Int) (h0 : 0 ≤ x) (h : x < 2 ^ 31) : to_int32 x = x := by
  unfold to_int32
  have e31 : (2 : Int) ^ 31 = 2147483648 := by norm_num
  have e32 : (2 : Int) ^ 32 = 4294967296 := by norm_num
  rw [e31] at h ⊢
  rw [e32]
  omega

theorem append_all_spec (l : SequencerLog) (es : List Entry) :
    (append_all l es).1.log = l.log ++ es ∧
      (append_all l es).1.last_local_index = l.last_local_index + es.length ∧
      (append_all l es).2
        = (List.range es.length).map (fun (k : Nat) => to_int32 (l.last_local_index + 1 + (k : Int))) := by
  induction es generalizing l with
  | nil => simp [append_all]
  | cons e rest ih =>
    obtain ⟨h1, h2, h3⟩ := ih (l.append e).1
    have e1 : (l.append e).1.log = l.log ++ [e] := rfl
    have e2 : (l.append e).1.last_local_index = l.last_local_index + 1 := rfl
    have e3 : (l.append e).2 = to_int32 (l.last_local_index + 1) := rfl
    rw [e1] at h1
    rw [e2] at h2 h3
    have u1 : (append_all l (e :: rest)).1 = (append_all (l.append e).1 rest).1 := rfl
    have u2 : (append_all l (e :: rest)).2
        = (l.append e).2 :: (append_all (l.append e).1 rest).2 := rfl
    rw [u1, u2, h1, h2, h3, e3]
    refine ⟨by simp, by simp only [List.length_cons]; push_cast; ring, ?_⟩
    rw [List.length_cons, List.range_succ_eq_map]
    simp only [List.map_cons, List.map_map, Nat.cast_zero, add_zero, List.cons.injEq, true_and]
    apply List.map_congr_left
    intro k _
    simp only [Function.comp, Nat.cast_succ]
    congr 1
    ring

theorem gc_up_to_inside (l : SequencerLog) (i : Int) (h0 : 0 ≤ i) (h : i.toNat < l.log.length) :
    l.gc_up_to i = { l with log := l.log.drop (i.toNat + 1) } := by
  simp [SequencerLog.gc_up_to, h0, h]

theorem gc_up_to_outside (l : SequencerLog) (i : Int) (h : i < 0 ∨ (l.log.length : Int) ≤ i) :
    l.gc_up_to i = l := by
  unfold SequencerLog.gc_up_to
  rw [if_neg]
  rintro ⟨h0, h1⟩
  rcases h with h | h
  · omega
  · have : (i.toNat : Int) = i := Int.toNat_of_nonneg h0
    omega

/-- C20. SequencerLog size under append and GC, for fewer than 2^31 entries (sizes and
indices are 32-bit `int`s): a log built from the empty log by `n` appends holds the `n`
entries in order, has size `n`, and the appends returned 0, 1, ..., n - 1; `gc_up_to(i)`
with `0 ≤ i < size` leaves exactly the entries after the first `i + 1`, in order, and the
size `size - i - 1`; `gc_up_to` with an index outside that range leaves the log
unchanged; and the run of `tests.cpp` (1000 appends, then `gc_up_to(499)`) prints the
sizes 1000 and 500. -/
theorem C20_log_size_append_gc (es : List Entry) (hn : es.length < 2 ^ 31) :
    (append_all SequencerLog.empty es).1.log = es ∧
      (append_all SequencerLog.empty es).1.size = es.length ∧
      (append_all SequencerLog.empty es).2 = (List.range es.length).map (fun (k : Nat) => (k : Int)) ∧
      (∀ i : Int, 0 ≤ i → i < (append_all SequencerLog.empty es).1.size →
        ((append_all SequencerLog.empty es).1.gc_up_to i).log = es.drop (i.toNat + 1) ∧
        ((append_all SequencerLog.empty es).1.gc_up_to i).size
          = (append_all SequencerLog.empty es).1.size - i - 1) ∧
      (∀ i : Int, (i < 0 ∨ (append_all SequencerLog.empty es).1.size ≤ i) →
        (append_all SequencerLog.empty es).1.gc_up_to i = (append_all SequencerLog.empty es).1) ∧
      tests_main = (1000, 500) := by
  have key : ∀ fs : List Entry, fs.length < 2 ^ 31 →
      (append_all SequencerLog.empty fs).1.log = fs ∧
      (append_all SequencerLog.empty fs).1.size = fs.length ∧
      (append_all SequencerLog.empty fs).2 = (List.range fs.length).map (fun (k : Nat) => (k : Int)) ∧
      (∀ i : Int, 0 ≤ i → i < (append_all SequencerLog.empty fs).1.size →
        ((append_all SequencerLog.empty fs).1.gc_up_to i).log = fs.drop (i.toNat + 1) ∧
        ((append_all SequencerLog.empty fs).1.gc_up_to i).size
          = (append_all SequencerLog.empty fs).1.size - i - 1) ∧
      (∀ i : Int, (i < 0 ∨ (append_all SequencerLog.empty fs).1.size ≤ i) →
        (append_all SequencerLog.empty fs).1.gc_up_to i
          = (append_all SequencerLog.empty fs).1) := by
    intro fs hfs
    obtain ⟨h1, _, h3⟩ := append_all_spec SequencerLog.empty fs
    simp only [SequencerLog.empty, List.nil_append] at h1 h3
    have hcast : ((fs.length : Nat) : Int) < 2 ^ 31 := by exact_mod_cast hfs
    have hsize : (append_all SequencerLog.empty fs).1.size = fs.length := by
      unfold SequencerLog.size
      simp only [SequencerLog.empty, h1]
      exact to_int32_of_small _ (by omega) hcast
    refine ⟨h1, hsize, ?_, ?_, ?_⟩
    · simp only [SequencerLog.empty]
      rw [h3]
      apply List.map_congr_left
      intro k hk
      rw [List.mem_range] at hk
      have e : (-1 : Int) + 1 + (k : Int) = k := by ring
      rw [e]
      exact to_int32_of_small _ (by omega) (by omega)
    · intro i h0 hi
      rw [hsize] at hi ⊢
      have hnat : (i.toNat : Int) = i := Int.toNat_of_nonneg h0
      have hlt : i.toNat < (append_all SequencerLog.empty fs).1.log.length := by
        simp only [SequencerLog.empty, h1]; omega
      rw [gc_up_to_inside _ i h0 hlt]
      simp only [SequencerLog.empty, h1, true_and]
      unfold SequencerLog.size
      simp only [List.length_drop]
      have hle : i.toNat + 1 ≤ fs.length := by omega
      rw [to_int32_of_small _ (by omega) (by omega)]
      push_cast [Nat.cast_sub hle]
      omega
    · intro i hi
      rw [hsize] at hi
      apply gc_up_to_outside
      simp only [SequencerLog.empty, h1]
      exact hi
  obtain ⟨k1, k2, k3, k4, k5⟩ := key es hn
  refine ⟨k1, k2, k3, k4, k5, ?_⟩
  have hlen : tests_entries.length = 1000 := by simp [tests_entries]
  obtain ⟨_, t2, _, t4, _⟩ := key tests_entries (by rw [hlen]; norm_num)
  have t5 := (t4 499 (by norm_num) (by rw [t2, hlen]; norm_num)).2
  rw [t2, hlen] at t5
  simp only [tests_main, Prod.mk.injEq]
  refine ⟨by rw [t2, hlen]; norm_num, ?_⟩
  rw [t5]
  norm_num

theorem C20_log_size_append_gc_witness :
    tests_entries.length < 2 ^ 31 ∧
      (append_all SequencerLog.empty tests_entries).1.log = tests_entries ∧
      (append_all SequencerLog.empty tests_entries).1.size = tests_entries.length ∧
      tests_main = (1000, 500) :=
  have h : tests_entries.length < 2 ^ 31 := by
    have hlen : tests_entries.length = 1000 := by simp [tests_entries]
    rw [hlen]; norm_num
  ⟨h, (C20_log_size_append_gc tests_entries h).1, (C20_log_size_append_gc tests_entries h).2.1,
    (C20_log_size_append_gc tests_entries h).2.2.2.2.2⟩
/-! ## client.cpp: read_range -/

theorem print_loop_enough (results : List (Nat × (Str × Str))) (to_pos : Nat)
    (hto : to_pos + 1 < U64) (fuel p : Nat) (out : List Str) (hp : p ≤ to_pos + 1)
    (hfuel : to_pos + 1 - p < fuel) :
    print_loop results to_pos fuel p out
      = some (out ++ (List.range (to_pos + 1 - p)).map (fun i => position_line results (p + i))) := by
  induction fuel generalizing p out with
  | zero => omega
  | succ f ih =>
    unfold print_loop
    by_cases hle : p ≤ to_pos
    · have hmod : (p + 1) % U64 = p + 1 := Nat.mod_eq_of_lt (by omega)
      rw [if_pos hle, hmod, ih (p + 1) _ (by omega) (by omega)]
      have hsub : to_pos + 1 - p = (to_pos + 1 - (p + 1)) + 1 := by omega
      rw [hsub, List.range_succ_eq_map]
      simp only [List.map_cons, List.map_map, List.append_assoc, List.singleton_append, add_zero,
        Option.some.injEq, List.append_cancel_left_eq, List.cons.injEq, true_and]
      apply List.map_congr_left
      intro i _
      simp only [Function.comp, Nat.succ_eq_add_one]
      congr 1
      omega
    · have hz : to_pos + 1 - p = 0 := by omega
      rw [if_neg hle, hz]
      simp

theorem store_items_cons (m : List (Nat × (Str × Str))) (t : Nat × Str × Str)
    (items : List (Nat × Str × Str)) :
    store_items m (t :: items) = store_items (map_set m t.1 (t.2.1, t.2.2)) items := rfl

theorem store_items_some (items : List (Nat × Str × Str)) (m : List (Nat × (Str × Str)))
    (p : Nat) (v : Str × Str) (h : map_get (store_items m items) p = some v) :
    map_get m p = some v ∨ (p, v.1, v.2) ∈ items := by
  induction items generalizing m with
  | nil => exact Or.inl h
  | cons t rest ih =>
    rw [store_items_cons] at h
    rcases ih _ h with h1 | h1
    · by_cases hp : p = t.1
      · subst hp
        rw [map_get_set_self] at h1
        have hv : (t.2.1, t.2.2) = v := Option.some.inj h1
        right
        rw [← hv]
        exact List.mem_cons_self _ _
      · rw [map_get_set_ne _ _ _ _ hp] at h1
        exact Or.inl h1
    · exact Or.inr (List.mem_cons_of_mem _ h1)

theorem store_items_none (items : List (Nat × Str × Str)) (m : List (Nat × (Str × Str)))
    (p : Nat) (h : map_get (store_items m items) p = none) :
    map_get m p = none ∧ ∀ rid payload, (p, rid, payload) ∉ items := by
  induction items generalizing m with
  | nil => exact ⟨h, fun _ _ hm => by cases hm⟩
  | cons t rest ih =>
    rw [store_items_cons] at h
    obtain ⟨h1, h2⟩ := ih _ h
    have hp : p ≠ t.1 := by
      intro hp
      subst hp
      rw [map_get_set_self] at h1
      cases h1
    rw [map_get_set_ne _ _ _ _ hp] at h1
    refine ⟨h1, fun rid payload hm => ?_⟩
    rcases List.mem_cons.mp hm with he | he
    · exact hp (by rw [← he])
    · exact h2 rid payload he

theorem gather_loop_spec (shards : List (Peer × Option Str)) (results : List (Nat × (Str × Str)))
    (out : List Str)
    (hparse : ∀ sh rep, (sh, some rep) ∈ shards → rep ≠ msg_NOT_READY →
      parse_batchval rep ≠ none) :
    ∃ r, gather_loop shards results out
        = some (r, out ++ (shards.filter (fun x => decide (x.2 = some msg_NOT_READY))).map
            (fun x => not_ready_line x.1)) ∧
      (∀ p v, map_get r p = some v → map_get results p = some v ∨
        ∃ sh rep items, (sh, some rep) ∈ shards ∧ rep ≠ msg_NOT_READY ∧
          parse_batchval rep = some items ∧ (p, v.1, v.2) ∈ items) ∧
      (∀ p, map_get r p = none → map_get results p = none ∧
        ∀ sh rep items, (sh, some rep) ∈ shards → rep ≠ msg_NOT_READY →
          parse_batchval rep = some items → ∀ rid payload, (p, rid, payload) ∉ items) := by
  induction shards generalizing results out with
  | nil =>
    refine ⟨results, by simp [gather_loop], fun p v h => Or.inl h, fun p h => ⟨h, ?_⟩⟩
    intro sh rep items hm
    cases hm
  | cons x rest ih =>
    obtain ⟨sh0, o⟩ := x
    have hrest : ∀ sh rep, (sh, some rep) ∈ rest → rep ≠ msg_NOT_READY →
        parse_batchval rep ≠ none :=
      fun sh rep hm => hparse sh rep (List.mem_cons_of_mem _ hm)
    cases o with
    | none =>
      obtain ⟨r, hr, hs, hn⟩ := ih results out hrest
      refine ⟨r, ?_, ?_, ?_⟩
      · simp only [gather_loop, hr]
        simp
      · intro p v h
        rcases hs p v h with h1 | ⟨sh, rep, items, hm, h2⟩
        · exact Or.inl h1
        · exact Or.inr ⟨sh, rep, items, List.mem_cons_of_mem _ hm, h2⟩
      · intro p h
        obtain ⟨h1, h2⟩ := hn p h
        refine ⟨h1, fun sh rep items hm => ?_⟩
        rcases List.mem_cons.mp hm with he | he
        · cases he
        · exact h2 sh rep items he
    | some rep0 =>
      by_cases hnr : rep0 = msg_NOT_READY
      · obtain ⟨r, hr, hs, hn⟩ := ih results (out ++ [not_ready_line sh0]) hrest
        refine ⟨r, ?_, ?_, ?_⟩
        · simp only [gather_loop, if_pos hnr, hr]
          simp [hnr]
        · intro p v h
          rcases hs p v h with h1 | ⟨sh, rep, items, hm, h2⟩
          · exact Or.inl h1
          · exact Or.inr ⟨sh, rep, items, List.mem_cons_of_mem _ hm, h2⟩
        · intro p h
          obtain ⟨h1, h2⟩ := hn p h
          refine ⟨h1, fun sh rep items hm hne => ?_⟩
          rcases List.mem_cons.mp hm with he | he
          · cases he
            exact absurd hnr hne
          · exact h2 sh rep items he hne
      · have hsome := hparse sh0 rep0 (List.mem_cons_self _ _) hnr
        obtain ⟨items0, hitems⟩ := Option.ne_none_iff_exists'.mp hsome
        obtain ⟨r, hr, hs, hn⟩ := ih (store_items results items0) out hrest
        refine ⟨r, ?_, ?_, ?_⟩
        · simp only [gather_loop, if_neg hnr, hitems, hr]
          simp [hnr]
        · intro p v h
          rcases hs p v h with h1 | ⟨sh, rep, items, hm, h2⟩
          · rcases store_items_some _ _ _ _ h1 with h3 | h3
            · exact Or.inl h3
            · exact Or.inr ⟨sh0, rep0, items0, List.mem_cons_self _ _, hnr, hitems, h3⟩
          · exact Or.inr ⟨sh, rep, items, List.mem_cons_of_mem _ hm, h2⟩
        · intro p h
          obtain ⟨h1, h2⟩ := hn p h
          obtain ⟨h3, h4⟩ := store_items_none _ _ _ h1
          refine ⟨h3, fun sh rep items hm hne hp => ?_⟩
          rcases List.mem_cons.mp hm with he | he
          · cases he
            rw [hitems] at hp
            cases hp
            exact h4
          · exact h2 sh rep items he hne hp

/-- C19 (amended). Client read assembly, for `from ≤ to < 2^64 - 1` and shard replies
none of which makes the parser throw: `read_range` first prints one diagnostic line per
shard that answered NOT_READY, in shard order, and then exactly `to - from + 1` position
lines, the i-th being the line of position `from + i` in the assembled map; a position is
in the map with `(rid, payload)` only if the BATCHVAL of some answering shard contained
that triple, and it is absent (its line says MISSING) only if no parsed BATCHVAL contained
the position; a shard that answered NOT_READY, or did not answer, contributes no entry. -/
theorem C19_client_read_assembly (fuel : Nat) (shards : List (Peer × Option Str))
    (from_pos to_pos : Nat) (hle : from_pos ≤ to_pos) (hto : to_pos + 1 < U64)
    (hfuel : to_pos + 1 - from_pos < fuel)
    (hparse : ∀ sh rep, (sh, some rep) ∈ shards → rep ≠ msg_NOT_READY →
      parse_batchval rep ≠ none) :
    ∃ results lines,
      read_range fuel shards from_pos to_pos
        = .done ((shards.filter (fun x => decide (x.2 = some msg_NOT_READY))).map
            (fun x => not_ready_line x.1) ++ lines) none ∧
      lines.length = to_pos - from_pos + 1 ∧
      (∀ i, i < to_pos - from_pos + 1 →
        lines.get? i = some (position_line results (from_pos + i))) ∧
      (∀ p rid payload, map_get results p = some (rid, payload) →
        position_line results p
            = to_string p ++ [' ', '|', ' '] ++ rid ++ [' ', '|', ' '] ++ payload ∧
          ∃ sh rep items, (sh, some rep) ∈ shards ∧ rep ≠ msg_NOT_READY ∧
            parse_batchval rep = some items ∧ (p, rid, payload) ∈ items) ∧
      (∀ p, map_get results p = none →
        position_line results p = to_string p ++ [' ', '|', ' ', 'M', 'I', 'S', 'S', 'I', 'N', 'G'] ∧
          ∀ sh rep items, (sh, some rep) ∈ shards → rep ≠ msg_NOT_READY →
            parse_batchval rep = some items → ∀ rid payload, (p, rid, payload) ∉ items) ∧
      (∀ p, (∃ sh rep items rid payload, (sh, some rep) ∈ shards ∧ rep ≠ msg_NOT_READY ∧
          parse_batchval rep = some items ∧ (p, rid, payload) ∈ items) →
        map_get results p ≠ none) := by
  obtain ⟨r, hr, hs, hn⟩ := gather_loop_spec shards [] [] hparse
  have hlen : to_pos + 1 - from_pos = to_pos - from_pos + 1 := by omega
  refine ⟨r, (List.range (to_pos - from_pos + 1)).map (fun i => position_line r (from_pos + i)),
    ?_, by simp, ?_, ?_, ?_, ?_⟩
  · unfold read_range
    rw [hr]
    simp only
    rw [print_loop_enough r to_pos hto fuel from_pos _ (by omega) hfuel, hlen]
    simp
  · intro i hi
    rw [List.get?_eq_getElem?, List.getElem?_map, List.getElem?_range hi]
    rfl
  · intro p rid payload h
    refine ⟨by simp [position_line, h], ?_⟩
    rcases hs p (rid, payload) h with h1 | h1
    · simp [map_get] at h1
    · exact h1
  · intro p h
    exact ⟨by simp [position_line, h], (hn p h).2⟩
  · rintro p ⟨sh, rep, items, rid, payload, hm, hne, hp, hin⟩ hnone
    exact (hn p hnone).2 sh rep items hm hne hp rid payload hin

theorem C19_client_read_assembly_witness :
    ∃ results lines,
      read_range 5 ex_replies 1 3
        = .done ((ex_replies.filter (fun x => decide (x.2 = some msg_NOT_READY))).map
            (fun x => not_ready_line x.1) ++ lines) none ∧
      lines.length = 3 - 1 + 1 ∧
      (∀ i, i < 3 - 1 + 1 → lines.get? i = some (position_line results (1 + i))) :=
  have h := C19_client_read_assembly 5 ex_replies 1 3 (by decide) (by decide) (by decide)
    (by
      intro sh rep hm hne
      simp only [ex_replies, List.mem_cons, Prod.mk.injEq, List.mem_singleton, List.not_mem_nil,
        or_false] at hm
      rcases hm with ⟨_, h1⟩ | ⟨_, h1⟩ | ⟨_, h1⟩
      · exact absurd (Option.some.inj h1) hne
      · cases h1
      · rw [Option.some.inj h1]
        decide)
  match h with
  | ⟨results, lines, h1, h2, h3, _⟩ => ⟨results, lines, h1, h2, h3⟩

/-- C19, counterexample to the claim as written: with one shard that answers NOT_READY,
`read_range(1, 1)` prints two lines, not `to - from + 1 = 1`, and the first of them is not
about a position. -/
theorem C19_not_ready_line_counterexample :
    read_range 3 ex_not_ready 1 1
        = .done [not_ready_line ⟨['s', '0'], 7000⟩, position_line [] 1] none ∧
      not_ready_line ⟨['s', '0'], 7000⟩ = "Shard s0:7000 NOT_READY for range".toList ∧
      position_line [] 1 = "1 | MISSING".toList ∧
      [not_ready_line ⟨['s', '0'], 7000⟩, position_line [] 1].length ≠ 1 - 1 + 1 := by
  decide

theorem read_range_bad_reply_crashes :
    read_range 3 [(⟨['s', '0'], 7000⟩, some "BATCHVAL|x".toList)] 1 1 = .crash := by
  decide

/-! ## Durable prefix -/

theorem contiguous_advance_durable_gt (s : SeqState)
    (h : ∀ d ∈ s.durable_positions, s.last_ordered_gp < d) :
    ∀ d ∈ (contiguous_advance s).durable_positions,
      (contiguous_advance s).last_ordered_gp < d := by
  intro d hd
  unfold contiguous_advance at hd ⊢
  simp only at hd ⊢
  split at hd
  · rename_i hgt
    rw [if_pos hgt]
    simp only [List.mem_filter, Bool.not_eq_true', decide_eq_false_iff_not, not_le] at hd
    exact hd.2
  · rename_i hgt
    rw [if_neg hgt]
    exact h d hd

theorem ordering_iteration_durable_inv {W : Type} (net : Net W) (cfg : SeqConfig)
    (s : SeqState) (w : W) (r : IterResult W) (hist : List (Nat × Nat × Bool))
    (hinv : DurableInv cfg s hist) (hw : no_wrap s)
    (h : ordering_iteration net cfg s w = some r) :
    DurableInv cfg r.st (hist ++ r.puts) := by
  by_cases hne : s.pending_order = []
  · rw [ordering_iteration_empty net cfg s w hne] at h
    simp only [Option.some.injEq] at h
    subst h
    simpa using hinv
  · have hinv1 := ordering_iteration_inv net cfg s w r hinv.1 hw h
    obtain ⟨⟨i1, i2, i3⟩, j1, j2, j3⟩ := hinv
    rw [ordering_iteration_nonempty net cfg s w hne] at h
    simp only [Option.map_eq_some'] at h
    obtain ⟨r0, hr0, hfin⟩ := h
    obtain ⟨sent, h1, h2, h3, _, _, h6, h7, _, h9, _⟩ :=
      dispatch_loop_spec net cfg _ _ w [] r0 hr0
    obtain ⟨f1, f2⟩ := finish_iteration_spec net cfg r0
    simp only [List.nil_append] at h1
    unfold no_wrap at hw
    rw [assign_gps_fst_map s.pending_order s.next_gp hw] at h2
    simp only at h7 h9
    rw [assign_gps_eq s.pending_order s.next_gp hw] at h9
    simp only at h9
    subst hfin
    have hlast : (finish_iteration net cfg r0).st.last_ordered_gp
        = (contiguous_advance r0.st).last_ordered_gp := by rw [f2]
    have hdur : (finish_iteration net cfg r0).st.durable_positions
        = (contiguous_advance r0.st).durable_positions := by rw [f2]
    have hnext : (finish_iteration net cfg r0).st.next_gp = s.next_gp + s.pending_order.length := by
      rw [f2]; simp only; rw [(contiguous_advance_frame r0.st).2.2.2.1, h9]
    have hsent : ∀ q ∈ sent, s.next_gp ≤ q.1 ∧ q.1 < s.next_gp + s.pending_order.length := by
      intro q hq
      have hm : q.1 ∈ sent.map (fun q => q.1) := List.mem_map.2 ⟨q, hq, rfl⟩
      rw [h2, List.mem_range'_1] at hm
      exact hm
    have hacked : ∀ d, d ∈ r0.st.durable_positions →
        s.last_ordered_gp < d ∧ d < s.next_gp + s.pending_order.length ∧
          (d, d % cfg.SHARDS.length, true) ∈ hist ++ sent := by
      intro d hd
      rcases (h6 d).1 hd with e | ⟨k, e⟩
      · have := i3 d e
        exact ⟨(j3 d e).1, by omega, List.mem_append_left _ (j3 d e).2⟩
      · have hb := hsent _ e
        have hk := h3 _ e
        simp only at hb hk
        rw [hk] at e
        exact ⟨by omega, hb.2, List.mem_append_right _ e⟩
    have hc := C7_contiguous_advance r0.st (by rw [h7]; omega)
      (fun d hd => by have := (hacked d hd).2.1; omega)
      (Or.inr ⟨s.next_gp + s.pending_order.length, by rw [h7]; omega, hw,
        fun hd => by have := (hacked _ hd).2.1; omega⟩)
    obtain ⟨c1, c2, _⟩ := hc
    rw [h7] at c1 c2
    refine ⟨hinv1, ?_, ?_, ?_⟩
    · intro q hq
      rw [hnext]
      rw [f1, h1] at hq
      rcases List.mem_append.1 hq with e | e
      · obtain ⟨a, b, c⟩ := j1 q e
        exact ⟨a, by omega, c⟩
      · have hb := hsent q e
        exact ⟨by omega, hb.2, h3 q e⟩
    · intro g hg0 hgl
      rw [f1, h1]
      rw [hlast] at hgl
      by_cases hold : g ≤ s.last_ordered_gp
      · exact List.mem_append_left _ (j2 g hg0 hold)
      · exact (hacked g (c2 g (by omega) hgl)).2.2
    · intro d hd
      rw [hdur] at hd
      rw [hlast, f1, h1]
      refine ⟨contiguous_advance_durable_gt r0.st
        (fun x hx => by rw [h7]; exact (hacked x hx).1) d hd, ?_⟩
      exact (hacked d (contiguous_advance_mem r0.st d hd)).2.2

theorem LeaderTrace_durable_inv {W : Type} (net : Net W) (cfg : SeqConfig) (s : SeqState)
    (hist : List (Nat × Nat × Bool)) (h : LeaderTrace net cfg s hist) :
    DurableInv cfg s hist := by
  induction h with
  | init =>
    refine ⟨by decide, ?_, ?_, ?_⟩
    · intro q hq; cases hq
    · intro g hg0 hgl
      have : ex_leader.last_ordered_gp = 0 := rfl
      omega
    · intro d hd; cases hd
  | @append t t1 hist fd_in reply _ ha hstep ih =>
    obtain ⟨e1, e2, e3, e4⟩ := handle_connection_append_frame t t1 fd_in reply ha hstep
    obtain ⟨⟨i1, i2, i3⟩, j1, j2, j3⟩ := ih
    refine ⟨⟨by rw [e3, e4]; exact i1, by rw [e1, e3]; exact i2, ?_⟩, ?_, ?_, ?_⟩
    · intro d hd; rw [e2] at hd; rw [e1]; exact i3 d hd
    · intro q hq; rw [e1]; exact j1 q hq
    · intro g hg0 hgl; rw [e3] at hgl; exact j2 g hg0 hgl
    · intro d hd; rw [e2] at hd; rw [e3]; exact j3 d hd
  | @order t hist w r _ _ hw hiter ih =>
    exact ordering_iteration_durable_inv net cfg t w r hist ih hw hiter

/-- C21. Durable prefix: in every state reachable from the initial leader state by APPEND
handlings and complete ordering iterations, whatever the outcomes of the PUTs (and while
`next_gp` does not wrap), every GP `g` with `0 < g ≤ last_ordered_gp` is a GP this leader
assigned (it is below `next_gp`) and sent in a PUT to shard `g mod |SHARDS|` that was
answered PUT_OK, so there is no gap below `last_ordered_gp`; every element of
`durable_positions` is greater than `last_ordered_gp`, less than `next_gp`, and was
acknowledged in the same way; and every PUT sent was for an assigned GP and went to the
shard `pos mod |SHARDS|`. -/
theorem C21_no_gap_below_last_ordered {W : Type} (net : Net W) (cfg : SeqConfig) (s : SeqState)
    (hist : List (Nat × Nat × Bool)) (h : LeaderTrace net cfg s hist) :
    (∀ g, 0 < g → g ≤ s.last_ordered_gp →
        g < s.next_gp ∧ (g, g % cfg.SHARDS.length, true) ∈ hist) ∧
      (∀ d ∈ s.durable_positions,
        s.last_ordered_gp < d ∧ d < s.next_gp ∧ (d, d % cfg.SHARDS.length, true) ∈ hist) ∧
      (∀ q ∈ hist, 0 < q.1 ∧ q.1 < s.next_gp ∧ q.2.1 = q.1 % cfg.SHARDS.length) := by
  obtain ⟨⟨_, i2, i3⟩, j1, j2, j3⟩ := LeaderTrace_durable_inv net cfg s hist h
  refine ⟨?_, ?_, j1⟩
  · intro g hg0 hgl
    exact ⟨by omega, j2 g hg0 hgl⟩
  · intro d hd
    exact ⟨(j3 d hd).1, i3 d hd, (j3 d hd).2⟩

theorem C21_no_gap_below_last_ordered_witness :
    LeaderTrace ok_net ex_cfg ex_one_done [(1, 1, true)] ∧
      ex_one_done.last_ordered_gp = 1 ∧
      (∀ g, 0 < g → g ≤ ex_one_done.last_ordered_gp →
        g < ex_one_done.next_gp ∧ (g, g % ex_cfg.SHARDS.length, true) ∈ [(1, 1, true)]) :=
  have h1 : LeaderTrace ok_net ex_cfg ex_leader_one [] :=
    LeaderTrace.append LeaderTrace.init
      ⟨join_msg [tag_APPEND, ['r', '1'], ['7'], ['h', 'i']], by decide, by decide⟩
      (by decide : handle_connection ex_leader ex_append = .done ex_leader_one (some msg_ACK))
  have h2 : LeaderTrace ok_net ex_cfg ex_one_done [(1, 1, true)] :=
    LeaderTrace.order h1 rfl (by decide)
      (by decide : ordering_iteration ok_net ex_cfg ex_leader_one ()
        = some ⟨ex_one_done, (), [(1, 1, true)]⟩)
  ⟨h2, rfl, (C21_no_gap_below_last_ordered ok_net ex_cfg ex_one_done [(1, 1, true)] h2).1⟩

/-! ## READRANGE catch-up -/

theorem hbq_loop_closed (hbq : List Str) (best : Nat) :
    hbq_loop hbq best
      = if (consulted hbq).any hb_reply_bad then none
        else some ((stables_seen hbq).foldl max best) := by
  induction hbq generalizing best with
  | nil => rfl
  | cons rep rest ih =>
    unfold hbq_loop
    by_cases he : rep = []
    · subst he
      have hf : hb_reply_fields [] = none := by decide
      have hb : hb_reply_bad [] = false := by decide
      simp only [if_true, ih, consulted, stables_seen, hf, List.any_cons, hb, Bool.false_or,
        List.filterMap_cons, Option.map_none']
    · rw [if_neg he]
      by_cases hs : 5 ≤ (split_msg rep).length ∧ field (split_msg rep) 0 [] = tag_HB_REPLY
      · have hshape : hb_reply_shape rep = true := by simp [hb_reply_shape, he, hs]
        simp only [hs, and_self, if_true]
        cases h1 : stoi (field (split_msg rep) 2 []) with
        | none =>
          have hf : hb_reply_fields rep = none := by simp [hb_reply_fields, hshape, h1]
          have hb : hb_reply_bad rep = true := by simp [hb_reply_bad, hshape, hf]
          simp [consulted, hf, hb]
        | some is_lead =>
          cases h2 : stoull (field (split_msg rep) 4 []) with
          | none =>
            have hf : hb_reply_fields rep = none := by simp [hb_reply_fields, hshape, h1, h2]
            have hb : hb_reply_bad rep = true := by simp [hb_reply_bad, hshape, hf]
            simp [consulted, hf, hb]
          | some leader_stable =>
            have hf : hb_reply_fields rep = some (is_lead, leader_stable) := by
              simp [hb_reply_fields, hshape, h1, h2]
            have hb : hb_reply_bad rep = false := by simp [hb_reply_bad, hf]
            by_cases hl : is_lead = 0
            · simp only [hl, ne_eq, not_true_eq_false, if_false, ih, consulted, stables_seen, hf,
                List.any_cons, hb, Bool.false_or, List.filterMap_cons, Option.map_some',
                List.foldl_cons]
            · simp [hl, consulted, stables_seen, hf, hb]
      · have hshape : hb_reply_shape rep = false := by simp [hb_reply_shape, hs]
        have hf : hb_reply_fields rep = none := by simp [hb_reply_fields, hshape]
        have hb : hb_reply_bad rep = false := by simp [hb_reply_bad, hshape]
        simp only [hs, if_false, ih, consulted, stables_seen, hf, List.any_cons, hb,
          Bool.false_or, List.filterMap_cons, Option.map_none']

theorem foldl_max_ge (l : List Nat) (b : Nat) : b ≤ l.foldl max b := by
  induction l generalizing b with
  | nil => exact le_refl _
  | cons x rest ih => exact le_trans (le_max_left b x) (ih (max b x))

/-- C22. READRANGE catch-up, in closed form.  When the shard's `stable_gp` `v` is at least
`to`, the replies of the sequencers play no part and the state is unchanged.  When `v` is
below `to`, the shard consults the replies in list order up to and including the first
HB_REPLY that reports a leader, skipping empty replies and replies that are not an
HB_REPLY with five fields, and ends with `stable_gp` equal to the maximum of `v` and the
stable fields of the replies consulted; but when a consulted HB_REPLY has an `is_leader`
or a stable field that is not a number, the handler throws instead of skipping the reply
(as for the reply HB_REPLY|1|x|0|7, on which READRANGE ends without an answer). -/
theorem C22_readrange_catch_up (hbq : List Str) (st : ShardState) (top : Nat) :
    catch_up hbq st top
        = (if st.stable_gp < top then
            (if (consulted hbq).any hb_reply_bad then none
             else some { st with stable_gp := (stables_seen hbq).foldl max st.stable_gp })
          else some st) ∧
      st.stable_gp ≤ (stables_seen hbq).foldl max st.stable_gp ∧
      (∀ v ∈ stables_seen hbq, v ≤ (stables_seen hbq).foldl max st.stable_gp) ∧
      ((stables_seen hbq).foldl max st.stable_gp = st.stable_gp ∨
        (stables_seen hbq).foldl max st.stable_gp ∈ stables_seen hbq) ∧
      catch_up ex_hbq_bad ex_shard_low 5 = none ∧
      handle_conn 10 ex_hbq_bad ex_shard_low
          (send_line (join_msg [tag_READRANGE, ['1'], ['5']])) = .crash := by
  refine ⟨?_, foldl_max_ge _ _, ?_, ?_, by decide, by decide⟩
  · unfold catch_up
    by_cases hlt : st.stable_gp < top
    · rw [if_pos hlt, if_pos hlt, hbq_loop_closed]
      by_cases hbad : (consulted hbq).any hb_reply_bad = true
      · simp [hbad]
      · simp only [hbad, Bool.false_eq_true, if_false]
        have hge := foldl_max_ge (stables_seen hbq) st.stable_gp
        by_cases hgt : (stables_seen hbq).foldl max st.stable_gp > st.stable_gp
        · rw [if_pos hgt]
        · rw [if_neg hgt]
          have heq : (stables_seen hbq).foldl max st.stable_gp = st.stable_gp := by omega
          rw [heq]
    · rw [if_neg hlt, if_neg hlt]
  · generalize stables_seen hbq = l
    generalize st.stable_gp = b
    induction l generalizing b with
    | nil => intro v hv; cases hv
    | cons x rest ih =>
      intro v hv
      rw [List.foldl_cons]
      rcases List.mem_cons.1 hv with rfl | hv
      · exact le_trans (le_max_right b v) (foldl_max_ge rest _)
      · exact ih _ v hv
  · generalize stables_seen hbq = l
    generalize st.stable_gp = b
    induction l generalizing b with
    | nil => exact Or.inl rfl
    | cons x rest ih =>
      rw [List.foldl_cons]
      rcases ih (max b x) with h | h
      · rw [h]
        rcases le_total b x with hle | hle
        · right; rw [max_eq_right hle]; exact List.mem_cons_self _ _
        · left; exact max_eq_left hle
      · exact Or.inr (List.mem_cons_of_mem _ h)

theorem C22_readrange_catch_up_witness :
    consulted ex_hbq_replies = ex_hbq_replies.take 4 ∧
      stables_seen ex_hbq_replies = [4, 7] ∧
      catch_up ex_hbq_replies ex_shard_low 5 = some { ex_shard_low with stable_gp := 7 } ∧
      catch_up ex_hbq_replies ex_shard_low 2 = some ex_shard_low ∧
      catch_up ex_hbq_bad ex_shard_low 5 = none :=
  ⟨by decide, by decide,
    (C22_readrange_catch_up ex_hbq_replies ex_shard_low 5).1.trans (by decide),
    (C22_readrange_catch_up ex_hbq_replies ex_shard_low 2).1.trans (by decide),
    (C22_readrange_catch_up [] ex_shard_low 0).2.2.2.2.1⟩

/-! ## BATCHVAL: decode undoes encode -/

theorem stoi_to_string (n : Nat) (h : n < I32) : stoi (to_string n) = some (n : Int) := by
  obtain ⟨d, tail, hd, e⟩ := to_digits_head n n []
  have hskip : skip_sign (to_string n) = (false, to_string n) := by
    unfold skip_sign to_string
    rw [e]
    have h1 := digitChar_not_space d hd
    have h2 := digitChar_ne_minus d hd
    have h3 := digitChar_ne_plus d hd
    simp only [List.dropWhile, h1]
    split
    · rename_i heq; simp at heq; exact absurd heq.1 h2
    · rename_i heq; simp at heq; exact absurd heq.1 h3
    · rfl
  have hread : read_digits (to_string n) 0 false = (n, true) := by
    unfold to_string
    rw [read_to_digits (n + 1) n [] 0 false (by omega)]
    simp [read_digits]
  unfold stoi
  simp only [hskip, hread]
  simp [Nat.not_le.2 h]

theorem join_msg_tail (f : Str) (fs : List Str) :
    join_msg (f :: fs) = f ++ (fs.map (fun g => '|' :: g)).flatten := by
  induction fs generalizing f with
  | nil => simp [join_msg]
  | cons g rest ih =>
    show f ++ '|' :: join_msg (g :: rest) = _
    rw [ih g]
    simp

theorem encode_triples_fields (l : List (Nat × Str × Str)) :
    (l.map encode_triple).flatten = ((triple_fields l).map (fun g => '|' :: g)).flatten := by
  induction l with
  | nil => rfl
  | cons t rest ih =>
    simp only [List.map_cons, List.flatten_cons, triple_fields, ih, encode_triple]
    simp

theorem encode_batchval_join (l : List (Nat × Str × Str)) :
    encode_batchval l = join_msg (tag_BATCHVAL :: to_string l.length :: triple_fields l) := by
  rw [join_msg_tail]
  unfold encode_batchval
  rw [encode_triples_fields]
  simp

theorem triple_fields_no_pipe (l : List (Nat × Str × Str))
    (hpipe : ∀ t ∈ l, '|' ∉ t.2.1 ∧ '|' ∉ t.2.2) : ∀ g ∈ triple_fields l, '|' ∉ g := by
  induction l with
  | nil => intro g hg; cases hg
  | cons t rest ih =>
    intro g hg
    simp only [triple_fields, List.mem_cons] at hg
    rcases hg with rfl | rfl | rfl | hg
    · exact to_string_no_pipe _
    · exact (hpipe t (List.mem_cons_self _ _)).1
    · exact (hpipe t (List.mem_cons_self _ _)).2
    · exact ih (fun u hu => hpipe u (List.mem_cons_of_mem _ hu)) g hg

theorem parse_loop_fields (l : List (Nat × Str × Str)) (hpos : ∀ t ∈ l, t.1 < U64) :
    parse_loop l.length (triple_fields l) = some l := by
  induction l with
  | nil => rfl
  | cons t rest ih =>
    simp only [List.length_cons, triple_fields, parse_loop,
      stoull_to_string t.1 (hpos t (List.mem_cons_self _ _)),
      ih (fun u hu => hpos u (List.mem_cons_of_mem _ hu))]

/-- C23. BATCHVAL decode undoes encode, for a list `L` of fewer than 2^31 triples with
64-bit positions in which no rid or payload contains `|`: the shard's encoding of `L` is
the text BATCHVAL|n with n = |L| followed by |pos|rid|payload for each triple in order,
and `parse_batchval` applied to it returns exactly `L`. -/
theorem C23_batchval_decode_encode (l : List (Nat × Str × Str)) (hlen : l.length < I32)
    (hpos : ∀ t ∈ l, t.1 < U64) (hpipe : ∀ t ∈ l, '|' ∉ t.2.1 ∧ '|' ∉ t.2.2) :
    encode_batchval l = join_msg (tag_BATCHVAL :: to_string l.length :: triple_fields l) ∧
      parse_batchval (encode_batchval l) = some l := by
  refine ⟨encode_batchval_join l, ?_⟩
  have hsplit : split_msg (encode_batchval l)
      = tag_BATCHVAL :: to_string l.length :: triple_fields l := by
    rw [encode_batchval_join]
    apply split_join
    intro g hg
    rcases List.mem_cons.1 hg with rfl | hg
    · decide
    · rcases List.mem_cons.1 hg with rfl | hg
      · exact to_string_no_pipe _
      · exact triple_fields_no_pipe l hpipe g hg
  unfold parse_batchval
  simp only [hsplit, field, List.get?, List.length_cons, List.drop_succ_cons, List.drop_zero,
    stoi_to_string l.length hlen, Int.toNat_ofNat, parse_loop_fields l hpos]
  simp

theorem C23_batchval_decode_encode_witness :
    ex_triples.length < I32 ∧ (∀ t ∈ ex_triples, t.1 < U64) ∧
      (∀ t ∈ ex_triples, '|' ∉ t.2.1 ∧ '|' ∉ t.2.2) ∧
      encode_batchval ex_triples = "BATCHVAL|2|1|r1|a|2|r2|".toList ∧
      parse_batchval (encode_batchval ex_triples) = some ex_triples ∧
      encode_batchval [] = "BATCHVAL|0".toList ∧
      parse_batchval "BATCHVAL|0".toList = some [] :=
  ⟨by decide, by decide, by decide, by decide,
    (C23_batchval_decode_encode ex_triples (by decide) (by decide) (by decide)).2,
    by decide, by decide⟩

/-! ## Range loops at the top of the 64-bit range -/

theorem print_loop_top_max (results : List (Nat × (Str × Str))) (fuel p : Nat)
    (out : List Str) (hp : p < U64) : print_loop results (U64 - 1) fuel p out = none := by
  induction fuel generalizing p out with
  | zero => rfl
  | succ f ih =>
    have hle : p ≤ U64 - 1 := by omega
    have hlt : (p + 1) % U64 < U64 := Nat.mod_lt _ (by decide)
    unfold print_loop
    rw [if_pos hle]
    exact ih _ _ hlt

/-- C24. Range loops and the top of the 64-bit range.  For `to < 2^64 - 1` both loops end
once the fuel exceeds `to + 1 - from`: the shard's loop returns the stored entries of
`from, ..., to` in order and the client's loop prints one line per position, in order.
For `to = 2^64 - 1` neither loop ends, whatever the fuel: `p <= to` holds for every
`uint64_t` value and `++p` wraps to 0, so a READRANGE that passes the stable gate never
gets its reply and `read_range` never returns. -/
theorem C24_range_loop_top_of_range (fuel : Nat) (hbq : List Str) (st : ShardState)
    (fd_in : Str) (shards : List (Peer × Option Str)) (from_pos : Nat)
    (hfrom : from_pos < U64) (hgate : U64 - 1 ≤ st.stable_gp)
    (hrecv : recv_line fd_in
      = some (join_msg [tag_READRANGE, to_string from_pos, to_string (U64 - 1)]))
    (hparse : gather_loop shards [] [] ≠ none) :
    handle_conn fuel hbq st fd_in = .timeout ∧
      read_range fuel shards from_pos (U64 - 1) = .timeout ∧
      (∀ to_pos acc, to_pos + 1 < U64 → to_pos + 1 - from_pos < fuel →
        collect_loop st.store to_pos fuel from_pos acc
          = some (acc ++ range_entries st.store from_pos to_pos)) ∧
      (∀ results to_pos out, from_pos ≤ to_pos + 1 → to_pos + 1 < U64 →
        to_pos + 1 - from_pos < fuel →
        print_loop results to_pos fuel from_pos out
          = some (out ++ (List.range (to_pos + 1 - from_pos)).map
              (fun i => position_line results (from_pos + i)))) := by
  refine ⟨?_, ?_, ?_, ?_⟩
  · rw [handle_conn_readrange fuel hbq st fd_in from_pos (U64 - 1) hfrom (by decide) hrecv,
      catch_up_ready hbq st (U64 - 1) hgate]
    simp only
    rw [if_neg (by omega), collect_loop_top_max st.store fuel from_pos [] hfrom]
  · unfold read_range
    cases hg : gather_loop shards [] [] with
    | none => exact absurd hg hparse
    | some r =>
      obtain ⟨results, out⟩ := r
      simp only
      rw [print_loop_top_max results fuel from_pos out hfrom]
  · intro to_pos acc hto hfuel
    exact collect_loop_enough st.store to_pos hto fuel from_pos acc hfuel
  · intro results to_pos out hle hto hfuel
    exact print_loop_enough results to_pos hto fuel from_pos out hle hfuel

theorem C24_range_loop_top_of_range_witness :
    (1 : Nat) < U64 ∧ U64 - 1 ≤ ex_shard_max.stable_gp ∧
      recv_line ex_readrange_max
        = some (join_msg [tag_READRANGE, to_string 1, to_string (U64 - 1)]) ∧
      gather_loop ex_replies [] [] ≠ none ∧
      handle_conn 1000 [] ex_shard_max ex_readrange_max = .timeout ∧
      read_range 1000 ex_replies 1 (U64 - 1) = .timeout :=
  have hrecv : recv_line ex_readrange_max
      = some (join_msg [tag_READRANGE, to_string 1, to_string (U64 - 1)]) :=
    recv_send_line _ (join_no_newline _ (by
      intro g hg
      simp only [List.mem_cons, List.mem_singleton, List.not_mem_nil, or_false] at hg
      rcases hg with rfl | rfl | rfl
      · decide
      · exact to_string_no_newline _
      · exact to_string_no_newline _))
  have h := C24_range_loop_top_of_range 1000 [] ex_shard_max ex_readrange_max ex_replies 1
    (by decide) (by decide) hrecv (by decide)
  ⟨by decide, by decide, hrecv, by decide, h.1, h.2.1⟩

/-! ## SequencerLog: the index returned by append -/

theorem LogReach_length {l : SequencerLog} (h : LogReach l) :
    (l.log.length : Int) ≤ l.last_local_index + 1 := by
  induction h with
  | empty => decide
  | @append l e _ ih =>
    show (((l.log ++ [e]).length : Nat) : Int) ≤ l.last_local_index + 1 + 1
    rw [List.length_append]
    simp only [List.length_singleton]
    push_cast
    omega
  | @gc l index _ ih =>
    unfold SequencerLog.gc_up_to
    split
    · show (((l.log.drop (index.toNat + 1)).length : Nat) : Int) ≤ l.last_local_index + 1
      rw [List.length_drop]
      omega
    · exact ih

/-- C25. The index returned by `append`, in a log reachable by `append` and `gc_up_to`
calls with fewer than 2^31 appends so far: `append(e)` returns `last_local_index + 1`,
the number of appends made before it, while the vector holds at most that many entries;
`get` of the returned index reads `e` exactly when no entry has ever been removed, and
once a `gc_up_to` has removed a prefix the returned index is not below `size()`: `get`
then reads outside the vector. -/
theorem C25_append_index_after_gc (l : SequencerLog) (e : Entry) (hr : LogReach l)
    (hb : l.last_local_index + 1 < 2 ^ 31) :
    (l.append e).2 = l.last_local_index + 1 ∧
      (l.log.length : Int) ≤ l.last_local_index + 1 ∧
      ((l.append e).1.get (l.append e).2 = some e
        ↔ (l.log.length : Int) = l.last_local_index + 1) ∧
      ((l.log.length : Int) < l.last_local_index + 1 →
        (l.append e).1.get (l.append e).2 = none ∧
          (l.append e).1.size ≤ (l.append e).2) := by
  have hlen := LogReach_length hr
  have h0 : (0 : Int) ≤ l.last_local_index + 1 := by omega
  have hret : (l.append e).2 = l.last_local_index + 1 := to_int32_of_small _ h0 hb
  have hlog : (l.append e).1.log = l.log ++ [e] := rfl
  have hnat : ((l.last_local_index + 1).toNat : Int) = l.last_local_index + 1 :=
    Int.toNat_of_nonneg h0
  have hget : (l.append e).1.get (l.append e).2
      = (l.log ++ [e]).get? (l.last_local_index + 1).toNat := by
    rw [hret]
    unfold SequencerLog.get
    rw [if_pos h0, hlog]
  refine ⟨hret, hlen, ?_, ?_⟩
  · rw [hget]
    constructor
    · intro h
      by_contra hne
      have hlt : (l.log ++ [e]).length ≤ (l.last_local_index + 1).toNat := by
        rw [List.length_append, List.length_singleton]
        omega
      rw [List.get?_eq_none.2 hlt] at h
      cases h
    · intro h
      have hidx : (l.last_local_index + 1).toNat = l.log.length := by omega
      rw [hidx]
      simp
  · intro hlt
    have hidx : (l.log ++ [e]).length ≤ (l.last_local_index + 1).toNat := by
      rw [List.length_append, List.length_singleton]
      omega
    refine ⟨by rw [hget]; exact List.get?_eq_none.2 hidx, ?_⟩
    rw [hret]
    unfold SequencerLog.size
    rw [hlog]
    rw [to_int32_of_small _ (by omega) (by
      rw [List.length_append, List.length_singleton] at hidx ⊢
      push_cast
      omega)]
    rw [List.length_append, List.length_singleton]
    push_cast
    omega

theorem C25_append_index_after_gc_witness :
    LogReach ex_log_gc ∧ ex_log_gc.last_local_index + 1 < 2 ^ 31 ∧
      ex_log_gc.log = [] ∧
      (ex_log_gc.append ex_entry_b).2 = 1 ∧
      (ex_log_gc.append ex_entry_b).1.log = [ex_entry_b] ∧
      (ex_log_gc.append ex_entry_b).1.get (ex_log_gc.append ex_entry_b).2 = none ∧
      (ex_log_gc.append ex_entry_b).1.size ≤ (ex_log_gc.append ex_entry_b).2 :=
  have hr : LogReach ex_log_gc := LogReach.gc 0 (LogReach.append ex_entry_a LogReach.empty)
  have h := C25_append_index_after_gc ex_log_gc ex_entry_b hr (by decide)
  ⟨hr, by decide, by decide, by decide, by decide, (h.2.2.2 (by decide)).1,
    (h.2.2.2 (by decide)).2⟩

theorem sequencer_append_after_gc_reads_outside :
    ((Sequencer.init.append_local_entry 1 0 ['a']).1.assign_global_pos 0).2 = 0 ∧
      ((((Sequencer.init.append_local_entry 1 0 ['a']).1.assign_global_pos 0).1.gc_up_to 0
          ).append_local_entry 1 1 ['b']).2 = 1 ∧
      ((((Sequencer.init.append_local_entry 1 0 ['a']).1.assign_global_pos 0).1.gc_up_to 0
          ).append_local_entry 1 1 ['b']).1.log.log = [ex_entry_b] ∧
      ((((Sequencer.init.append_local_entry 1 0 ['a']).1.assign_global_pos 0).1.gc_up_to 0
          ).append_local_entry 1 1 ['b']).1.replicate_read 1 = none := by
  decide

end LazyLog
